import Mathlib

/-!
# DuelX rules engine (src/script.js): shallow embedding and verified properties

The global `gameState` object of `script.js` becomes an explicit `GameState`
value that every engine function takes and returns.  The buttons that the
engine hands to `renderActionOptions` are closures; they are kept in the state
as data (`ActionOption`, field `options`) so that "clicking an offered action"
is an input like any other.  The engine's inputs are calls of
`handleCardSelection(playerId, cardIndex)` for a card of the hand, clicks on a
rendered action button, mode changes and the new-match and next-round
buttons.  DOM rendering (including which card buttons are enabled), messages
and the log carry no engine state and are left out.  Positions are `Int`,
card values and counts are `Nat`; JavaScript arrays are lists in array order
(`push` appends, `pop` removes the last element).
-/

namespace DuelX

set_option maxRecDepth 100000

/-! ## Constants -/

/-- Source: `const BOARD_LENGTH = 23;` -/
def BOARD_LENGTH : Int := 23

/-- Source: `const HAND_SIZE = 5;` -/
def HAND_SIZE : Nat := 5

/-- Source: `const ROUNDS_TO_WIN = 5;` -/
def ROUNDS_TO_WIN : Nat := 5

/-! ## Data model -/

/-- Index into `gameState.players` (the `id` field of a player object). -/
inductive PId where
  | p0
  | p1
  deriving DecidableEq, Repr

/-- Source: `1 - playerId`. -/
def PId.other : PId → PId
  | .p0 => .p1
  | .p1 => .p0

/-- The value of the mode radio button.  The engine only ever compares the
string with `'basic'` and with `'advanced'`; `other` stands for any string
that is neither. -/
inductive Mode where
  | basic
  | advanced
  | other
  deriving DecidableEq, Repr

/-- The strings stored in `gameState.phase`. -/
inductive Phase where
  | idle
  | turn
  | attackStrengthen
  | awaitParry
  | awaitRetreatCard
  | advanceAttack
  | finalAttack
  | defenderTurn
  | roundEnd
  deriving DecidableEq, Repr

/-- The `meta.type` of an attack. -/
inductive AttackType where
  | standard
  | advanced
  deriving DecidableEq, Repr

/-- One entry of `gameState.players` (`id` and `name` are fixed by the slot). -/
structure Player where
  position : Int
  score : Nat
  hand : List Nat
  mustPlayBeforeDraw : Bool
  deriving DecidableEq, Repr

/-- An element `{ cardValue, cardIndex }` of `parrySelection`. -/
structure ParryItem where
  cardValue : Nat
  cardIndex : Nat
  deriving DecidableEq, Repr

/-- The object stored in `gameState.attackContext`.  `parrySelection` is
`undefined` (`none`) until `finalizeAttack` sets it to `[]`. -/
structure AttackContext where
  type : AttackType
  attackerId : PId
  defenderId : PId
  cards : List Nat
  total : Nat
  baseCard : Nat
  parrySelection : Option (List ParryItem)
  deriving DecidableEq, Repr

/-- The object stored in `gameState.pendingAdvance`. -/
structure PendingAdvance where
  playerId : PId
  moveDistance : Nat
  deriving DecidableEq, Repr

/-- The buttons passed to `renderActionOptions`, one constructor per closure
that the source builds, with the values the closure captures. -/
inductive ActionOption where
  /-- Buttons `Move v forward` and `Retreat v` of `showTurnOptions`:
  `movePlayer(player, cardIndex, cardValue, direction)`. -/
  | move (player : PId) (cardIndex cardValue : Nat) (direction : Int)
  /-- Button `Attack with v`: `initiateAttack(player, cardIndex, cardValue, standard)`. -/
  | attack (player : PId) (cardIndex cardValue : Nat)
  /-- Button `Advance & Attack`: `initiateAdvance(player, cardIndex, cardValue)`. -/
  | advance (player : PId) (cardIndex cardValue : Nat)
  /-- Button `Finish attack`: `finalizeAttack()`. -/
  | finishAttack
  /-- Button `Parry (select cards)`: only updates the message. -/
  | parryPrompt
  /-- Button `Retreat` of `finalizeAttack`: `initiateRetreat(defender)`. -/
  | retreat (defender : PId)
  /-- Button `Cancel retreat` of `initiateRetreat`. -/
  | cancelRetreat (defender : PId)
  /-- Button `Cancel advance`: `cancelAdvance(player, cardValue)`. -/
  | cancelAdvance (player : PId) (cardValue : Nat)
  /-- Button `Pass`: `resolveDeckDepletion()`. -/
  | pass
  deriving DecidableEq, Repr

/-- The `gameState` object, together with the currently rendered action
buttons (`options`). -/
structure GameState where
  mode : Mode
  round : Nat
  startingPlayer : PId
  activePlayer : Option PId
  player0 : Player
  player1 : Player
  deck : List Nat
  discard : List Nat
  phase : Phase
  attackContext : Option AttackContext
  pendingAdvance : Option PendingAdvance
  deckExhausted : Bool
  lastDrawer : Option PId
  finalAttackPending : Bool
  options : List ActionOption
  deriving DecidableEq, Repr

/-- Source: `gameState.players[id]`. -/
def GameState.player (s : GameState) : PId → Player
  | .p0 => s.player0
  | .p1 => s.player1

/-- Assignment to `gameState.players[id]`. -/
def GameState.setPlayer (s : GameState) (id : PId) (pl : Player) : GameState :=
  match id with
  | .p0 => { s with player0 := pl }
  | .p1 => { s with player1 := pl }

/-- Source: `opponentOf(playerId)`. -/
def opponentOf (s : GameState) (playerId : PId) : Player :=
  s.player playerId.other

/-- The initial `gameState` literal. -/
def initialState : GameState :=
  { mode := .basic, round := 1, startingPlayer := .p0, activePlayer := none,
    player0 := { position := 0, score := 0, hand := [], mustPlayBeforeDraw := false },
    player1 := { position := BOARD_LENGTH - 1, score := 0, hand := [],
                 mustPlayBeforeDraw := false },
    deck := [], discard := [], phase := .idle, attackContext := none,
    pendingAdvance := none, deckExhausted := false, lastDrawer := none,
    finalAttackPending := false, options := [] }

/-! ## Deck -/

/-- The nested loops of `buildDeck`, before the shuffle. -/
def orderedDeck : List Nat :=
  (List.range 5).flatMap fun k => List.replicate 5 (k + 1)

/-- Source: `[result[i], result[j]] = [result[j], result[i]]`. -/
def swapAt (result : List Nat) (i j : Nat) : List Nat :=
  (result.set i (result.getD j 0)).set j (result.getD i 0)

/-- The loop of `shuffle` from index `i` down to 1.  `rnd i` is the outcome of
`Math.random()` in iteration `i`, reduced to `j ∈ [0, i]`. -/
def shuffleLoop (rnd : Nat → Nat) : Nat → List Nat → List Nat
  | 0, result => result
  | i + 1, result => shuffleLoop rnd i (swapAt result (i + 1) (rnd (i + 1) % (i + 2)))

/-- Source: `shuffle(array)`, Fisher-Yates on a copy. -/
def shuffle (rnd : Nat → Nat) (array : List Nat) : List Nat :=
  shuffleLoop rnd (array.length - 1) array

/-- Source: `buildDeck()`. -/
def buildDeck (rnd : Nat → Nat) : List Nat :=
  shuffle rnd orderedDeck

/-- Source: `drawCard(player)`; pops the last card of the deck into the hand. -/
def drawCard (s : GameState) (id : PId) : GameState :=
  match s.deck.getLast? with
  | none => s
  | some card =>
    let s1 := { s with deck := s.deck.dropLast }
    let s2 := s1.setPlayer id { s1.player id with hand := (s1.player id).hand ++ [card] }
    let s3 := { s2 with lastDrawer := some id }
    if s3.deck.length = 0 then { s3 with deckExhausted := true } else s3

/-- The loop `while (hand.length < HAND_SIZE && deck.length > 0) drawCard(player)`,
bounded by `fuel` iterations. -/
def drawLoop : Nat → GameState → PId → GameState
  | 0, s, _ => s
  | fuel + 1, s, id =>
    if (s.player id).hand.length < HAND_SIZE ∧ s.deck.length > 0 then
      drawLoop fuel (drawCard s id) id
    else s

/-- Source: `drawToHand(player)`.  Every iteration pops a card, so `deck.length`
iterations always suffice. -/
def drawToHand (s : GameState) (id : PId) : GameState :=
  drawLoop s.deck.length s id

/-- Source: `drawIfAllowed(player)`. -/
def drawIfAllowed (s : GameState) (id : PId) : GameState :=
  if (s.player id).mustPlayBeforeDraw then
    s.setPlayer id { s.player id with mustPlayBeforeDraw := false }
  else
    drawLoop s.deck.length s id

/-- Source: `dealInitialHands()`, five rounds of one card to each player. -/
def dealInitialHands (s : GameState) : GameState :=
  (List.range HAND_SIZE).foldl (fun st _ => drawCard (drawCard st .p0) .p1) s

/-- Source: `startRound()`; `selected` is the checked mode radio and `rnd` the random
choices of the shuffle. -/
def startRound (s : GameState) (selected : Mode) (rnd : Nat → Nat) : GameState :=
  dealInitialHands
    { s with
      mode := selected
      deck := buildDeck rnd
      discard := []
      attackContext := none
      pendingAdvance := none
      deckExhausted := false
      lastDrawer := none
      finalAttackPending := false
      phase := .turn
      activePlayer := some s.startingPlayer
      player0 := { s.player0 with position := 0, hand := [], mustPlayBeforeDraw := false }
      player1 := { s.player1 with position := BOARD_LENGTH - 1, hand := [],
                                  mustPlayBeforeDraw := false }
      options := [] }

/-! ## Board geometry and elementary mutations -/

/-- Source: `isMoveLegal(player, cardValue, direction)`. -/
def isMoveLegal (s : GameState) (player : PId) (cardValue : Nat) (direction : Int) : Bool :=
  let opponent := opponentOf s player
  let target := (s.player player).position + (cardValue : Int) * direction
  if target < 0 ∨ target ≥ BOARD_LENGTH then false
  else if direction > 0 ∧ target ≥ opponent.position then false
  else if direction < 0 ∧ target ≤ opponent.position then false
  else true

/-- Source: `addToDiscard(cardValue)`. -/
def addToDiscard (s : GameState) (cardValue : Nat) : GameState :=
  { s with discard := s.discard ++ [cardValue] }

/-- Source: `removeCardFromHand(player, cardIndex)`, that is `hand.splice(cardIndex, 1)`. -/
def removeCardFromHand (s : GameState) (player : PId) (cardIndex : Nat) : GameState :=
  s.setPlayer player { s.player player with hand := (s.player player).hand.eraseIdx cardIndex }

/-- Source: `removeLastDiscard()`, that is `discard.pop()`. -/
def removeLastDiscard (s : GameState) : GameState :=
  { s with discard := s.discard.dropLast }

/-- The forward direction of a player: `player.id === 0 ? 1 : -1`. -/
def forwardDirection : PId → Int
  | .p0 => 1
  | .p1 => -1

/-- Source: `Math.abs(player.position - opponentOf(player.id).position)`. -/
def distance (s : GameState) (player : PId) : Nat :=
  ((s.player player).position - (opponentOf s player).position).natAbs

/-! ## Round end and end of turn -/

/-- Source: `concludeRound(winnerId)`; `none` is `null` (a drawn round). -/
def concludeRound (s : GameState) (winnerId : Option PId) : GameState :=
  let s1 := { s with phase := .roundEnd, attackContext := none, pendingAdvance := none,
                     finalAttackPending := false, options := [] }
  match winnerId with
  | none => s1
  | some w => s1.setPlayer w { s1.player w with score := (s1.player w).score + 1 }

/-- Source: `checkNoLegalMoves(playerId)`. -/
def checkNoLegalMoves (s : GameState) (playerId : PId) : Bool :=
  if s.deckExhausted then false
  else
    !((s.player playerId).hand.any fun cardValue =>
      isMoveLegal s playerId cardValue (forwardDirection playerId) ||
      isMoveLegal s playerId cardValue (-(forwardDirection playerId)) ||
      decide (distance s playerId = cardValue))

/-- Source: `triggerFinalAttackPhase(lastPlayerId)`. -/
def triggerFinalAttackPhase (s : GameState) (lastPlayerId : PId) : GameState :=
  { s with finalAttackPending := true, phase := .finalAttack,
           activePlayer := some lastPlayerId.other, options := [.pass] }

/-- Source: `endPlayerTurn(player)`. -/
def endPlayerTurn (s : GameState) (player : PId) : GameState :=
  if checkNoLegalMoves s player.other then concludeRound s (some player)
  else
    let s1 := drawIfAllowed s player
    if s1.deckExhausted ∧ ¬ s1.finalAttackPending then triggerFinalAttackPhase s1 player
    else { s1 with activePlayer := some player.other, phase := .turn, options := [] }

/-- Source: `movePlayer(player, cardIndex, cardValue, direction)`. -/
def movePlayer (s : GameState) (player : PId) (cardIndex cardValue : Nat) (direction : Int) :
    GameState :=
  let s1 := removeCardFromHand s player cardIndex
  let s2 := s1.setPlayer player
    { s1.player player with
      position := (s1.player player).position + (cardValue : Int) * direction }
  let s3 := addToDiscard s2 cardValue
  endPlayerTurn s3 player

/-- Source: `resolveDeckDepletion()`; the two nested `if`s of the tie-break are
written as one conjunction. -/
def resolveDeckDepletion (s : GameState) : GameState :=
  let s1 := { s with finalAttackPending := false }
  let attackGap := (s1.player0.position - s1.player1.position).natAbs
  let count0 := (s1.player0.hand.filter fun card => card = attackGap).length
  let count1 := (s1.player1.hand.filter fun card => card = attackGap).length
  if s1.mode ≠ .basic ∧ count0 ≠ count1 then
    concludeRound s1 (some (if count0 > count1 then .p0 else .p1))
  else
    let distance0 := s1.player0.position
    let distance1 := BOARD_LENGTH - 1 - s1.player1.position
    if distance0 = distance1 then concludeRound s1 none
    else concludeRound s1 (some (if distance0 > distance1 then .p0 else .p1))

/-! ## Attack protocol -/

/-- Source: `finalizeAttack()`.  With no attack context the first line throws
before anything is mutated. -/
def finalizeAttack (s : GameState) : GameState :=
  match s.attackContext with
  | none => s
  | some ctx =>
    let s1 := drawToHand s ctx.attackerId
    if s1.mode = .basic ∧ ctx.type = .standard then concludeRound s1 (some ctx.attackerId)
    else
      { s1 with
        phase := .awaitParry
        attackContext := some { ctx with parrySelection := some [] }
        options := .parryPrompt ::
          (if s1.mode = .advanced ∧ ctx.type = .advanced then [.retreat ctx.defenderId]
           else []) }

/-- Source: `initiateAttack(player, cardIndex, cardValue, meta)`. -/
def initiateAttack (s : GameState) (player : PId) (cardIndex cardValue : Nat)
    (type : AttackType) : GameState :=
  let s1 := removeCardFromHand s player cardIndex
  let ctx : AttackContext :=
    { type := type, attackerId := player, defenderId := player.other,
      cards := [cardValue], total := cardValue, baseCard := cardValue,
      parrySelection := none }
  let s2 := { s1 with attackContext := some ctx }
  let s3 := addToDiscard s2 cardValue
  if s3.mode ≠ .basic then
    { s3 with phase := .attackStrengthen, options := [.finishAttack] }
  else finalizeAttack s3

/-- Source: `handleAttackStrengthen(cardIndex, cardValue)`. -/
def handleAttackStrengthen (s : GameState) (cardIndex cardValue : Nat) : GameState :=
  match s.attackContext with
  | none => s
  | some ctx =>
    if cardValue ≠ ctx.baseCard then s
    else
      let s1 := removeCardFromHand s ctx.attackerId cardIndex
      let ctx1 : AttackContext :=
        { ctx with cards := ctx.cards ++ [cardValue], total := ctx.total + cardValue }
      let s2 := { s1 with attackContext := some ctx1 }
      addToDiscard s2 cardValue

/-- Source: `initiateRetreat(defender)`. -/
def initiateRetreat (s : GameState) (defender : PId) : GameState :=
  { s with phase := .awaitRetreatCard, options := [.cancelRetreat defender] }

/-- The `Cancel retreat` closure of `initiateRetreat`. -/
def cancelRetreat (s : GameState) : GameState :=
  { s with phase := .awaitParry, options := [.parryPrompt] }

/-- Source: `selection.sort((a, b) => b.cardIndex - a.cardIndex)`, the stable
sort by descending hand index. -/
def sortSelection (selection : List ParryItem) : List ParryItem :=
  selection.insertionSort fun a b => b.cardIndex ≤ a.cardIndex

/-- Source: `discardParrySelection(defender, selection)`.  (The in-place
reordering of the selection is not recorded: both callers drop the attack
context right afterwards.) -/
def discardParrySelection (s : GameState) (defender : PId) (selection : List ParryItem) :
    GameState :=
  (sortSelection selection).foldl
    (fun st item => addToDiscard (removeCardFromHand st defender item.cardIndex) item.cardValue)
    s

/-- Source: `performRetreat(cardIndex, cardValue)`. -/
def performRetreat (s : GameState) (cardIndex cardValue : Nat) : GameState :=
  match s.attackContext with
  | none => s
  | some ctx =>
    let defender := ctx.defenderId
    let direction : Int := match defender with
      | .p0 => -1
      | .p1 => 1
    if ¬ isMoveLegal s defender cardValue direction then s
    else
      let s1 := removeCardFromHand s defender cardIndex
      let s2 := s1.setPlayer defender
        { s1.player defender with
          position := (s1.player defender).position + (cardValue : Int) * direction }
      let s3 := addToDiscard s2 cardValue
      let s4 := drawToHand s3 defender
      { s4 with phase := .turn, attackContext := none, pendingAdvance := none, options := [] }

/-- Source: `resolveParry()`. -/
def resolveParry (s : GameState) : GameState :=
  match s.attackContext with
  | none => s
  | some ctx =>
    match ctx.parrySelection with
    | none => s
    | some selection =>
      let defender := ctx.defenderId
      let s1 := discardParrySelection s defender selection
      let s2 := s1.setPlayer defender { s1.player defender with mustPlayBeforeDraw := true }
      { s2 with phase := .defenderTurn, activePlayer := some defender, attackContext := none,
                pendingAdvance := none, options := [] }

/-- Source: `parrySelection.reduce((sum, card) => sum + card.cardValue, 0)`. -/
def selectionTotal (selection : List ParryItem) : Nat :=
  selection.foldl (fun sum card => sum + card.cardValue) 0

/-- Source: `handleParrySelection(cardIndex, cardValue)`.  Pushing onto an
undefined `parrySelection` throws before anything is mutated. -/
def handleParrySelection (s : GameState) (cardIndex cardValue : Nat) : GameState :=
  if s.phase = .awaitRetreatCard then performRetreat s cardIndex cardValue
  else
    match s.attackContext with
    | none => s
    | some ctx =>
      match ctx.parrySelection with
      | none => s
      | some selection =>
        let selection1 := selection ++ [{ cardValue := cardValue, cardIndex := cardIndex }]
        let s1 := { s with attackContext := some { ctx with parrySelection := some selection1 } }
        let requiredCards := ctx.cards.length
        let currentCount := selection1.length
        let currentTotal := selectionTotal selection1
        if currentCount = requiredCards then
          if currentTotal = ctx.total then resolveParry s1
          else concludeRound (discardParrySelection s1 ctx.defenderId selection1)
                 (some ctx.attackerId)
        else s1

/-! ## Advance-attack protocol -/

/-- Source: `initiateAdvance(player, cardIndex, cardValue)`. -/
def initiateAdvance (s : GameState) (player : PId) (cardIndex cardValue : Nat) : GameState :=
  let s1 := removeCardFromHand s player cardIndex
  let s2 := addToDiscard s1 cardValue
  let s3 := s2.setPlayer player
    { s2.player player with
      position := (s2.player player).position + (cardValue : Int) * forwardDirection player }
  { s3 with
    pendingAdvance := some { playerId := player, moveDistance := cardValue }
    phase := .advanceAttack
    options := [.cancelAdvance player cardValue] }

/-- Source: `cancelAdvance(player, cardValue)`. -/
def cancelAdvance (s : GameState) (player : PId) (cardValue : Nat) : GameState :=
  let s1 := s.setPlayer player
    { s.player player with
      position := (s.player player).position - (cardValue : Int) * forwardDirection player
      hand := (s.player player).hand ++ [cardValue] }
  let s2 := removeLastDiscard s1
  { s2 with pendingAdvance := none, phase := .turn, options := [] }

/-- Source: `canAdvance(player, cardIndex, cardValue)`. -/
def canAdvance (s : GameState) (player : PId) (cardIndex cardValue : Nat) : Bool :=
  let direction := forwardDirection player
  if ¬ isMoveLegal s player cardValue direction then false
  else
    let opponent := opponentOf s player
    let targetPosition := (s.player player).position + (cardValue : Int) * direction
    let distanceAfterAdvance := (targetPosition - opponent.position).natAbs
    (s.player player).hand.enum.any fun (idx, value) =>
      decide (idx ≠ cardIndex) && decide (value = distanceAfterAdvance)

/-- Source: `finalizeAdvanceAttack(player, cardIndex, cardValue)`. -/
def finalizeAdvanceAttack (s : GameState) (player : PId) (cardIndex cardValue : Nat) :
    GameState :=
  if cardValue ≠ distance s player then s
  else
    initiateAttack { s with phase := .turn, pendingAdvance := none } player cardIndex cardValue
      .advanced

/-- Source: `attemptFinalAttack(cardIndex, cardValue)`; `currentPlayer()` is
`players[activePlayer]`. -/
def attemptFinalAttack (s : GameState) (cardIndex cardValue : Nat) : GameState :=
  match s.activePlayer with
  | none => s
  | some player =>
    if cardValue ≠ distance s player then s
    else initiateAttack { s with finalAttackPending := false } player cardIndex cardValue
      .standard

/-! ## Card selection and offered actions -/

/-- Source: `showTurnOptions(player, cardIndex, cardValue)`; the result of the
function is the list of buttons it renders (none when no action is possible). -/
def showTurnOptions (s : GameState) (player : PId) (cardIndex cardValue : Nat) : GameState :=
  let forward := forwardDirection player
  let backward := -forward
  let moves : List ActionOption :=
    if ¬ s.deckExhausted then
      (if isMoveLegal s player cardValue forward
        then [ActionOption.move player cardIndex cardValue forward] else []) ++
      (if isMoveLegal s player cardValue backward
        then [ActionOption.move player cardIndex cardValue backward] else [])
    else []
  let attacks : List ActionOption :=
    if distance s player = cardValue then [.attack player cardIndex cardValue] else []
  let advances : List ActionOption :=
    if s.mode = .advanced ∧ ¬ s.deckExhausted ∧ canAdvance s player cardIndex cardValue
    then [.advance player cardIndex cardValue] else []
  { s with options := moves ++ attacks ++ advances }

/-- Source: `handleCardSelection(playerId, cardIndex)`.  Card buttons exist
only for the cards of a hand, so an index outside the hand is no input. -/
def handleCardSelection (s : GameState) (playerId : PId) (cardIndex : Nat) : GameState :=
  match (s.player playerId).hand[cardIndex]? with
  | none => s
  | some cardValue =>
    match s.pendingAdvance, decide (s.phase = .advanceAttack) with
    | some pending, true =>
      if playerId = pending.playerId then finalizeAdvanceAttack s playerId cardIndex cardValue
      else s
    | _, _ =>
      match s.phase with
      | .turn =>
        if s.activePlayer ≠ some playerId then s
        else showTurnOptions s playerId cardIndex cardValue
      | .attackStrengthen =>
        if (s.attackContext.map fun c => c.attackerId) ≠ some playerId then s
        else handleAttackStrengthen s cardIndex cardValue
      | .awaitParry | .awaitRetreatCard =>
        if (s.attackContext.map fun c => c.defenderId) ≠ some playerId then s
        else handleParrySelection s cardIndex cardValue
      | .finalAttack =>
        if s.activePlayer ≠ some playerId then s
        else attemptFinalAttack s cardIndex cardValue
      | .defenderTurn =>
        if s.activePlayer ≠ some playerId then s
        else showTurnOptions s playerId cardIndex cardValue
      | _ => s

/-- The `onClick` handler of a rendered button.  The buttons built by
`showTurnOptions` first clear the rendered options and then run their action. -/
def runOption (s : GameState) : ActionOption → GameState
  | .move player cardIndex cardValue direction =>
    movePlayer { s with options := [] } player cardIndex cardValue direction
  | .attack player cardIndex cardValue =>
    initiateAttack { s with options := [] } player cardIndex cardValue .standard
  | .advance player cardIndex cardValue =>
    initiateAdvance { s with options := [] } player cardIndex cardValue
  | .finishAttack => finalizeAttack s
  | .parryPrompt => s
  | .retreat defender => initiateRetreat s defender
  | .cancelRetreat _ => cancelRetreat s
  | .cancelAdvance player cardValue => cancelAdvance s player cardValue
  | .pass => resolveDeckDepletion s

/-- Clicking the `k`-th button currently rendered by `renderActionOptions`. -/
def clickOption (s : GameState) (k : Nat) : GameState :=
  match s.options[k]? with
  | none => s
  | some option => runOption s option

/-! ## Rounds and matches -/

/-- Source: `resetScores()`. -/
def resetScores (s : GameState) : GameState :=
  { s with player0 := { s.player0 with score := 0 }, player1 := { s.player1 with score := 0 } }

/-- Source: `startNewMatch()`. -/
def startNewMatch (s : GameState) (selected : Mode) (rnd : Nat → Nat) : GameState :=
  startRound { resetScores s with round := 1, startingPlayer := .p0 } selected rnd

/-- Source: `startNextRound()`. -/
def startNextRound (s : GameState) (selected : Mode) (rnd : Nat → Nat) : GameState :=
  if s.player0.score ≥ ROUNDS_TO_WIN ∨ s.player1.score ≥ ROUNDS_TO_WIN then s
  else
    startRound { s with round := s.round + 1, startingPlayer := s.startingPlayer.other }
      selected rnd

/-- The events the engine receives. -/
inductive Input where
  /-- A click on a card button: `handleCardSelection(playerId, cardIndex)`. -/
  | card (playerId : PId) (cardIndex : Nat)
  /-- A click on the `k`-th rendered action button. -/
  | click (k : Nat)
  /-- A change of the mode radio: `gameState.mode = getSelectedMode()`. -/
  | setMode (mode : Mode)
  /-- The new-game button; the mode radio and the shuffle are parameters. -/
  | newMatch (selected : Mode) (rnd : Nat → Nat)
  /-- The next-round button, which acts only in phase `round-end`. -/
  | nextRound (selected : Mode) (rnd : Nat → Nat)

/-- One event handled by the engine. -/
def step (s : GameState) : Input → GameState
  | .card playerId cardIndex => handleCardSelection s playerId cardIndex
  | .click k => clickOption s k
  | .setMode mode => { s with mode := mode }
  | .newMatch selected rnd => startNewMatch s selected rnd
  | .nextRound selected rnd =>
    if s.phase = .roundEnd then startNextRound s selected rnd else s

/-- Runs a sequence of events. -/
def run (s : GameState) (inputs : List Input) : GameState :=
  inputs.foldl step s

/-- The states the engine can be in after `startRound` and any sequence of events. -/
inductive Reachable : GameState → Prop where
  | start (s0 : GameState) (selected : Mode) (rnd : Nat → Nat) :
      Reachable (startRound s0 selected rnd)
  | step {s : GameState} (i : Input) : Reachable s → Reachable (step s i)

/-! ## A worked round

A concrete shuffle and the opening of a round in advanced mode, used to
evaluate the engine on inputs it really receives. -/

/-- Random choices of the shuffle that give the deck of `demoStart`. -/
def demoRnd (i : Nat) : Nat :=
  [0, 1, 2, 3, 4, 5, 6, 0, 1, 5, 9, 6, 12, 13, 14, 2, 3, 4, 7, 8, 9, 21, 22, 23, 24].getD i 0

/-- A fresh round in advanced mode: hands `[5,5,2,2,1]` and `[5,5,2,1,1]`. -/
def demoStart : GameState :=
  startRound initialState .advanced demoRnd

/-- Each player twice plays a 5 as a forward move: positions 10 and 12. -/
def demoApproach : List Input :=
  [.card .p0 0, .click 0, .card .p1 0, .click 0, .card .p0 0, .click 0, .card .p1 0, .click 0]

/-- Player 1 has moved once: positions 5 and 17, player 0 to play. -/
def demoMidState : GameState :=
  run demoStart [.card .p0 0, .click 0, .card .p1 0, .click 0]

/-- Player 0 attacks at distance 2 with a 2; the attack is in its strengthen phase. -/
def demoStrengthenState : GameState :=
  run demoStart (demoApproach ++ [.card .p0 0, .click 0])

/-- Player 0 has finished the attack with the single 2: player 1 must parry. -/
def demoParryState : GameState :=
  run demoStrengthenState [.click 0]

/-- Player 0 has strengthened with a second 2 and finished: player 1 must
parry two cards totalling 4. -/
def demoDoubleParryState : GameState :=
  run demoStrengthenState [.card .p0 0, .click 0]

/-- Player 1 has parried the single 2 with the 2 at hand index 4 and ripostes. -/
def demoRiposteState : GameState :=
  run demoParryState [.card .p1 4]

/-- Player 0 has moved twice and player 1 once: positions 10 and 17, player 1
to play with hand `[5, 2, 1, 1, 3]`, so that the 5 followed by the 2 is an
advance and attack. -/
def demoAdvanceState : GameState :=
  run demoStart [.card .p0 0, .click 0, .card .p1 0, .click 0, .card .p0 0, .click 0]

/-- The worked round played in basic mode up to positions 10 and 12: player 0
to play, holding a 2 at hand index 0. -/
def demoBasicState : GameState :=
  run (startRound initialState .basic demoRnd) demoApproach

/-- Random choices of the shuffle that give the deck of `endgameStart`. -/
def endgameRnd (i : Nat) : Nat :=
  [0, 1, 0, 0, 2, 3, 4, 6, 1, 2, 3, 4, 6, 13, 13, 15, 14, 17, 7, 8, 9, 11, 12, 13, 14].getD i 0

/-- A second round in advanced mode, played until the deck runs out: hands
`[3,3,2,2,5]` and `[3,3,2,4,4]`. -/
def endgameStart : GameState :=
  startRound initialState .advanced endgameRnd

/-- Seven forward moves (3, 3, 3, 3, 2, 2, 2) bring the players to 10 and 14.
Player 1 attacks with three 4s, player 0 parries with 5, 5, 2 and ripostes
with a move of 1, player 1 moves 1, and player 0 moves 1 and draws the last
four cards of the deck. -/
def endgameInputs : List Input :=
  [.card .p0 0, .click 0, .card .p1 0, .click 0, .card .p0 0, .click 0, .card .p1 0, .click 0,
   .card .p0 0, .click 0, .card .p1 0, .click 0, .card .p0 0, .click 0,
   .card .p1 0, .click 0, .card .p1 0, .card .p1 0, .click 0,
   .card .p0 0, .card .p0 1, .card .p0 2,
   .card .p0 0, .click 0, .card .p1 0, .click 0, .card .p0 0, .click 0]

/-- The deck has just run out: the final-attack window is open for player 1,
at distance 1. -/
def endgameFinalAttackState : GameState :=
  run endgameStart endgameInputs

/-- Player 1 has used the final-attack window to attack with a 1 and finished
the attack: player 0 must parry. -/
def endgameParryState : GameState :=
  run endgameFinalAttackState [.card .p1 0, .click 0]

/-- Random choices of the shuffle that give the deck of `stuckStart`. -/
def stuckRnd (i : Nat) : Nat :=
  [0, 1, 2, 1, 2, 3, 4, 1, 7, 8, 7, 8, 1, 13, 2, 13, 3, 14, 4, 8, 9, 21, 22, 23, 24].getD i 0

/-- A third round in advanced mode: hands `[5,5,2,1,1]` and `[5,5,2,3,3]`, and
the next cards of the deck are 1, 4, 1, 4, 2. -/
def stuckStart : GameState :=
  startRound initialState .advanced stuckRnd

/-- Each player twice plays a 5 as a forward move (positions 10 and 12, player 1
draws two 4s); player 0 attacks with the 2 and finishes the attack: player 1,
holding `[2, 3, 3, 4, 4]`, must parry. -/
def stuckParryState : GameState :=
  run stuckStart
    [.card .p0 0, .click 0, .card .p1 0, .click 0, .card .p0 0, .click 0, .card .p1 0, .click 0,
     .card .p0 0, .click 0, .click 0]

/-- Player 1 has parried with the 2 and ripostes with the hand `[3, 3, 4, 4]` at
distance 2, the deck still holding ten cards. -/
def stuckState : GameState :=
  step stuckParryState (.card .p1 0)

/-- Player 0 has parried the final attack with the 1 at hand index 0 and is
given a riposte turn with the hand `[2, 4, 4]` at distance 1, the deck being
exhausted. -/
def endgameRiposteState : GameState :=
  step endgameParryState (.card .p0 0)

/-! ## Properties of states -/

/-- The position ordering `0 ≤ pos0 < pos1 ≤ BOARD_LENGTH - 1`. -/
def PositionsOrdered (s : GameState) : Prop :=
  0 ≤ s.player0.position ∧ s.player0.position < s.player1.position ∧
    s.player1.position ≤ BOARD_LENGTH - 1

instance (s : GameState) : Decidable (PositionsOrdered s) := by
  unfold PositionsOrdered; infer_instance

/-- What an offered action needs of the current positions for the engine to
keep the board ordered when the button is clicked. -/
def optionSafe (s : GameState) : ActionOption → Prop
  | .move player _ cardValue direction => isMoveLegal s player cardValue direction = true
  | .advance player _ cardValue =>
    isMoveLegal s player cardValue (forwardDirection player) = true
  | .cancelAdvance player cardValue => PositionsOrdered (cancelAdvance s player cardValue)
  | _ => True

/-- The offered actions that never move a piece when clicked. -/
def plainOption : ActionOption → Prop
  | .move _ _ _ _ => False
  | .advance _ _ _ => False
  | .cancelAdvance _ _ => False
  | _ => True

/-- The inductive form of the position ordering: the board is ordered and
every offered action is safe to click. -/
def BoardInvariant (s : GameState) : Prop :=
  PositionsOrdered s ∧ ∀ o ∈ s.options, optionSafe s o

/-- The transition from `s` to `t` moves no piece and offers, besides actions
already offered in `s`, only actions that never move a piece. -/
def Quiet (s t : GameState) : Prop :=
  t.player0.position = s.player0.position ∧ t.player1.position = s.player1.position ∧
    ∀ o ∈ t.options, o ∈ s.options ∨ plainOption o

/-- The cards physically in play: `|deck| + |discard| + |hand0| + |hand1|`. -/
def physicalCount (s : GameState) : Nat :=
  s.deck.length + s.discard.length + s.player0.hand.length + s.player1.hand.length

/-- The length of `attackContext.cards`, taken as 0 when no attack is active. -/
def attackCards (s : GameState) : Nat :=
  match s.attackContext with
  | none => 0
  | some ctx => ctx.cards.length

/-- The sum `|deck| + |discard| + |hand0| + |hand1| + |attackContext.cards|`. -/
def cardTotal (s : GameState) : Nat :=
  physicalCount s + attackCards s

/-- A card click of the defender that repeats a hand index already recorded in
the parry selection in progress. -/
def repeatsParryIndex (s : GameState) : Input → Prop
  | .card playerId cardIndex =>
    s.phase = .awaitParry ∧
      match s.attackContext with
      | none => False
      | some ctx =>
        ctx.defenderId = playerId ∧
          cardIndex ∈ (ctx.parrySelection.getD []).map fun item => item.cardIndex
  | _ => False

instance (s : GameState) (i : Input) : Decidable (repeatsParryIndex s i) := by
  cases i <;> unfold repeatsParryIndex <;> try infer_instance
  cases s.attackContext <;> infer_instance

/-- No input of the sequence, run from `s`, repeats a parry index. -/
def distinctRun : GameState → List Input → Prop
  | _, [] => True
  | s, i :: inputs => ¬ repeatsParryIndex s i ∧ distinctRun (step s i) inputs

instance distinctRunDecidable : (s : GameState) → (inputs : List Input) →
    Decidable (distinctRun s inputs)
  | _, [] => isTrue trivial
  | s, i :: inputs =>
    have := distinctRunDecidable (step s i) inputs
    inferInstanceAs (Decidable (¬ repeatsParryIndex s i ∧ distinctRun (step s i) inputs))

/-- The states reachable by inputs in which no parry selection repeats a hand
index. -/
inductive ReachableDistinct : GameState → Prop where
  | start (s0 : GameState) (selected : Mode) (rnd : Nat → Nat) :
      ReachableDistinct (startRound s0 selected rnd)
  | step {s : GameState} (i : Input) :
      ReachableDistinct s → ¬ repeatsParryIndex s i → ReachableDistinct (step s i)

/-- The phases in which the defender answers an attack. -/
def inDefence (s : GameState) : Prop :=
  s.phase = .awaitParry ∨ s.phase = .awaitRetreatCard

/-- The phases in which `showTurnOptions` offers actions. -/
def inTurn (s : GameState) : Prop :=
  s.phase = .turn ∨ s.phase = .defenderTurn

/-- What an offered action needs of the current state for its click to move
exactly one card. -/
def optionFits (s : GameState) : ActionOption → Prop
  | .move player cardIndex _ _ => inTurn s ∧ cardIndex < (s.player player).hand.length
  | .attack player cardIndex _ => inTurn s ∧ cardIndex < (s.player player).hand.length
  | .advance player cardIndex _ => inTurn s ∧ cardIndex < (s.player player).hand.length
  | .retreat _ => inDefence s
  | .cancelRetreat _ => inDefence s
  | .cancelAdvance _ _ => s.discard ≠ []
  | _ => True

/-- While the defender answers an attack, the recorded parry selection holds
pairwise distinct indices of the defender's hand. -/
def selectionFits (s : GameState) : Prop :=
  inDefence s → ∀ ctx selection, s.attackContext = some ctx →
    ctx.parrySelection = some selection →
    (selection.map fun item => item.cardIndex).Nodup ∧
      ∀ item ∈ selection, item.cardIndex < (s.player ctx.defenderId).hand.length

/-- The inductive form of the card count: 25 cards, offered actions that fit
the state, and a parry selection that fits the defender's hand. -/
def CardInvariant (s : GameState) : Prop :=
  physicalCount s = 25 ∧ (∀ o ∈ s.options, optionFits s o) ∧ selectionFits s

/-- The legality rule in the words of the specification: the target
`position + cardValue * direction` stays on the board and neither lands on nor
crosses the opponent's current position. -/
def moveLegalSpec (s : GameState) (player : PId) (cardValue : Nat) (direction : Int) : Bool :=
  let position := (s.player player).position
  let opponent := (opponentOf s player).position
  let target := position + (cardValue : Int) * direction
  decide (0 ≤ target ∧ target ≤ BOARD_LENGTH - 1 ∧
    ¬ (min position target ≤ opponent ∧ opponent ≤ max position target))

/-- The value returned by `drawCard(player)`: `null` (`none`) on an empty deck,
otherwise the popped card. -/
def drawCardValue (s : GameState) : Option Nat :=
  s.deck.getLast?

/-- Player `w` gains exactly one point from `s` to `t` and the other player's
score is unchanged. -/
def wins (s t : GameState) (w : PId) : Prop :=
  (t.player w).score = (s.player w).score + 1 ∧
    (t.player w.other).score = (s.player w.other).score

/-- Both scores are the same in `s` and `t`. -/
def sameScores (s t : GameState) : Prop :=
  ∀ q, (t.player q).score = (s.player q).score

/-- The number of cards in a player's hand equal to the current distance
between the players (the potential attacks of the tie-break). -/
def potentialAttacks (s : GameState) (q : PId) : Nat :=
  ((s.player q).hand.filter fun card => card = distance s .p0).length

/-- The displacement of a player from the home position: `pos0` for player 0,
`BOARD_LENGTH - 1 - pos1` for player 1. -/
def displacement (s : GameState) : PId → Int
  | .p0 => s.player0.position
  | .p1 => BOARD_LENGTH - 1 - s.player1.position

/-- From `s` to `t` either no score changes, or the round ends and exactly one
player gains exactly one point. -/
def ScoreStep (s t : GameState) : Prop :=
  sameScores s t ∨ (t.phase = .roundEnd ∧ ∃ w, wins s t w)

/-- An active attack context is well formed: its cards all equal the base
card, the total is their sum (the base card times their number), there is at
least one card, and the base card is the current distance between the
players. -/
def attackWellFormed (s : GameState) : Prop :=
  ∀ ctx, s.attackContext = some ctx →
    (∀ c ∈ ctx.cards, c = ctx.baseCard) ∧ ctx.total = ctx.cards.sum ∧
    ctx.total = ctx.baseCard * ctx.cards.length ∧ ctx.cards ≠ [] ∧
    ctx.baseCard = distance s .p0

/-- What an offered action needs of the current state for its click to keep
the attack context well formed. -/
def optionSound (s : GameState) : ActionOption → Prop
  | .attack player _ cardValue => distance s player = cardValue
  | .move _ _ _ _ => s.attackContext = none
  | .advance _ _ _ => s.attackContext = none
  | .cancelAdvance _ _ => s.attackContext = none
  | _ => True

/-- The inductive form of attack-context well-formedness. -/
def AttackInvariant (s : GameState) : Prop :=
  attackWellFormed s ∧ (∀ o ∈ s.options, optionSound s o) ∧
    (inTurn s → s.attackContext = none)

/-- Moves are offered only while the deck is not exhausted, and only to the
active player. -/
def MovesOk (s : GameState) : Prop :=
  ∀ p i v d, ActionOption.move p i v d ∈ s.options →
    s.deckExhausted = false ∧ s.activePlayer = some p

/-- The inductive form of the final-attack window property: moves are offered
only before the deck runs out, and the window is open only after it. -/
def WindowInvariant (s : GameState) : Prop :=
  MovesOk s ∧ (s.phase = .finalAttack → s.deckExhausted = true)

/-- The transition from `s` to `t` keeps an exhausted deck exhausted and does
not open the final-attack window. -/
def Calm (s t : GameState) : Prop :=
  (s.deckExhausted = true → t.deckExhausted = true) ∧
    (t.phase = .finalAttack → s.phase = .finalAttack)

/-- A calm transition after which the offered moves are in order. -/
def Steady (s t : GameState) : Prop :=
  Calm s t ∧ MovesOk t

/-- The input makes the engine run `startRound` in state `s`. -/
def startsRound (s : GameState) : Input → Prop
  | .newMatch _ _ => True
  | .nextRound _ _ =>
    s.phase = .roundEnd ∧ ¬ (s.player0.score ≥ ROUNDS_TO_WIN ∨ s.player1.score ≥ ROUNDS_TO_WIN)
  | _ => False

instance (s : GameState) (i : Input) : Decidable (startsRound s i) := by
  cases i <;> unfold startsRound <;> infer_instance

/-- The inputs are handled without a call of `startRound`: they all belong to
the round that `s` is in. -/
def withinRound : GameState → List Input → Prop
  | _, [] => True
  | s, i :: rest => ¬ startsRound s i ∧ withinRound (step s i) rest

instance withinRoundDecidable : (s : GameState) → (inputs : List Input) →
    Decidable (withinRound s inputs)
  | _, [] => isTrue trivial
  | s, i :: rest =>
    have := withinRoundDecidable (step s i) rest
    inferInstanceAs (Decidable (¬ startsRound s i ∧ withinRound (step s i) rest))

/-- The input takes the engine from another phase into `final-attack`. -/
def entersFinalAttack (s : GameState) (i : Input) : Prop :=
  s.phase ≠ .finalAttack ∧ (step s i).phase = .finalAttack

instance (s : GameState) (i : Input) : Decidable (entersFinalAttack s i) := by
  unfold entersFinalAttack; infer_instance

/-- How often the phase `final-attack` is entered while `inputs` are handled. -/
def finalAttackEntries : GameState → List Input → Nat
  | _, [] => 0
  | s, i :: rest =>
    (if entersFinalAttack s i then 1 else 0) + finalAttackEntries (step s i) rest

/-- The removal in the words of the specification: the cards of a hand whose
index is not among `idxs`, in their original order; `k` is the index of the
first card of the list. -/
def keepFrom (idxs : List Nat) : Nat → List Nat → List Nat
  | _, [] => []
  | k, card :: rest =>
    if k ∈ idxs then keepFrom idxs (k + 1) rest else card :: keepFrom idxs (k + 1) rest

/-- The hand without the cards at the indices `idxs` (specification side). -/
def handWithout (hand : List Nat) (idxs : List Nat) : List Nat :=
  keepFrom idxs 0 hand

/-- No card of the hand of player `a` can be played: none gives a legal forward
move, a legal retreat or an attack at exactly the current distance. -/
def noPlay (s : GameState) (a : PId) : Prop :=
  ∀ v ∈ (s.player a).hand,
    isMoveLegal s a v (forwardDirection a) = false ∧
    isMoveLegal s a v (-forwardDirection a) = false ∧
    distance s a ≠ v

instance (s : GameState) (a : PId) : Decidable (noPlay s a) := by
  unfold noPlay; infer_instance

/-- A riposte that cannot be played: the phase is `defender-turn`, no action is
offered and the active player holds no playable card. -/
def StuckRiposte (s : GameState) (a : PId) : Prop :=
  s.phase = .defenderTurn ∧ s.options = [] ∧ s.activePlayer = some a ∧ noPlay s a

/-- The cards physically in play, as one list: deck, discard pile and both
hands. -/
def allCards (s : GameState) : List Nat :=
  s.deck ++ s.discard ++ s.player0.hand ++ s.player1.hand

/-- The number of cards of value `v` physically in play. -/
def valueCount (s : GameState) (v : Nat) : Nat :=
  s.deck.count v + s.discard.count v + s.player0.hand.count v + s.player1.hand.count v

/-- What an offered action needs of the current state for its click to move
exactly the card it names. -/
def optionExact (s : GameState) : ActionOption → Prop
  | .move player cardIndex cardValue _ =>
    inTurn s ∧ (s.player player).hand[cardIndex]? = some cardValue
  | .attack player cardIndex cardValue =>
    inTurn s ∧ (s.player player).hand[cardIndex]? = some cardValue
  | .advance player cardIndex cardValue =>
    inTurn s ∧ (s.player player).hand[cardIndex]? = some cardValue
  | .retreat _ => inDefence s
  | .cancelRetreat _ => inDefence s
  | .cancelAdvance _ cardValue =>
    s.phase = .advanceAttack ∧ s.discard.getLast? = some cardValue
  | _ => True

/-- While the defender answers an attack, the recorded parry selection holds
pairwise distinct indices of the defender's hand, each with the value of the
card at that index. -/
def selectionExact (s : GameState) : Prop :=
  inDefence s → ∀ ctx selection, s.attackContext = some ctx →
    ctx.parrySelection = some selection →
    (selection.map fun item => item.cardIndex).Nodup ∧
      ∀ item ∈ selection,
        (s.player ctx.defenderId).hand[item.cardIndex]? = some item.cardValue

/-- The inductive form of the deck composition: the cards in play are those of
the deck that was built, offered actions name the cards they move, and the
parry selection names the cards it discards. -/
def DeckInvariant (s : GameState) : Prop :=
  (∀ v, valueCount s v = orderedDeck.count v) ∧ (∀ o ∈ s.options, optionExact s o) ∧
    selectionExact s

/-! ## Basic facts about the elementary operations -/

theorem player_setPlayer_same (s : GameState) (id : PId) (pl : Player) :
    (s.setPlayer id pl).player id = pl := by
  cases id <;> rfl

theorem player_setPlayer_other (s : GameState) (id : PId) (pl : Player) :
    (s.setPlayer id pl).player id.other = s.player id.other := by
  cases id <;> rfl

theorem setPlayer_mode (s : GameState) (id : PId) (pl : Player) :
    (s.setPlayer id pl).mode = s.mode := by
  cases id <;> rfl

theorem setPlayer_round (s : GameState) (id : PId) (pl : Player) :
    (s.setPlayer id pl).round = s.round := by
  cases id <;> rfl

theorem setPlayer_startingPlayer (s : GameState) (id : PId) (pl : Player) :
    (s.setPlayer id pl).startingPlayer = s.startingPlayer := by
  cases id <;> rfl

theorem setPlayer_activePlayer (s : GameState) (id : PId) (pl : Player) :
    (s.setPlayer id pl).activePlayer = s.activePlayer := by
  cases id <;> rfl

theorem setPlayer_deck (s : GameState) (id : PId) (pl : Player) :
    (s.setPlayer id pl).deck = s.deck := by
  cases id <;> rfl

theorem setPlayer_discard (s : GameState) (id : PId) (pl : Player) :
    (s.setPlayer id pl).discard = s.discard := by
  cases id <;> rfl

theorem setPlayer_phase (s : GameState) (id : PId) (pl : Player) :
    (s.setPlayer id pl).phase = s.phase := by
  cases id <;> rfl

theorem setPlayer_attackContext (s : GameState) (id : PId) (pl : Player) :
    (s.setPlayer id pl).attackContext = s.attackContext := by
  cases id <;> rfl

theorem setPlayer_pendingAdvance (s : GameState) (id : PId) (pl : Player) :
    (s.setPlayer id pl).pendingAdvance = s.pendingAdvance := by
  cases id <;> rfl

theorem setPlayer_deckExhausted (s : GameState) (id : PId) (pl : Player) :
    (s.setPlayer id pl).deckExhausted = s.deckExhausted := by
  cases id <;> rfl

theorem setPlayer_lastDrawer (s : GameState) (id : PId) (pl : Player) :
    (s.setPlayer id pl).lastDrawer = s.lastDrawer := by
  cases id <;> rfl

theorem setPlayer_finalAttackPending (s : GameState) (id : PId) (pl : Player) :
    (s.setPlayer id pl).finalAttackPending = s.finalAttackPending := by
  cases id <;> rfl

theorem setPlayer_options (s : GameState) (id : PId) (pl : Player) :
    (s.setPlayer id pl).options = s.options := by
  cases id <;> rfl

theorem removeCardFromHand_mode (s : GameState) (player : PId) (cardIndex : Nat) :
    (removeCardFromHand s player cardIndex).mode = s.mode := by
  cases player <;> rfl

theorem removeCardFromHand_round (s : GameState) (player : PId) (cardIndex : Nat) :
    (removeCardFromHand s player cardIndex).round = s.round := by
  cases player <;> rfl

theorem removeCardFromHand_startingPlayer (s : GameState) (player : PId) (cardIndex : Nat) :
    (removeCardFromHand s player cardIndex).startingPlayer = s.startingPlayer := by
  cases player <;> rfl

theorem removeCardFromHand_activePlayer (s : GameState) (player : PId) (cardIndex : Nat) :
    (removeCardFromHand s player cardIndex).activePlayer = s.activePlayer := by
  cases player <;> rfl

theorem removeCardFromHand_deck (s : GameState) (player : PId) (cardIndex : Nat) :
    (removeCardFromHand s player cardIndex).deck = s.deck := by
  cases player <;> rfl

theorem removeCardFromHand_discard (s : GameState) (player : PId) (cardIndex : Nat) :
    (removeCardFromHand s player cardIndex).discard = s.discard := by
  cases player <;> rfl

theorem removeCardFromHand_phase (s : GameState) (player : PId) (cardIndex : Nat) :
    (removeCardFromHand s player cardIndex).phase = s.phase := by
  cases player <;> rfl

theorem removeCardFromHand_attackContext (s : GameState) (player : PId) (cardIndex : Nat) :
    (removeCardFromHand s player cardIndex).attackContext = s.attackContext := by
  cases player <;> rfl

theorem removeCardFromHand_pendingAdvance (s : GameState) (player : PId) (cardIndex : Nat) :
    (removeCardFromHand s player cardIndex).pendingAdvance = s.pendingAdvance := by
  cases player <;> rfl

theorem removeCardFromHand_deckExhausted (s : GameState) (player : PId) (cardIndex : Nat) :
    (removeCardFromHand s player cardIndex).deckExhausted = s.deckExhausted := by
  cases player <;> rfl

theorem removeCardFromHand_lastDrawer (s : GameState) (player : PId) (cardIndex : Nat) :
    (removeCardFromHand s player cardIndex).lastDrawer = s.lastDrawer := by
  cases player <;> rfl

theorem removeCardFromHand_finalAttackPending (s : GameState) (player : PId) (cardIndex : Nat) :
    (removeCardFromHand s player cardIndex).finalAttackPending = s.finalAttackPending := by
  cases player <;> rfl

theorem removeCardFromHand_options (s : GameState) (player : PId) (cardIndex : Nat) :
    (removeCardFromHand s player cardIndex).options = s.options := by
  cases player <;> rfl

theorem selectionTotal_append (sel : List ParryItem) (it : ParryItem) :
    selectionTotal (sel ++ [it]) = selectionTotal sel + it.cardValue := by
  simp [selectionTotal, List.foldl_append]

/-- The fold of `discardParrySelection` over an already sorted selection, in
closed form: the defender's hand loses the cards at the listed indices, one
after the other, and the discard pile gains the recorded values. -/
theorem discardFold_eq (d : PId) (l : List ParryItem) (s : GameState) :
    l.foldl (fun st item =>
        addToDiscard (removeCardFromHand st d item.cardIndex) item.cardValue) s =
      { s.setPlayer d { s.player d with
          hand := l.foldl (fun h item => h.eraseIdx item.cardIndex) (s.player d).hand } with
        discard := s.discard ++ l.map fun item => item.cardValue } := by
  induction l generalizing s with
  | nil => cases d <;> simp [GameState.setPlayer, GameState.player]
  | cons it l ih =>
    simp only [List.foldl_cons, List.map_cons]
    rw [ih]
    cases d <;>
      simp [addToDiscard, removeCardFromHand, GameState.setPlayer, GameState.player]

/-- Closed form of `discardParrySelection`. -/
theorem discardParrySelection_eq (s : GameState) (d : PId) (sel : List ParryItem) :
    discardParrySelection s d sel =
      { s.setPlayer d { s.player d with
          hand := (sortSelection sel).foldl (fun h item => h.eraseIdx item.cardIndex)
            (s.player d).hand } with
        discard := s.discard ++ (sortSelection sel).map fun item => item.cardValue } :=
  discardFold_eq d (sortSelection sel) s

/-- What `discardParrySelection` leaves alone: everything but the defender's
hand and the discard pile. -/
theorem discardParrySelection_frame (s : GameState) (d : PId) (sel : List ParryItem) :
    (discardParrySelection s d sel).deck = s.deck ∧
    (discardParrySelection s d sel).phase = s.phase ∧
    (discardParrySelection s d sel).mode = s.mode ∧
    (discardParrySelection s d sel).options = s.options ∧
    (discardParrySelection s d sel).attackContext = s.attackContext ∧
    (discardParrySelection s d sel).pendingAdvance = s.pendingAdvance ∧
    (discardParrySelection s d sel).activePlayer = s.activePlayer ∧
    (discardParrySelection s d sel).deckExhausted = s.deckExhausted ∧
    (discardParrySelection s d sel).finalAttackPending = s.finalAttackPending ∧
    (discardParrySelection s d sel).player d.other = s.player d.other ∧
    (∀ q, ((discardParrySelection s d sel).player q).position = (s.player q).position) ∧
    (∀ q, ((discardParrySelection s d sel).player q).score = (s.player q).score) ∧
    (∀ q, ((discardParrySelection s d sel).player q).mustPlayBeforeDraw =
      (s.player q).mustPlayBeforeDraw) := by
  rw [discardParrySelection_eq]
  refine ⟨?_, ?_, ?_, ?_, ?_, ?_, ?_, ?_, ?_, ?_, ?_, ?_, ?_⟩ <;>
    first
    | (cases d <;> simp [GameState.setPlayer, GameState.player, PId.other]; done)
    | (intro q; cases d <;> cases q <;> simp [GameState.setPlayer, GameState.player])

/-- The winner of a concluded round gains one point; the phase is `round-end`
and every sub-protocol is cleared. -/
theorem concludeRound_some (s : GameState) (w : PId) :
    (concludeRound s (some w)).phase = .roundEnd ∧
    (concludeRound s (some w)).attackContext = none ∧
    (concludeRound s (some w)).pendingAdvance = none ∧
    (concludeRound s (some w)).options = [] ∧
    ((concludeRound s (some w)).player w).score = (s.player w).score + 1 ∧
    ((concludeRound s (some w)).player w.other).score = (s.player w.other).score := by
  cases w <;> simp [concludeRound, GameState.setPlayer, GameState.player, PId.other]

/-- In phase `await-parry` a card click of the defender is handed to
`handleParrySelection`. -/
theorem handleCardSelection_awaitParry (s : GameState) (ctx : AttackContext)
    (cardIndex cardValue : Nat)
    (hphase : s.phase = .awaitParry) (hctx : s.attackContext = some ctx)
    (hcard : (s.player ctx.defenderId).hand[cardIndex]? = some cardValue) :
    handleCardSelection s ctx.defenderId cardIndex =
      handleParrySelection s cardIndex cardValue := by
  simp [handleCardSelection, hcard, hphase, hctx]

/-- The three outcomes of `handleParrySelection` in phase `await-parry`. -/
theorem handleParrySelection_eq (s : GameState) (ctx : AttackContext) (sel : List ParryItem)
    (cardIndex cardValue : Nat)
    (hphase : s.phase = .awaitParry) (hctx : s.attackContext = some ctx)
    (hsel : ctx.parrySelection = some sel) :
    handleParrySelection s cardIndex cardValue =
      if sel.length + 1 = ctx.cards.length then
        if selectionTotal (sel ++ [⟨cardValue, cardIndex⟩]) = ctx.total then
          resolveParry
            { s with attackContext := some { ctx with parrySelection := some (sel ++ [⟨cardValue, cardIndex⟩]) } }
        else
          concludeRound (discardParrySelection
            { s with attackContext := some { ctx with parrySelection := some (sel ++ [⟨cardValue, cardIndex⟩]) } }
            ctx.defenderId (sel ++ [⟨cardValue, cardIndex⟩])) (some ctx.attackerId)
      else
        { s with attackContext := some { ctx with parrySelection := some (sel ++ [⟨cardValue, cardIndex⟩]) } } := by
  unfold handleParrySelection
  rw [if_neg (by rw [hphase]; decide)]
  simp only [hctx, hsel, List.length_append, List.length_singleton]

/-- Closed form of `resolveParry` on a state whose attack carries a selection. -/
theorem resolveParry_eq (s : GameState) (ctx : AttackContext) (sel : List ParryItem)
    (hctx : s.attackContext = some ctx) (hsel : ctx.parrySelection = some sel) :
    resolveParry s =
      { (discardParrySelection s ctx.defenderId sel).setPlayer ctx.defenderId
          { (discardParrySelection s ctx.defenderId sel).player ctx.defenderId with
            mustPlayBeforeDraw := true } with
        phase := .defenderTurn, activePlayer := some ctx.defenderId, attackContext := none,
        pendingAdvance := none, options := [] } := by
  unfold resolveParry
  simp only [hctx, hsel]

/-! ## Parry -/

/-- Claim C4 (parry exactness).  In phase `await-parry`, when the defender
selects a card that completes the required count, the parry succeeds (attack
voided, phase `defender-turn`) if the selected values sum to the attack total
and fails otherwise (phase `round-end`, attacker's score plus one); a selection
that leaves the count below the required number only records the card. -/
theorem parry_exactness (s : GameState) (ctx : AttackContext) (sel : List ParryItem)
    (cardIndex cardValue : Nat)
    (hphase : s.phase = .awaitParry) (hctx : s.attackContext = some ctx)
    (hsel : ctx.parrySelection = some sel)
    (hcard : (s.player ctx.defenderId).hand[cardIndex]? = some cardValue) :
    (sel.length + 1 = ctx.cards.length →
      selectionTotal (sel ++ [⟨cardValue, cardIndex⟩]) = ctx.total →
      (handleCardSelection s ctx.defenderId cardIndex).phase = .defenderTurn ∧
      (handleCardSelection s ctx.defenderId cardIndex).attackContext = none) ∧
    (sel.length + 1 = ctx.cards.length →
      selectionTotal (sel ++ [⟨cardValue, cardIndex⟩]) ≠ ctx.total →
      (handleCardSelection s ctx.defenderId cardIndex).phase = .roundEnd ∧
      (handleCardSelection s ctx.defenderId cardIndex).attackContext = none ∧
      ((handleCardSelection s ctx.defenderId cardIndex).player ctx.attackerId).score =
        (s.player ctx.attackerId).score + 1) ∧
    (sel.length + 1 < ctx.cards.length →
      handleCardSelection s ctx.defenderId cardIndex =
        { s with attackContext := some { ctx with parrySelection := some (sel ++ [⟨cardValue, cardIndex⟩]) } }) := by
  rw [handleCardSelection_awaitParry s ctx cardIndex cardValue hphase hctx hcard,
    handleParrySelection_eq s ctx sel cardIndex cardValue hphase hctx hsel]
  refine ⟨?_, ?_, ?_⟩
  · intro hcount htotal
    rw [if_pos hcount, if_pos htotal, resolveParry_eq _ _ _ rfl rfl]
    exact ⟨rfl, rfl⟩
  · intro hcount htotal
    rw [if_pos hcount, if_neg htotal]
    have hf := discardParrySelection_frame
      { s with attackContext := some { ctx with parrySelection := some (sel ++ [⟨cardValue, cardIndex⟩]) } }
      ctx.defenderId (sel ++ [⟨cardValue, cardIndex⟩])
    have hscore := hf.2.2.2.2.2.2.2.2.2.2.2.1 ctx.attackerId
    have hc := concludeRound_some (discardParrySelection
      { s with attackContext := some { ctx with parrySelection := some (sel ++ [⟨cardValue, cardIndex⟩]) } }
      ctx.defenderId (sel ++ [⟨cardValue, cardIndex⟩])) ctx.attackerId
    refine ⟨hc.1, hc.2.1, ?_⟩
    rw [hc.2.2.2.2.1, hscore]
    cases ctx.attackerId <;> rfl
  · intro hcount
    rw [if_neg (by omega)]

/-- Claim C4, witness: in the worked round player 1 parries the single 2 with
the 2 at hand index 4. -/
theorem parry_exactness_witness :
    (handleCardSelection demoParryState .p1 4).phase = .defenderTurn ∧
    (handleCardSelection demoParryState .p1 4).attackContext = none :=
  (parry_exactness demoParryState
    { type := .standard, attackerId := .p0, defenderId := .p1, cards := [2], total := 2,
      baseCard := 2, parrySelection := some [] } [] 4 2
    (by decide) (by decide) rfl (by decide)).1 (by decide) (by decide)

/-- Claim C6 (successful parry transition).  When the defender's selection
completes the count with the exact total, the resulting state has phase
`defender-turn`, the defender active, attack context and pending advance
cleared, the defender's `mustPlayBeforeDraw` set, and the deck, both positions
and both scores unchanged. -/
theorem parry_success_transition (s : GameState) (ctx : AttackContext)
    (sel : List ParryItem) (cardIndex cardValue : Nat)
    (hphase : s.phase = .awaitParry) (hctx : s.attackContext = some ctx)
    (hsel : ctx.parrySelection = some sel)
    (hcard : (s.player ctx.defenderId).hand[cardIndex]? = some cardValue)
    (hcount : sel.length + 1 = ctx.cards.length)
    (htotal : selectionTotal (sel ++ [⟨cardValue, cardIndex⟩]) = ctx.total) :
    (handleCardSelection s ctx.defenderId cardIndex).phase = .defenderTurn ∧
    (handleCardSelection s ctx.defenderId cardIndex).activePlayer = some ctx.defenderId ∧
    (handleCardSelection s ctx.defenderId cardIndex).attackContext = none ∧
    (handleCardSelection s ctx.defenderId cardIndex).pendingAdvance = none ∧
    ((handleCardSelection s ctx.defenderId cardIndex).player ctx.defenderId).mustPlayBeforeDraw
      = true ∧
    (handleCardSelection s ctx.defenderId cardIndex).deck = s.deck ∧
    (∀ q, ((handleCardSelection s ctx.defenderId cardIndex).player q).position =
      (s.player q).position) ∧
    (∀ q, ((handleCardSelection s ctx.defenderId cardIndex).player q).score =
      (s.player q).score) := by
  rw [handleCardSelection_awaitParry s ctx cardIndex cardValue hphase hctx hcard,
    handleParrySelection_eq s ctx sel cardIndex cardValue hphase hctx hsel,
    if_pos hcount, if_pos htotal, resolveParry_eq _ _ _ rfl rfl]
  have hf := discardParrySelection_frame
    { s with attackContext := some { ctx with parrySelection := some (sel ++ [⟨cardValue, cardIndex⟩]) } }
    ctx.defenderId (sel ++ [⟨cardValue, cardIndex⟩])
  obtain ⟨hdeck, -, -, -, -, -, -, -, -, -, hpos, hscore, -⟩ := hf
  have hp0 : ∀ q, (GameState.player
      { s with attackContext := some { ctx with parrySelection := some (sel ++ [⟨cardValue, cardIndex⟩]) } } q)
      = s.player q := fun q => by cases q <;> rfl
  simp only [hp0] at hpos hscore
  generalize discardParrySelection
    { s with attackContext := some { ctx with parrySelection := some (sel ++ [⟨cardValue, cardIndex⟩]) } }
    ctx.defenderId (sel ++ [⟨cardValue, cardIndex⟩]) = t at hdeck hpos hscore ⊢
  generalize ctx.defenderId = d
  refine ⟨rfl, rfl, rfl, rfl, ?_, ?_, ?_, ?_⟩
  · cases d <;> rfl
  · cases d <;> exact hdeck
  · intro q
    rw [← hpos q]
    cases d <;> cases q <;> rfl
  · intro q
    rw [← hscore q]
    cases d <;> cases q <;> rfl

/-- Claim C6, witness: the parry of the worked round. -/
theorem parry_success_transition_witness :
    (handleCardSelection demoParryState .p1 4).phase = .defenderTurn ∧
    (handleCardSelection demoParryState .p1 4).activePlayer = some .p1 ∧
    (handleCardSelection demoParryState .p1 4).attackContext = none ∧
    (handleCardSelection demoParryState .p1 4).pendingAdvance = none ∧
    ((handleCardSelection demoParryState .p1 4).player .p1).mustPlayBeforeDraw = true ∧
    (handleCardSelection demoParryState .p1 4).deck = demoParryState.deck ∧
    (∀ q, ((handleCardSelection demoParryState .p1 4).player q).position =
      (demoParryState.player q).position) ∧
    (∀ q, ((handleCardSelection demoParryState .p1 4).player q).score =
      (demoParryState.player q).score) :=
  parry_success_transition demoParryState
    { type := .standard, attackerId := .p0, defenderId := .p1, cards := [2], total := 2,
      baseCard := 2, parrySelection := some [] } [] 4 2
    (by decide) (by decide) rfl (by decide) (by decide) (by decide)

/-! ## Strengthening -/

/-- Claim C8 (strengthening restriction).  In phase `attack-strengthen` a card
of the attacker whose value differs from the base card leaves the whole state
unchanged; a card equal to the base card leaves the attacker's hand, is
appended to the attack's cards (and to the discard pile), and adds its value
to the total. -/
theorem strengthen_restriction (s : GameState) (ctx : AttackContext)
    (cardIndex cardValue : Nat)
    (hphase : s.phase = .attackStrengthen) (hctx : s.attackContext = some ctx)
    (hcard : (s.player ctx.attackerId).hand[cardIndex]? = some cardValue) :
    (cardValue ≠ ctx.baseCard → handleCardSelection s ctx.attackerId cardIndex = s) ∧
    (cardValue = ctx.baseCard →
      handleCardSelection s ctx.attackerId cardIndex =
        { s.setPlayer ctx.attackerId { s.player ctx.attackerId with
            hand := (s.player ctx.attackerId).hand.eraseIdx cardIndex } with
          attackContext := some { ctx with cards := ctx.cards ++ [cardValue], total := ctx.total + cardValue }
          discard := s.discard ++ [cardValue] }) := by
  have h : handleCardSelection s ctx.attackerId cardIndex =
      handleAttackStrengthen s cardIndex cardValue := by
    simp [handleCardSelection, hcard, hphase, hctx]
  rw [h]
  unfold handleAttackStrengthen
  simp only [hctx]
  refine ⟨fun hne => by rw [if_pos hne], fun heq => ?_⟩
  rw [if_neg (by simpa using heq)]
  cases ctx.attackerId <;> rfl

/-- Claim C8, witness: in the worked round player 0 strengthens the attack of
base card 2 with the second 2. -/
theorem strengthen_restriction_witness :
    handleCardSelection demoStrengthenState .p0 0 =
      { demoStrengthenState.setPlayer .p0 { demoStrengthenState.player .p0 with
          hand := (demoStrengthenState.player .p0).hand.eraseIdx 0 } with
        attackContext := some
          { type := .standard, attackerId := .p0, defenderId := .p1, cards := [2, 2],
            total := 4, baseCard := 2, parrySelection := none }
        discard := demoStrengthenState.discard ++ [2] } :=
  (strengthen_restriction demoStrengthenState
    { type := .standard, attackerId := .p0, defenderId := .p1, cards := [2], total := 2,
      baseCard := 2, parrySelection := none } 0 2 (by decide) (by decide) (by decide)).2 rfl

/-! ## Advance and attack -/

/-- On an ordered board a forward move is legal exactly when the card is
strictly smaller than the distance between the players. -/
theorem isMoveLegal_forward_iff (s : GameState) (player : PId) (cardValue : Nat)
    (hboard : PositionsOrdered s) :
    isMoveLegal s player cardValue (forwardDirection player) = true ↔
      cardValue < distance s player := by
  obtain ⟨h0, hlt, h1⟩ := hboard
  simp only [BOARD_LENGTH] at h1
  cases player <;>
    simp only [isMoveLegal, forwardDirection, distance, opponentOf, GameState.player, PId.other,
      BOARD_LENGTH] <;>
    split_ifs <;> simp <;> omega

/-- Claim C10 (advance precondition).  On an ordered board `canAdvance` holds
exactly when the card is strictly smaller than the current distance (the
forward move is legal) and some other hand index holds a card equal to the
distance after the move. -/
theorem canAdvance_iff (s : GameState) (player : PId) (cardIndex cardValue : Nat)
    (hboard : PositionsOrdered s) :
    canAdvance s player cardIndex cardValue = true ↔
      cardValue < distance s player ∧
        ∃ j, j ≠ cardIndex ∧
          (s.player player).hand[j]? = some (distance s player - cardValue) := by
  have hlegal := isMoveLegal_forward_iff s player cardValue hboard
  unfold canAdvance
  by_cases hl : isMoveLegal s player cardValue (forwardDirection player) = true
  · have hd : cardValue < distance s player := hlegal.1 hl
    have hafter : ((s.player player).position + (cardValue : Int) * forwardDirection player
        - (opponentOf s player).position).natAbs = distance s player - cardValue := by
      obtain ⟨h0, hlt, h1⟩ := hboard
      cases player <;>
        simp only [forwardDirection, distance, opponentOf, GameState.player, PId.other] at hd ⊢ <;>
        omega
    simp only [hl, not_true_eq_false, if_false, hafter, List.any_eq_true, Bool.and_eq_true,
      decide_eq_true_eq, Prod.exists, List.mk_mem_enum_iff_getElem?]
    constructor
    · rintro ⟨j, x, hjx, hj, hx⟩
      exact ⟨hd, j, hj, by rw [hjx, hx]⟩
    · rintro ⟨-, j, hj, hjx⟩
      exact ⟨j, _, hjx, hj, rfl⟩
  · have hd : ¬ cardValue < distance s player := fun h => hl (hlegal.2 h)
    simp [hl, hd]

/-- Claim C10, witness: in the worked round, at positions 10 and 17, player 1
may advance with the 5 at hand index 0, because hand index 1 holds the 2 that
matches the distance after the move. -/
theorem canAdvance_iff_witness :
    canAdvance demoAdvanceState .p1 0 5 = true ∧
    (canAdvance demoAdvanceState .p1 0 5 = true ↔
      5 < distance demoAdvanceState .p1 ∧
        ∃ j, j ≠ 0 ∧
          (demoAdvanceState.player .p1).hand[j]? = some (distance demoAdvanceState .p1 - 5)) :=
  ⟨by decide!, canAdvance_iff demoAdvanceState .p1 0 5 (by decide!)⟩

/-- Removing the card at an index and pushing its value back gives the same
multiset of cards. -/
theorem eraseIdx_append_perm (l : List Nat) (i v : Nat) (h : l[i]? = some v) :
    (l.eraseIdx i ++ [v]).Perm l := by
  induction l generalizing i with
  | nil => simp at h
  | cons a l ih =>
    cases i with
    | zero =>
      simp only [List.getElem?_cons_zero, Option.some.injEq] at h
      subst h
      exact List.perm_append_singleton a l
    | succ i =>
      simp only [List.getElem?_cons_succ] at h
      simp [ih i h]

/-- After `initiateAdvance`, a card click that is not the advancing player's
card matching the new distance is rejected: the state does not change. -/
theorem handleCardSelection_advance_rejected (s : GameState) (player : PId)
    (cardIndex cardValue : Nat) (q : PId) (j : Nat)
    (hrej : q = player →
      ((initiateAdvance s player cardIndex cardValue).player player).hand[j]? ≠
        some (distance (initiateAdvance s player cardIndex cardValue) player)) :
    handleCardSelection (initiateAdvance s player cardIndex cardValue) q j =
      initiateAdvance s player cardIndex cardValue := by
  generalize hs1 : initiateAdvance s player cardIndex cardValue = s1 at hrej ⊢
  have hpend : s1.pendingAdvance = some { playerId := player, moveDistance := cardValue } := by
    rw [← hs1]; rfl
  have hphase : s1.phase = .advanceAttack := by rw [← hs1]; rfl
  unfold handleCardSelection
  cases hget : (s1.player q).hand[j]? with
  | none => rfl
  | some w =>
    simp only [hpend, hphase, decide_True]
    by_cases hq : q = player
    · subst hq
      have hw : w ≠ distance s1 q := fun h => hrej rfl (by rw [hget, h])
      simp [finalizeAdvanceAttack, hw]
    · simp [hq]

/-- Claim C9 (advance-attack reversibility).  Starting an advance with the
card `cardValue` at hand index `cardIndex`, then any number of rejected
second-card selections, then `Cancel advance`, restores both positions, the
discard pile (as a list), the multiset of the advancing player's hand (the
other hand exactly) and leaves the deck unchanged, with `pendingAdvance`
cleared and phase `turn`. -/
theorem advance_cancel_roundtrip (s : GameState) (player : PId) (cardIndex cardValue : Nat)
    (sels : List (PId × Nat))
    (hcard : (s.player player).hand[cardIndex]? = some cardValue)
    (hrej : ∀ x ∈ sels, x.1 = player →
      ((initiateAdvance s player cardIndex cardValue).player player).hand[x.2]? ≠
        some (distance (initiateAdvance s player cardIndex cardValue) player)) :
    (∀ q, ((run (initiateAdvance s player cardIndex cardValue)
        (sels.map (fun x => Input.card x.1 x.2) ++ [.click 0])).player q).position =
      (s.player q).position) ∧
    (run (initiateAdvance s player cardIndex cardValue)
        (sels.map (fun x => Input.card x.1 x.2) ++ [.click 0])).discard = s.discard ∧
    ((run (initiateAdvance s player cardIndex cardValue)
        (sels.map (fun x => Input.card x.1 x.2) ++ [.click 0])).player player).hand.Perm
      (s.player player).hand ∧
    ((run (initiateAdvance s player cardIndex cardValue)
        (sels.map (fun x => Input.card x.1 x.2) ++ [.click 0])).player player.other).hand =
      (s.player player.other).hand ∧
    (run (initiateAdvance s player cardIndex cardValue)
        (sels.map (fun x => Input.card x.1 x.2) ++ [.click 0])).deck = s.deck ∧
    (run (initiateAdvance s player cardIndex cardValue)
        (sels.map (fun x => Input.card x.1 x.2) ++ [.click 0])).pendingAdvance = none ∧
    (run (initiateAdvance s player cardIndex cardValue)
        (sels.map (fun x => Input.card x.1 x.2) ++ [.click 0])).phase = .turn := by
  have hfold : run (initiateAdvance s player cardIndex cardValue)
      (sels.map (fun x => Input.card x.1 x.2)) = initiateAdvance s player cardIndex cardValue := by
    induction sels with
    | nil => rfl
    | cons x sels ih =>
      simp only [List.map_cons, run, List.foldl_cons, step]
      rw [handleCardSelection_advance_rejected s player cardIndex cardValue x.1 x.2
        (hrej x (List.mem_cons_self _ _))]
      exact ih fun y hy => hrej y (List.mem_cons_of_mem _ hy)
  have hrun : run (initiateAdvance s player cardIndex cardValue)
      (sels.map (fun x => Input.card x.1 x.2) ++ [.click 0]) =
      cancelAdvance (initiateAdvance s player cardIndex cardValue) player cardValue := by
    have : ∀ (t : GameState) (l : List Input) (i : Input), run t (l ++ [i]) = step (run t l) i :=
      fun t l i => by simp [run, List.foldl_append]
    rw [this, hfold]
    rfl
  rw [hrun]
  have hperm := eraseIdx_append_perm (s.player player).hand cardIndex cardValue hcard
  refine ⟨?_, ?_, ?_, ?_, ?_, ?_, ?_⟩
  · intro q
    cases player <;> cases q <;>
      simp [cancelAdvance, initiateAdvance, removeLastDiscard, addToDiscard, removeCardFromHand,
        GameState.setPlayer, GameState.player]
  · cases player <;>
      simp [cancelAdvance, initiateAdvance, removeLastDiscard, addToDiscard, removeCardFromHand,
        GameState.setPlayer, GameState.player]
  · cases player <;>
      simpa [cancelAdvance, initiateAdvance, removeLastDiscard, addToDiscard, removeCardFromHand,
        GameState.setPlayer, GameState.player] using hperm
  · cases player <;>
      simp [cancelAdvance, initiateAdvance, removeLastDiscard, addToDiscard, removeCardFromHand,
        GameState.setPlayer, GameState.player, PId.other]
  · cases player <;>
      simp [cancelAdvance, initiateAdvance, removeLastDiscard, addToDiscard, removeCardFromHand,
        GameState.setPlayer, GameState.player]
  · cases player <;> simp [cancelAdvance, removeLastDiscard, GameState.setPlayer]
  · cases player <;> simp [cancelAdvance, removeLastDiscard, GameState.setPlayer]

/-- Claim C9, witness: in the worked round, at positions 10 and 17, player 1
starts the permitted advance with the 5 at hand index 0, both players click
cards that are rejected, and player 1 cancels. -/
theorem advance_cancel_roundtrip_witness :
    canAdvance demoAdvanceState .p1 0 5 = true ∧
    (run (initiateAdvance demoAdvanceState .p1 0 5)
        ([(PId.p0, 0), (PId.p1, 2)].map (fun x => Input.card x.1 x.2) ++ [.click 0])).discard =
      demoAdvanceState.discard :=
  ⟨by decide!, (advance_cancel_roundtrip demoAdvanceState .p1 0 5 [(.p0, 0), (.p1, 2)]
    (by decide!) (by decide!)).2.1⟩

/-! ## Runs and reachability -/

theorem reachable_run {s : GameState} (h : Reachable s) (inputs : List Input) :
    Reachable (run s inputs) := by
  induction inputs generalizing s with
  | nil => exact h
  | cons i inputs ih => exact ih (Reachable.step i h)

theorem run_append (s : GameState) (l1 l2 : List Input) :
    run s (l1 ++ l2) = run (run s l1) l2 := by
  simp [run, List.foldl_append]

/-! ## Position ordering -/

theorem Quiet.refl (s : GameState) : Quiet s s :=
  ⟨rfl, rfl, fun _ ho => Or.inl ho⟩

theorem Quiet.trans {s t u : GameState} (h1 : Quiet s t) (h2 : Quiet t u) : Quiet s u := by
  refine ⟨h2.1.trans h1.1, h2.2.1.trans h1.2.1, fun o ho => ?_⟩
  rcases h2.2.2 o ho with h | h
  · exact h1.2.2 o h
  · exact Or.inr h

theorem isMoveLegal_congr {s t : GameState}
    (h0 : t.player0.position = s.player0.position)
    (h1 : t.player1.position = s.player1.position)
    (player : PId) (cardValue : Nat) (direction : Int) :
    isMoveLegal t player cardValue direction = isMoveLegal s player cardValue direction := by
  cases player <;> simp [isMoveLegal, opponentOf, GameState.player, PId.other, h0, h1]

theorem positionsOrdered_congr {s t : GameState}
    (h0 : t.player0.position = s.player0.position)
    (h1 : t.player1.position = s.player1.position) :
    PositionsOrdered t ↔ PositionsOrdered s := by
  simp [PositionsOrdered, h0, h1]

theorem optionSafe_congr {s t : GameState}
    (h0 : t.player0.position = s.player0.position)
    (h1 : t.player1.position = s.player1.position)
    (o : ActionOption) (h : optionSafe s o) : optionSafe t o := by
  cases o with
  | move player cardIndex cardValue direction =>
    simpa [optionSafe, isMoveLegal_congr h0 h1] using h
  | advance player cardIndex cardValue =>
    simpa [optionSafe, isMoveLegal_congr h0 h1] using h
  | cancelAdvance player cardValue =>
    simp only [optionSafe] at h ⊢
    refine (positionsOrdered_congr ?_ ?_).2 h <;>
      cases player <;>
      simp [cancelAdvance, removeLastDiscard, GameState.setPlayer, GameState.player, h0, h1]
  | _ => trivial

theorem optionSafe_of_plain (s : GameState) (o : ActionOption) (h : plainOption o) :
    optionSafe s o := by
  cases o <;> trivial

theorem BoardInvariant.of_quiet {s t : GameState} (hs : BoardInvariant s) (h : Quiet s t) :
    BoardInvariant t := by
  refine ⟨(positionsOrdered_congr h.1 h.2.1).2 hs.1, fun o ho => ?_⟩
  rcases h.2.2 o ho with h' | h'
  · exact optionSafe_congr h.1 h.2.1 o (hs.2 o h')
  · exact optionSafe_of_plain t o h'

theorem quiet_drawCard (s : GameState) (id : PId) : Quiet s (drawCard s id) := by
  unfold drawCard
  cases s.deck.getLast? with
  | none => exact Quiet.refl s
  | some card =>
    cases id <;> simp only [GameState.setPlayer, GameState.player] <;> split_ifs <;>
      exact ⟨rfl, rfl, fun _ ho => Or.inl ho⟩

theorem quiet_drawLoop (fuel : Nat) (s : GameState) (id : PId) :
    Quiet s (drawLoop fuel s id) := by
  induction fuel generalizing s with
  | zero => exact Quiet.refl s
  | succ fuel ih =>
    unfold drawLoop
    split_ifs
    · exact (quiet_drawCard s id).trans (ih _)
    · exact Quiet.refl s

theorem quiet_drawToHand (s : GameState) (id : PId) : Quiet s (drawToHand s id) :=
  quiet_drawLoop _ s id

theorem quiet_drawIfAllowed (s : GameState) (id : PId) : Quiet s (drawIfAllowed s id) := by
  unfold drawIfAllowed
  split_ifs
  · cases id <;> exact ⟨rfl, rfl, fun _ ho => Or.inl ho⟩
  · exact quiet_drawLoop _ s id

theorem quiet_concludeRound (s : GameState) (w : Option PId) : Quiet s (concludeRound s w) := by
  unfold concludeRound
  cases w with
  | none => exact ⟨rfl, rfl, fun _ ho => by simp at ho⟩
  | some w => cases w <;> exact ⟨rfl, rfl, fun _ ho => by simp [GameState.setPlayer] at ho⟩

theorem BoardInvariant.of_ordered_nil {s : GameState} (hs : PositionsOrdered s)
    (hopt : s.options = []) : BoardInvariant s :=
  ⟨hs, fun o ho => by rw [hopt] at ho; exact absurd ho (List.not_mem_nil o)⟩

theorem quiet_endPlayerTurn (s : GameState) (player : PId) :
    Quiet s (endPlayerTurn s player) := by
  unfold endPlayerTurn
  have h := quiet_drawIfAllowed s player
  dsimp only
  split_ifs
  · exact quiet_concludeRound _ _
  · exact ⟨h.1, h.2.1, fun o ho => Or.inr (by
      simp only [triggerFinalAttackPhase, List.mem_singleton] at ho
      subst ho; trivial)⟩
  · exact ⟨h.1, h.2.1, fun o ho => by simp at ho⟩

theorem quiet_finalizeAttack (s : GameState) : Quiet s (finalizeAttack s) := by
  unfold finalizeAttack
  split
  · exact Quiet.refl s
  · rename_i ctx _
    have h := quiet_drawToHand s ctx.attackerId
    dsimp only
    split_ifs
    · exact h.trans (quiet_concludeRound _ _)
    · exact ⟨h.1, h.2.1, fun o ho => Or.inr (by
        simp only [List.mem_cons, List.mem_singleton, List.not_mem_nil, or_false] at ho
        rcases ho with ho | ho <;> subst ho <;> trivial)⟩
    · exact ⟨h.1, h.2.1, fun o ho => Or.inr (by
        simp only [List.mem_cons, List.mem_singleton, List.not_mem_nil, or_false] at ho
        subst ho; trivial)⟩

theorem quiet_removeCardFromHand (s : GameState) (p : PId) (i : Nat) :
    Quiet s (removeCardFromHand s p i) := by
  cases p <;> exact ⟨rfl, rfl, fun _ ho => Or.inl ho⟩

theorem quiet_addToDiscard (s : GameState) (v : Nat) : Quiet s (addToDiscard s v) :=
  ⟨rfl, rfl, fun _ ho => Or.inl ho⟩

theorem quiet_initiateAttack (s : GameState) (player : PId) (cardIndex cardValue : Nat)
    (type : AttackType) : Quiet s (initiateAttack s player cardIndex cardValue type) := by
  unfold initiateAttack
  have h1 := quiet_removeCardFromHand s player cardIndex
  dsimp only
  split_ifs
  · exact ⟨h1.1, h1.2.1, fun o ho => Or.inr (by
      simp only [addToDiscard, List.mem_singleton] at ho
      subst ho; trivial)⟩
  · refine Quiet.trans ?_ (quiet_finalizeAttack _)
    exact ⟨h1.1, h1.2.1, h1.2.2⟩

theorem quiet_handleAttackStrengthen (s : GameState) (cardIndex cardValue : Nat) :
    Quiet s (handleAttackStrengthen s cardIndex cardValue) := by
  unfold handleAttackStrengthen
  split
  · exact Quiet.refl s
  · rename_i ctx _
    dsimp only
    split_ifs
    · exact Quiet.refl s
    · have h1 := quiet_removeCardFromHand s ctx.attackerId cardIndex
      exact ⟨h1.1, h1.2.1, h1.2.2⟩

theorem quiet_discardParrySelection (s : GameState) (d : PId) (sel : List ParryItem) :
    Quiet s (discardParrySelection s d sel) := by
  have hf := discardParrySelection_frame s d sel
  obtain ⟨-, -, -, hopt, -, -, -, -, -, -, hpos, -, -⟩ := hf
  exact ⟨hpos .p0, hpos .p1, fun o ho => Or.inl (hopt ▸ ho)⟩

theorem quiet_resolveParry (s : GameState) : Quiet s (resolveParry s) := by
  unfold resolveParry
  split
  · exact Quiet.refl s
  · rename_i ctx _
    split
    · exact Quiet.refl s
    · rename_i selection _
      have h := quiet_discardParrySelection s ctx.defenderId selection
      dsimp only
      generalize ctx.defenderId = d at h ⊢
      cases d <;> exact ⟨h.1, h.2.1, fun o ho => by simp [GameState.setPlayer] at ho⟩

theorem boardInvariant_performRetreat (s : GameState) (cardIndex cardValue : Nat)
    (hs : BoardInvariant s) : BoardInvariant (performRetreat s cardIndex cardValue) := by
  unfold performRetreat
  split
  · exact hs
  · rename_i ctx _
    dsimp only
    split_ifs with hlegal
    · apply BoardInvariant.of_ordered_nil _ rfl
      refine (positionsOrdered_congr (quiet_drawToHand _ _).1 (quiet_drawToHand _ _).2.1).2 ?_
      obtain ⟨h0, hlt, h1⟩ := hs.1
      revert hlegal
      cases ctx.defenderId <;>
        simp only [isMoveLegal, opponentOf, PositionsOrdered, addToDiscard, removeCardFromHand,
          GameState.setPlayer, GameState.player, PId.other, BOARD_LENGTH] at h1 ⊢ <;>
        split_ifs <;> simp <;> omega
    · exact hs

theorem boardInvariant_handleParrySelection (s : GameState) (cardIndex cardValue : Nat)
    (hs : BoardInvariant s) : BoardInvariant (handleParrySelection s cardIndex cardValue) := by
  unfold handleParrySelection
  split_ifs
  · exact boardInvariant_performRetreat s cardIndex cardValue hs
  · split
    · exact hs
    · rename_i ctx _
      split
      · exact hs
      · rename_i selection _
        dsimp only
        have h1 : Quiet s { s with attackContext := some { ctx with parrySelection := some (selection ++ [⟨cardValue, cardIndex⟩]) } } :=
          ⟨rfl, rfl, fun _ ho => Or.inl ho⟩
        split_ifs
        · exact hs.of_quiet (h1.trans (quiet_resolveParry _))
        · exact hs.of_quiet
            ((h1.trans (quiet_discardParrySelection _ _ _)).trans (quiet_concludeRound _ _))
        · exact hs.of_quiet h1

theorem boardInvariant_movePlayer (s : GameState) (player : PId) (cardIndex cardValue : Nat)
    (direction : Int) (hs : PositionsOrdered s) (hopt : s.options = [])
    (hlegal : isMoveLegal s player cardValue direction = true) :
    BoardInvariant (movePlayer s player cardIndex cardValue direction) := by
  unfold movePlayer
  dsimp only
  refine BoardInvariant.of_quiet (BoardInvariant.of_ordered_nil ?_ ?_) (quiet_endPlayerTurn _ _)
  · obtain ⟨h0, hlt, h1⟩ := hs
    have hsign : (direction < 0 ∧ (cardValue : Int) * direction ≤ 0) ∨
        (direction = 0 ∧ (cardValue : Int) * direction = 0) ∨
        (0 < direction ∧ 0 ≤ (cardValue : Int) * direction) := by
      have hv : (0 : Int) ≤ cardValue := Int.ofNat_nonneg _
      rcases lt_trichotomy direction 0 with hd | hd | hd
      · exact Or.inl ⟨hd, by nlinarith⟩
      · exact Or.inr (Or.inl ⟨hd, by simp [hd]⟩)
      · exact Or.inr (Or.inr ⟨hd, by nlinarith⟩)
    revert hlegal
    cases player <;>
      simp only [isMoveLegal, opponentOf, PositionsOrdered, addToDiscard, removeCardFromHand,
        GameState.setPlayer, GameState.player, PId.other, BOARD_LENGTH] at h1 ⊢ <;>
      split_ifs <;> simp <;> omega
  · cases player <;> exact hopt

theorem boardInvariant_initiateAdvance (s : GameState) (player : PId)
    (cardIndex cardValue : Nat) (hs : PositionsOrdered s)
    (hlegal : isMoveLegal s player cardValue (forwardDirection player) = true) :
    BoardInvariant (initiateAdvance s player cardIndex cardValue) := by
  obtain ⟨h0, hlt, h1⟩ := hs
  revert hlegal
  cases player <;>
    simp only [BoardInvariant, optionSafe, cancelAdvance, removeLastDiscard, initiateAdvance,
      isMoveLegal, opponentOf, PositionsOrdered, addToDiscard, removeCardFromHand,
      forwardDirection, GameState.setPlayer, GameState.player, PId.other, BOARD_LENGTH,
      List.mem_singleton, forall_eq] at h1 ⊢ <;>
    split_ifs <;> simp <;> omega

theorem boardInvariant_cancelAdvance (s : GameState) (player : PId) (cardValue : Nat)
    (hsafe : optionSafe s (.cancelAdvance player cardValue)) :
    BoardInvariant (cancelAdvance s player cardValue) :=
  BoardInvariant.of_ordered_nil hsafe (by cases player <;> rfl)

theorem quiet_finalizeAdvanceAttack (s : GameState) (player : PId) (cardIndex cardValue : Nat) :
    Quiet s (finalizeAdvanceAttack s player cardIndex cardValue) := by
  unfold finalizeAdvanceAttack
  split_ifs
  · exact Quiet.refl s
  · exact Quiet.trans ⟨rfl, rfl, fun _ ho => Or.inl ho⟩ (quiet_initiateAttack _ _ _ _ _)

theorem quiet_attemptFinalAttack (s : GameState) (cardIndex cardValue : Nat) :
    Quiet s (attemptFinalAttack s cardIndex cardValue) := by
  unfold attemptFinalAttack
  split
  · exact Quiet.refl s
  · split_ifs
    · exact Quiet.refl s
    · exact Quiet.trans ⟨rfl, rfl, fun _ ho => Or.inl ho⟩ (quiet_initiateAttack _ _ _ _ _)

theorem quiet_resolveDeckDepletion (s : GameState) : Quiet s (resolveDeckDepletion s) := by
  unfold resolveDeckDepletion
  dsimp only
  have h : Quiet s { s with finalAttackPending := false } := ⟨rfl, rfl, fun _ ho => Or.inl ho⟩
  split_ifs <;> exact h.trans (quiet_concludeRound _ _)

theorem boardInvariant_showTurnOptions (s : GameState) (player : PId)
    (cardIndex cardValue : Nat) (hs : BoardInvariant s) :
    BoardInvariant (showTurnOptions s player cardIndex cardValue) := by
  refine ⟨hs.1, fun o ho => ?_⟩
  apply @optionSafe_congr s (showTurnOptions s player cardIndex cardValue) rfl rfl o
  simp only [showTurnOptions, List.mem_append, List.mem_ite_nil_right, List.mem_singleton] at ho
  rcases ho with (⟨-, ⟨hl, rfl⟩ | ⟨hl, rfl⟩⟩ | ⟨-, rfl⟩) | ⟨hadv, rfl⟩
  · exact hl
  · exact hl
  · trivial
  · have hcan := hadv.2.2
    unfold canAdvance at hcan
    by_contra hl
    simp only [optionSafe] at hl
    simp [hl] at hcan

theorem boardInvariant_handleCardSelection (s : GameState) (playerId : PId) (cardIndex : Nat)
    (hs : BoardInvariant s) : BoardInvariant (handleCardSelection s playerId cardIndex) := by
  unfold handleCardSelection
  split
  · exact hs
  · rename_i cardValue _
    split
    · split_ifs
      · exact hs.of_quiet (quiet_finalizeAdvanceAttack _ _ _ _)
      · exact hs
    · split
      · split_ifs
        · exact hs
        · exact boardInvariant_showTurnOptions _ _ _ _ hs
      · split_ifs
        · exact hs
        · exact hs.of_quiet (quiet_handleAttackStrengthen _ _ _)
      · split_ifs
        · exact hs
        · exact boardInvariant_handleParrySelection _ _ _ hs
      · split_ifs
        · exact hs
        · exact boardInvariant_handleParrySelection _ _ _ hs
      · split_ifs
        · exact hs
        · exact hs.of_quiet (quiet_attemptFinalAttack _ _ _)
      · split_ifs
        · exact hs
        · exact boardInvariant_showTurnOptions _ _ _ _ hs
      · exact hs

theorem boardInvariant_runOption (s : GameState) (o : ActionOption)
    (hs : BoardInvariant s) (ho : o ∈ s.options) : BoardInvariant (runOption s o) := by
  have hsafe := hs.2 o ho
  cases o with
  | move player cardIndex cardValue direction =>
    exact boardInvariant_movePlayer _ _ _ _ _ hs.1 rfl
      ((isMoveLegal_congr rfl rfl _ _ _).trans hsafe)
  | attack player cardIndex cardValue =>
    exact BoardInvariant.of_quiet (@BoardInvariant.of_ordered_nil { s with options := [] } hs.1 rfl)
      (quiet_initiateAttack _ _ _ _ _)
  | advance player cardIndex cardValue =>
    exact boardInvariant_initiateAdvance _ _ _ _ hs.1
      ((isMoveLegal_congr rfl rfl _ _ _).trans hsafe)
  | finishAttack => exact hs.of_quiet (quiet_finalizeAttack s)
  | parryPrompt => exact hs
  | retreat defender =>
    exact hs.of_quiet ⟨rfl, rfl, fun o ho => Or.inr (by
      simp only [runOption, initiateRetreat, List.mem_singleton] at ho
      subst ho; trivial)⟩
  | cancelRetreat defender =>
    exact hs.of_quiet ⟨rfl, rfl, fun o ho => Or.inr (by
      simp only [runOption, cancelRetreat, List.mem_singleton] at ho
      subst ho; trivial)⟩
  | cancelAdvance player cardValue => exact boardInvariant_cancelAdvance s player cardValue hsafe
  | pass => exact hs.of_quiet (quiet_resolveDeckDepletion s)

theorem boardInvariant_clickOption (s : GameState) (k : Nat) (hs : BoardInvariant s) :
    BoardInvariant (clickOption s k) := by
  unfold clickOption
  split
  · exact hs
  · rename_i o ho
    exact boardInvariant_runOption s o hs (List.getElem?_mem ho)

theorem quiet_dealInitialHands (s : GameState) : Quiet s (dealInitialHands s) := by
  unfold dealInitialHands
  generalize List.range HAND_SIZE = l
  induction l generalizing s with
  | nil => exact Quiet.refl s
  | cons a l ih =>
    simp only [List.foldl_cons]
    exact ((quiet_drawCard s .p0).trans (quiet_drawCard _ .p1)).trans (ih _)

theorem boardInvariant_startRound (s : GameState) (selected : Mode) (rnd : Nat → Nat) :
    BoardInvariant (startRound s selected rnd) := by
  unfold startRound
  refine BoardInvariant.of_quiet (BoardInvariant.of_ordered_nil ?_ rfl) (quiet_dealInitialHands _)
  simp [PositionsOrdered, BOARD_LENGTH]

theorem boardInvariant_step (s : GameState) (i : Input) (hs : BoardInvariant s) :
    BoardInvariant (step s i) := by
  cases i with
  | card playerId cardIndex => exact boardInvariant_handleCardSelection s playerId cardIndex hs
  | click k => exact boardInvariant_clickOption s k hs
  | setMode mode => exact hs.of_quiet ⟨rfl, rfl, fun _ ho => Or.inl ho⟩
  | newMatch selected rnd =>
    simp only [step, startNewMatch]
    exact boardInvariant_startRound _ _ _
  | nextRound selected rnd =>
    simp only [step, startNextRound]
    split_ifs
    · exact hs
    · exact boardInvariant_startRound _ _ _
    · exact hs

theorem boardInvariant_of_reachable {s : GameState} (h : Reachable s) : BoardInvariant s := by
  induction h with
  | start s0 selected rnd => exact boardInvariant_startRound s0 selected rnd
  | step i _ ih => exact boardInvariant_step _ i ih

/-- Claim C1 (position ordering).  In every state reachable from `startRound`
by any sequence of engine inputs (card selections, clicks on offered actions,
mode changes, new rounds and matches) the positions satisfy
`0 ≤ pos0 < pos1 ≤ BOARD_LENGTH - 1 = 22`. -/
theorem position_ordering (s : GameState) (h : Reachable s) :
    0 ≤ s.player0.position ∧ s.player0.position < s.player1.position ∧
      s.player1.position ≤ 22 :=
  (boardInvariant_of_reachable h).1

theorem demoStart_reachable : Reachable demoStart := by
  unfold demoStart
  exact Reachable.start _ _ _

theorem demoStrengthenState_reachable : Reachable demoStrengthenState := by
  unfold demoStrengthenState
  exact reachable_run demoStart_reachable _

/-- Claim C1, witness: the state of the worked round in which player 0 has
started an attack is reachable. -/
theorem position_ordering_witness :
    0 ≤ demoStrengthenState.player0.position ∧
      demoStrengthenState.player0.position < demoStrengthenState.player1.position ∧
      demoStrengthenState.player1.position ≤ 22 :=
  position_ordering demoStrengthenState demoStrengthenState_reachable

/-! ## The draw loop terminates within its bound -/

theorem drawCard_deck_length (s : GameState) (id : PId) (h : s.deck.length > 0) :
    (drawCard s id).deck.length + 1 = s.deck.length := by
  unfold drawCard
  cases hlast : s.deck.getLast? with
  | none =>
    have hnil : s.deck = [] := List.getLast?_eq_none_iff.1 hlast
    rw [hnil] at h
    exact absurd h (by simp)
  | some card =>
    have hlen : s.deck.dropLast.length + 1 = s.deck.length := by
      rw [List.length_dropLast]
      omega
    cases id <;> simp only [GameState.setPlayer, GameState.player] <;> split_ifs <;> exact hlen

/-- With at least `deck.length` iterations allowed, `drawLoop` stops because
the condition of the source's `while` loop is false, never because the bound
ran out. -/
theorem drawLoop_exit (fuel : Nat) (s : GameState) (id : PId) (h : s.deck.length ≤ fuel) :
    ¬ (((drawLoop fuel s id).player id).hand.length < HAND_SIZE ∧
      (drawLoop fuel s id).deck.length > 0) := by
  induction fuel generalizing s with
  | zero =>
    intro hc
    have : (drawLoop 0 s id).deck.length = s.deck.length := rfl
    omega
  | succ fuel ih =>
    unfold drawLoop
    split_ifs with hcond
    · refine ih (drawCard s id) ?_
      have := drawCard_deck_length s id hcond.2
      omega
    · exact hcond

theorem drawToHand_exit (s : GameState) (id : PId) :
    ¬ (((drawToHand s id).player id).hand.length < HAND_SIZE ∧
      (drawToHand s id).deck.length > 0) :=
  drawLoop_exit _ s id (Nat.le_refl _)

/-! ## Card conservation -/

theorem swapAt_length (l : List Nat) (i j : Nat) : (swapAt l i j).length = l.length := by
  simp [swapAt]

theorem shuffleLoop_length (rnd : Nat → Nat) (i : Nat) (l : List Nat) :
    (shuffleLoop rnd i l).length = l.length := by
  induction i generalizing l with
  | zero => rfl
  | succ i ih => rw [shuffleLoop, ih, swapAt_length]

theorem buildDeck_length (rnd : Nat → Nat) : (buildDeck rnd).length = 25 := by
  rw [buildDeck, shuffle, shuffleLoop_length]
  rfl

theorem physicalCount_drawCard (s : GameState) (id : PId) :
    physicalCount (drawCard s id) = physicalCount s := by
  unfold drawCard
  cases hlast : s.deck.getLast? with
  | none => rfl
  | some card =>
    have hne : s.deck ≠ [] := by
      intro h
      rw [h] at hlast
      simp at hlast
    have hlen : s.deck.dropLast.length + 1 = s.deck.length := by
      rw [List.length_dropLast]
      have := List.length_pos.2 hne
      omega
    cases id <;> simp only [GameState.setPlayer, GameState.player] <;> split_ifs <;>
      simp only [physicalCount, List.length_append, List.length_singleton] <;> omega

theorem physicalCount_drawLoop (fuel : Nat) (s : GameState) (id : PId) :
    physicalCount (drawLoop fuel s id) = physicalCount s := by
  induction fuel generalizing s with
  | zero => rfl
  | succ fuel ih =>
    unfold drawLoop
    split_ifs
    · rw [ih, physicalCount_drawCard]
    · rfl

theorem physicalCount_drawIfAllowed (s : GameState) (id : PId) :
    physicalCount (drawIfAllowed s id) = physicalCount s := by
  unfold drawIfAllowed
  split_ifs
  · cases id <;> rfl
  · exact physicalCount_drawLoop _ s id

theorem physicalCount_dealInitialHands (s : GameState) :
    physicalCount (dealInitialHands s) = physicalCount s := by
  unfold dealInitialHands
  generalize List.range HAND_SIZE = l
  induction l generalizing s with
  | nil => rfl
  | cons a l ih =>
    simp only [List.foldl_cons]
    rw [ih, physicalCount_drawCard, physicalCount_drawCard]

theorem physicalCount_startRound (s : GameState) (selected : Mode) (rnd : Nat → Nat) :
    physicalCount (startRound s selected rnd) = 25 := by
  unfold startRound
  rw [physicalCount_dealInitialHands]
  simp [physicalCount, buildDeck_length]

theorem physicalCount_concludeRound (s : GameState) (w : Option PId) :
    physicalCount (concludeRound s w) = physicalCount s := by
  unfold concludeRound
  cases w with
  | none => rfl
  | some w => cases w <;> rfl

/-- Playing the card at a hand index onto the discard pile keeps the count. -/
theorem physicalCount_play (s : GameState) (player : PId) (cardIndex cardValue : Nat)
    (h : cardIndex < (s.player player).hand.length) :
    physicalCount (addToDiscard (removeCardFromHand s player cardIndex) cardValue) =
      physicalCount s := by
  cases player <;>
    simp only [GameState.player] at h <;>
    simp only [physicalCount, addToDiscard, removeCardFromHand, GameState.setPlayer,
      GameState.player, List.length_append, List.length_singleton, List.length_eraseIdx, h,
      if_true] <;>
    omega


/-- A state with 25 cards whose offered actions are all among `Pass`,
`Finish attack` and `Parry`, outside the defence phases, satisfies the card
invariant. -/
theorem CardInvariant.of_plain {t : GameState} (hc : physicalCount t = 25)
    (hopt : ∀ o ∈ t.options, o = .pass ∨ o = .finishAttack ∨ o = .parryPrompt)
    (hph : ¬ inDefence t) : CardInvariant t := by
  refine ⟨hc, fun o ho => ?_, fun h => absurd h hph⟩
  rcases hopt o ho with h | h | h <;> subst h <;> trivial

theorem concludeRound_fields (s : GameState) (w : Option PId) :
    (concludeRound s w).options = [] ∧ (concludeRound s w).phase = .roundEnd := by
  unfold concludeRound
  cases w with
  | none => exact ⟨rfl, rfl⟩
  | some w => cases w <;> exact ⟨rfl, rfl⟩

theorem cardInvariant_concludeRound (s : GameState) (w : Option PId)
    (hc : physicalCount s = 25) : CardInvariant (concludeRound s w) := by
  have hf := concludeRound_fields s w
  refine CardInvariant.of_plain ((physicalCount_concludeRound s w).trans hc) ?_ ?_
  · intro o ho
    rw [hf.1] at ho
    exact absurd ho (List.not_mem_nil o)
  · simp [inDefence, hf.2]

theorem cardInvariant_endPlayerTurn (s : GameState) (player : PId)
    (hc : physicalCount s = 25) : CardInvariant (endPlayerTurn s player) := by
  unfold endPlayerTurn
  have hd : physicalCount (drawIfAllowed s player) = 25 :=
    (physicalCount_drawIfAllowed s player).trans hc
  dsimp only
  split_ifs
  · exact cardInvariant_concludeRound _ _ hc
  · refine CardInvariant.of_plain hd ?_ ?_
    · intro o ho
      simp only [triggerFinalAttackPhase, List.mem_singleton] at ho
      exact Or.inl ho
    · simp [inDefence, triggerFinalAttackPhase]
  · refine CardInvariant.of_plain hd ?_ ?_
    · intro o ho
      simp at ho
    · simp [inDefence]

theorem cardInvariant_movePlayer (s : GameState) (player : PId) (cardIndex cardValue : Nat)
    (direction : Int) (hc : physicalCount s = 25)
    (hidx : cardIndex < (s.player player).hand.length) :
    CardInvariant (movePlayer s player cardIndex cardValue direction) := by
  unfold movePlayer
  dsimp only
  apply cardInvariant_endPlayerTurn
  rw [← hc, ← physicalCount_play s player cardIndex cardValue hidx]
  cases player <;> rfl

theorem cardInvariant_finalizeAttack_some (s : GameState) (ctx : AttackContext)
    (hc : physicalCount s = 25) (hctx : s.attackContext = some ctx) :
    CardInvariant (finalizeAttack s) := by
  unfold finalizeAttack
  simp only [hctx]
  have hd : physicalCount (drawToHand s ctx.attackerId) = 25 :=
    (physicalCount_drawLoop _ s ctx.attackerId).trans hc
  split_ifs
  · exact cardInvariant_concludeRound _ _ hd
  · refine ⟨hd, fun o ho => ?_, fun _ c sel hc' hsel => ?_⟩
    · simp only [List.mem_cons, List.mem_singleton, List.not_mem_nil, or_false] at ho
      rcases ho with ho | ho <;> subst ho
      · trivial
      · exact Or.inl rfl
    · simp only [Option.some.injEq] at hc'
      subst hc'
      simp only [Option.some.injEq] at hsel
      subst hsel
      simp
  · refine ⟨hd, fun o ho => ?_, fun _ c sel hc' hsel => ?_⟩
    · simp only [List.mem_cons, List.mem_singleton, List.not_mem_nil, or_false] at ho
      subst ho
      trivial
    · simp only [Option.some.injEq] at hc'
      subst hc'
      simp only [Option.some.injEq] at hsel
      subst hsel
      simp

theorem cardInvariant_finalizeAttack (s : GameState) (hs : CardInvariant s) :
    CardInvariant (finalizeAttack s) := by
  cases hctx : s.attackContext with
  | none =>
    unfold finalizeAttack
    simp only [hctx]
    exact hs
  | some ctx => exact cardInvariant_finalizeAttack_some s ctx hs.1 hctx

theorem cardInvariant_initiateAttack (s : GameState) (player : PId)
    (cardIndex cardValue : Nat) (type : AttackType) (hc : physicalCount s = 25)
    (hidx : cardIndex < (s.player player).hand.length) :
    CardInvariant (initiateAttack s player cardIndex cardValue type) := by
  unfold initiateAttack
  dsimp only
  have hplay := physicalCount_play s player cardIndex cardValue hidx
  split_ifs
  · refine CardInvariant.of_plain ?_ ?_ ?_
    · rw [← hc, ← hplay]
      rfl
    · intro o ho
      simp only [addToDiscard, List.mem_singleton] at ho
      exact Or.inr (Or.inl ho)
    · simp [inDefence, addToDiscard]
  · refine cardInvariant_finalizeAttack_some _ _ ?_ rfl
    rw [← hc, ← hplay]
    rfl

theorem cardInvariant_handleAttackStrengthen (s : GameState) (cardIndex cardValue : Nat)
    (hs : CardInvariant s) (hphase : s.phase = .attackStrengthen)
    (hidx : ∀ ctx, s.attackContext = some ctx →
      cardIndex < (s.player ctx.attackerId).hand.length) :
    CardInvariant (handleAttackStrengthen s cardIndex cardValue) := by
  unfold handleAttackStrengthen
  split
  · exact hs
  · rename_i ctx hctx
    dsimp only
    split_ifs
    · exact hs
    · have hplay := physicalCount_play s ctx.attackerId cardIndex cardValue (hidx ctx hctx)
      refine ⟨?_, fun o ho => ?_, fun h => ?_⟩
      · rw [← hs.1, ← hplay]
        rfl
      · simp only [addToDiscard, removeCardFromHand_options] at ho
        have hfit := hs.2.1 o ho
        cases o with
        | move p i v d => exact absurd hfit.1 (by simp [inTurn, hphase])
        | attack p i v => exact absurd hfit.1 (by simp [inTurn, hphase])
        | advance p i v => exact absurd hfit.1 (by simp [inTurn, hphase])
        | retreat d => exact absurd hfit (by simp [optionFits, inDefence, hphase])
        | cancelRetreat d => exact absurd hfit (by simp [optionFits, inDefence, hphase])
        | cancelAdvance p v => simp [optionFits, addToDiscard]
        | finishAttack => trivial
        | parryPrompt => trivial
        | pass => trivial
      · exact absurd h (by simp [inDefence, addToDiscard, removeCardFromHand_phase, hphase])


theorem lt_length_of_getElem? {l : List Nat} {i v : Nat} (h : l[i]? = some v) :
    i < l.length := by
  by_contra hlt
  rw [List.getElem?_eq_none (Nat.le_of_not_lt hlt)] at h
  exact absurd h (by simp)

/-- Erasing pairwise distinct in-range indices, highest first, removes exactly
one card per index. -/
theorem eraseFold_length (l : List ParryItem) (hand : List Nat)
    (hsorted : l.Pairwise fun a b => b.cardIndex < a.cardIndex)
    (hrange : ∀ item ∈ l, item.cardIndex < hand.length) :
    (l.foldl (fun h item => h.eraseIdx item.cardIndex) hand).length + l.length =
      hand.length := by
  induction l generalizing hand with
  | nil => rfl
  | cons it l ih =>
    rw [List.pairwise_cons] at hsorted
    have hit : it.cardIndex < hand.length := hrange it (List.mem_cons_self _ _)
    have hlen : (hand.eraseIdx it.cardIndex).length = hand.length - 1 := by
      rw [List.length_eraseIdx, if_pos hit]
    have := ih (hand.eraseIdx it.cardIndex) hsorted.2 (fun x hx => by
      have h1 := hsorted.1 x hx
      rw [hlen]
      omega)
    simp only [List.foldl_cons, List.length_cons]
    omega

theorem sortSelection_perm (selection : List ParryItem) :
    (sortSelection selection).Perm selection :=
  List.perm_insertionSort _ _

/-- With pairwise distinct indices the sorted selection is strictly descending. -/
theorem sortSelection_pairwise (selection : List ParryItem)
    (hnodup : (selection.map fun item => item.cardIndex).Nodup) :
    (sortSelection selection).Pairwise fun a b => b.cardIndex < a.cardIndex := by
  haveI : IsTotal ParryItem (fun a b => b.cardIndex ≤ a.cardIndex) :=
    ⟨fun a b => Nat.le_total _ _⟩
  haveI : IsTrans ParryItem (fun a b => b.cardIndex ≤ a.cardIndex) :=
    ⟨fun a b c hab hbc => Nat.le_trans hbc hab⟩
  have hsorted : (sortSelection selection).Pairwise fun a b => b.cardIndex ≤ a.cardIndex :=
    List.sorted_insertionSort _ selection
  have hnd : ((sortSelection selection).map fun item => item.cardIndex).Nodup :=
    ((sortSelection_perm selection).map _).nodup_iff.2 hnodup
  rw [List.nodup_map_iff_inj_on (List.Nodup.of_map _ hnd)] at hnd
  have hnd' : (sortSelection selection).Nodup := List.Nodup.of_map _
    (((sortSelection_perm selection).map _).nodup_iff.2 hnodup)
  refine (hsorted.and hnd').imp_of_mem ?_
  intro a b ha hb hab
  have hne : a.cardIndex ≠ b.cardIndex := fun h => hab.2 (hnd a ha b hb h)
  exact Nat.lt_of_le_of_ne hab.1 (Ne.symm hne)

/-- Discarding a selection of pairwise distinct indices of the defender's hand
keeps the number of cards. -/
theorem physicalCount_discardParrySelection (s : GameState) (d : PId)
    (selection : List ParryItem)
    (hnodup : (selection.map fun item => item.cardIndex).Nodup)
    (hrange : ∀ item ∈ selection, item.cardIndex < (s.player d).hand.length) :
    physicalCount (discardParrySelection s d selection) = physicalCount s := by
  rw [discardParrySelection_eq]
  have hlen := eraseFold_length (sortSelection selection) (s.player d).hand
    (sortSelection_pairwise selection hnodup)
    (fun item hi => hrange item ((sortSelection_perm selection).mem_iff.1 hi))
  have hk : (sortSelection selection).length = selection.length :=
    (sortSelection_perm selection).length_eq
  cases d <;>
    simp only [physicalCount, GameState.setPlayer, GameState.player, List.length_append,
      List.length_map] at hlen ⊢ <;>
    omega


theorem cardInvariant_performRetreat (s : GameState) (cardIndex cardValue : Nat)
    (hs : CardInvariant s)
    (hidx : ∀ ctx, s.attackContext = some ctx →
      cardIndex < (s.player ctx.defenderId).hand.length) :
    CardInvariant (performRetreat s cardIndex cardValue) := by
  unfold performRetreat
  split
  · exact hs
  · rename_i ctx hctx
    dsimp only
    split_ifs
    · refine CardInvariant.of_plain ?_ (fun o ho => by simp at ho) (by simp [inDefence])
      have hplay := physicalCount_play s ctx.defenderId cardIndex cardValue (hidx ctx hctx)
      rw [← hs.1, ← hplay]
      refine (physicalCount_drawLoop _ _ ctx.defenderId).trans ?_
      generalize ctx.defenderId = d
      cases d <;> rfl
    · exact hs

theorem cardInvariant_handleParrySelection (s : GameState) (cardIndex cardValue : Nat)
    (hs : CardInvariant s) (hdef : inDefence s)
    (hidx : ∀ ctx, s.attackContext = some ctx →
      cardIndex < (s.player ctx.defenderId).hand.length)
    (hfresh : s.phase = .awaitParry → ∀ ctx selection, s.attackContext = some ctx →
      ctx.parrySelection = some selection →
      cardIndex ∉ selection.map fun item => item.cardIndex) :
    CardInvariant (handleParrySelection s cardIndex cardValue) := by
  by_cases hret : s.phase = .awaitRetreatCard
  · unfold handleParrySelection
    rw [if_pos hret]
    exact cardInvariant_performRetreat s cardIndex cardValue hs hidx
  have hphase : s.phase = .awaitParry := hdef.resolve_right hret
  cases hctx : s.attackContext with
  | none =>
    unfold handleParrySelection
    rw [if_neg hret]
    simp only [hctx]
    exact hs
  | some ctx =>
    cases hsel : ctx.parrySelection with
    | none =>
      unfold handleParrySelection
      rw [if_neg hret]
      simp only [hctx, hsel]
      exact hs
    | some selection =>
      rw [handleParrySelection_eq s ctx selection cardIndex cardValue hphase hctx hsel]
      obtain ⟨hnodup, hrange⟩ := hs.2.2 hdef ctx selection hctx hsel
      have hnew := hfresh hphase ctx selection hctx hsel
      have hnodup1 : ((selection ++ [(⟨cardValue, cardIndex⟩ : ParryItem)]).map
          fun item => item.cardIndex).Nodup := by
        rw [List.map_append, List.map_singleton]
        exact List.Nodup.append hnodup (List.nodup_singleton _)
          (List.disjoint_singleton.2 hnew)
      have hrange1 : ∀ item ∈ selection ++ [(⟨cardValue, cardIndex⟩ : ParryItem)],
          item.cardIndex < (s.player ctx.defenderId).hand.length := by
        intro item hi
        rcases List.mem_append.1 hi with h | h
        · exact hrange item h
        · rw [List.mem_singleton] at h
          subst h
          exact hidx ctx hctx
      have hp : ∀ q, GameState.player
          { s with attackContext := some { ctx with parrySelection := some (selection ++ [⟨cardValue, cardIndex⟩]) } } q
          = s.player q := fun q => by cases q <;> rfl
      have hcount : physicalCount (discardParrySelection
          { s with attackContext := some { ctx with parrySelection := some (selection ++ [⟨cardValue, cardIndex⟩]) } }
          ctx.defenderId (selection ++ [⟨cardValue, cardIndex⟩])) = 25 := by
        rw [physicalCount_discardParrySelection _ _ _ hnodup1 (by rw [hp]; exact hrange1)]
        exact hs.1
      split_ifs
      · rw [resolveParry_eq _ _ _ rfl rfl]
        refine CardInvariant.of_plain ?_ (fun o ho => by simp at ho) (by simp [inDefence])
        rw [← hcount]
        generalize discardParrySelection _ _ _ = t
        generalize ctx.defenderId = d
        cases d <;> rfl
      · exact cardInvariant_concludeRound _ _ hcount
      · refine ⟨hs.1, fun o ho => ?_, fun _ c sel hc hsel' => ?_⟩
        · have hfit := hs.2.1 o ho
          cases o <;> exact hfit
        · simp only [Option.some.injEq] at hc
          subst hc
          simp only [Option.some.injEq] at hsel'
          subst hsel'
          exact ⟨hnodup1, by simpa only [hp] using hrange1⟩

theorem cardInvariant_initiateAdvance (s : GameState) (player : PId)
    (cardIndex cardValue : Nat) (hc : physicalCount s = 25)
    (hidx : cardIndex < (s.player player).hand.length) :
    CardInvariant (initiateAdvance s player cardIndex cardValue) := by
  unfold initiateAdvance
  dsimp only
  have hplay := physicalCount_play s player cardIndex cardValue hidx
  refine ⟨?_, fun o ho => ?_, fun h => ?_⟩
  · rw [← hc, ← hplay]
    cases player <;> rfl
  · simp only [List.mem_singleton] at ho
    subst ho
    simp [optionFits, addToDiscard, setPlayer_discard]
  · exact absurd h (by simp [inDefence])

theorem cardInvariant_cancelAdvance (s : GameState) (player : PId) (cardValue : Nat)
    (hc : physicalCount s = 25) (hdisc : s.discard ≠ []) :
    CardInvariant (cancelAdvance s player cardValue) := by
  unfold cancelAdvance
  dsimp only
  refine CardInvariant.of_plain ?_ (fun o ho => by simp at ho) (by simp [inDefence])
  have hpos := List.length_pos.2 hdisc
  rw [← hc]
  cases player <;>
    simp only [physicalCount, removeLastDiscard, GameState.setPlayer, GameState.player,
      List.length_append, List.length_singleton, List.length_dropLast] <;>
    omega

theorem cardInvariant_finalizeAdvanceAttack (s : GameState) (player : PId)
    (cardIndex cardValue : Nat) (hs : CardInvariant s)
    (hidx : cardIndex < (s.player player).hand.length) :
    CardInvariant (finalizeAdvanceAttack s player cardIndex cardValue) := by
  unfold finalizeAdvanceAttack
  split_ifs
  · exact hs
  · refine cardInvariant_initiateAttack _ _ _ _ _ hs.1 ?_
    cases player <;> exact hidx

theorem cardInvariant_attemptFinalAttack (s : GameState) (cardIndex cardValue : Nat)
    (hs : CardInvariant s)
    (hidx : ∀ p, s.activePlayer = some p → cardIndex < (s.player p).hand.length) :
    CardInvariant (attemptFinalAttack s cardIndex cardValue) := by
  unfold attemptFinalAttack
  split
  · exact hs
  · rename_i player hp
    split_ifs
    · exact hs
    · refine cardInvariant_initiateAttack _ _ _ _ _ hs.1 ?_
      have := hidx player hp
      cases player <;> exact this

theorem cardInvariant_resolveDeckDepletion (s : GameState) (hc : physicalCount s = 25) :
    CardInvariant (resolveDeckDepletion s) := by
  unfold resolveDeckDepletion
  dsimp only
  split_ifs <;> exact cardInvariant_concludeRound _ _ hc

theorem cardInvariant_showTurnOptions (s : GameState) (player : PId)
    (cardIndex cardValue : Nat) (hs : CardInvariant s) (hturn : inTurn s)
    (hidx : cardIndex < (s.player player).hand.length) :
    CardInvariant (showTurnOptions s player cardIndex cardValue) := by
  have hp : ∀ q, (showTurnOptions s player cardIndex cardValue).player q = s.player q :=
    fun q => by cases q <;> rfl
  have hph : (showTurnOptions s player cardIndex cardValue).phase = s.phase := rfl
  refine ⟨hs.1, fun o ho => ?_, fun h => ?_⟩
  · have hfits : inTurn (showTurnOptions s player cardIndex cardValue) ∧
        cardIndex < ((showTurnOptions s player cardIndex cardValue).player player).hand.length :=
      ⟨hturn, by rw [hp]; exact hidx⟩
    simp only [showTurnOptions, List.mem_append, List.mem_ite_nil_right,
      List.mem_singleton] at ho
    rcases ho with (⟨-, ⟨-, rfl⟩ | ⟨-, rfl⟩⟩ | ⟨-, rfl⟩) | ⟨-, rfl⟩ <;> exact hfits
  · rcases hturn with h1 | h1 <;> rcases h with h2 | h2 <;> rw [hph, h1] at h2 <;>
      exact absurd h2 (by decide)


theorem cardInvariant_handleCardSelection (s : GameState) (playerId : PId) (cardIndex : Nat)
    (hs : CardInvariant s) (hnew : ¬ repeatsParryIndex s (.card playerId cardIndex)) :
    CardInvariant (handleCardSelection s playerId cardIndex) := by
  unfold handleCardSelection
  split
  · exact hs
  · rename_i cardValue hcard
    have hidx : cardIndex < (s.player playerId).hand.length := lt_length_of_getElem? hcard
    split
    · split_ifs
      · exact cardInvariant_finalizeAdvanceAttack _ _ _ _ hs hidx
      · exact hs
    · split
      · rename_i hphase
        split_ifs
        · exact hs
        · exact cardInvariant_showTurnOptions _ _ _ _ hs (Or.inl hphase) hidx
      · rename_i hphase
        split_ifs with hatt
        · exact hs
        · refine cardInvariant_handleAttackStrengthen _ _ _ hs hphase fun ctx hctx => ?_
          simp only [hctx, Option.map_some', ne_eq, Option.some.injEq, not_not] at hatt
          rw [hatt]
          exact hidx
      · rename_i hphase
        split_ifs with hdef
        · exact hs
        · refine cardInvariant_handleParrySelection _ _ _ hs (Or.inl hphase)
            (fun ctx hctx => ?_) (fun _ ctx selection hctx hsel hmem => ?_)
          · simp only [hctx, Option.map_some', ne_eq, Option.some.injEq, not_not] at hdef
            rw [hdef]
            exact hidx
          · simp only [hctx, Option.map_some', ne_eq, Option.some.injEq, not_not] at hdef
            apply hnew
            simp only [repeatsParryIndex, hctx, hsel, Option.getD_some]
            exact ⟨hphase, hdef, hmem⟩
      · rename_i hphase
        split_ifs with hdef
        · exact hs
        · refine cardInvariant_handleParrySelection _ _ _ hs (Or.inr hphase)
            (fun ctx hctx => ?_) (fun hp => ?_)
          · simp only [hctx, Option.map_some', ne_eq, Option.some.injEq, not_not] at hdef
            rw [hdef]
            exact hidx
          · rw [hphase] at hp
            exact absurd hp (by decide)
      · split_ifs with hact
        · exact hs
        · refine cardInvariant_attemptFinalAttack _ _ _ hs fun p hp => ?_
          simp only [hp, ne_eq, Option.some.injEq, not_not] at hact
          rw [hact]
          exact hidx
      · rename_i hphase
        split_ifs
        · exact hs
        · exact cardInvariant_showTurnOptions _ _ _ _ hs (Or.inr hphase) hidx
      · exact hs

theorem cardInvariant_runOption (s : GameState) (o : ActionOption)
    (hs : CardInvariant s) (ho : o ∈ s.options) : CardInvariant (runOption s o) := by
  have hfit := hs.2.1 o ho
  cases o with
  | move player cardIndex cardValue direction =>
    refine cardInvariant_movePlayer _ _ _ _ _ hs.1 ?_
    cases player <;> exact hfit.2
  | attack player cardIndex cardValue =>
    refine cardInvariant_initiateAttack _ _ _ _ _ hs.1 ?_
    cases player <;> exact hfit.2
  | advance player cardIndex cardValue =>
    refine cardInvariant_initiateAdvance _ _ _ _ hs.1 ?_
    cases player <;> exact hfit.2
  | finishAttack => exact cardInvariant_finalizeAttack s hs
  | parryPrompt => exact hs
  | retreat defender =>
    refine ⟨hs.1, fun o ho => ?_, fun _ ctx sel hctx hsel => ?_⟩
    · simp only [runOption, initiateRetreat, List.mem_singleton] at ho
      subst ho
      exact Or.inr rfl
    · have h := hs.2.2 hfit ctx sel hctx hsel
      have hp : ∀ q, (runOption s (.retreat defender)).player q = s.player q :=
        fun q => by cases q <;> rfl
      exact ⟨h.1, fun item hi => by rw [hp]; exact h.2 item hi⟩
  | cancelRetreat defender =>
    refine ⟨hs.1, fun o ho => ?_, fun _ ctx sel hctx hsel => ?_⟩
    · simp only [runOption, cancelRetreat, List.mem_singleton] at ho
      subst ho
      trivial
    · have h := hs.2.2 hfit ctx sel hctx hsel
      have hp : ∀ q, (runOption s (.cancelRetreat defender)).player q = s.player q :=
        fun q => by cases q <;> rfl
      exact ⟨h.1, fun item hi => by rw [hp]; exact h.2 item hi⟩
  | cancelAdvance player cardValue => exact cardInvariant_cancelAdvance s player cardValue hs.1 hfit
  | pass => exact cardInvariant_resolveDeckDepletion s hs.1

/-- What drawing a card leaves alone. -/
theorem drawCard_frame (s : GameState) (id : PId) :
    (drawCard s id).options = s.options ∧ (drawCard s id).phase = s.phase ∧
    (drawCard s id).attackContext = s.attackContext ∧
    (drawCard s id).discard = s.discard ∧ (drawCard s id).mode = s.mode ∧
    (drawCard s id).pendingAdvance = s.pendingAdvance ∧
    (drawCard s id).activePlayer = s.activePlayer := by
  unfold drawCard
  cases s.deck.getLast? with
  | none => exact ⟨rfl, rfl, rfl, rfl, rfl, rfl, rfl⟩
  | some card =>
    cases id <;> simp only [GameState.setPlayer, GameState.player] <;> split_ifs <;>
      exact ⟨rfl, rfl, rfl, rfl, rfl, rfl, rfl⟩

theorem dealInitialHands_frame (s : GameState) :
    (dealInitialHands s).options = s.options ∧ (dealInitialHands s).phase = s.phase := by
  unfold dealInitialHands
  generalize List.range HAND_SIZE = l
  induction l generalizing s with
  | nil => exact ⟨rfl, rfl⟩
  | cons a l ih =>
    simp only [List.foldl_cons]
    have h0 := drawCard_frame s .p0
    have h1 := drawCard_frame (drawCard s .p0) .p1
    have h := ih (drawCard (drawCard s .p0) .p1)
    exact ⟨h.1.trans (h1.1.trans h0.1), h.2.trans (h1.2.1.trans h0.2.1)⟩

theorem cardInvariant_startRound (s : GameState) (selected : Mode) (rnd : Nat → Nat) :
    CardInvariant (startRound s selected rnd) := by
  refine CardInvariant.of_plain (physicalCount_startRound s selected rnd) ?_ ?_
  · intro o ho
    unfold startRound at ho
    rw [(dealInitialHands_frame _).1] at ho
    exact absurd ho (List.not_mem_nil o)
  · unfold startRound inDefence
    rw [(dealInitialHands_frame _).2]
    simp

theorem cardInvariant_step (s : GameState) (i : Input) (hs : CardInvariant s)
    (hnew : ¬ repeatsParryIndex s i) : CardInvariant (step s i) := by
  cases i with
  | card playerId cardIndex =>
    exact cardInvariant_handleCardSelection s playerId cardIndex hs hnew
  | click k =>
    simp only [step, clickOption]
    split
    · exact hs
    · rename_i o ho
      exact cardInvariant_runOption s o hs (List.getElem?_mem ho)
  | setMode mode =>
    refine ⟨hs.1, fun o ho => ?_, fun h ctx sel hctx hsel => ?_⟩
    · have hfit := hs.2.1 o ho
      cases o <;> exact hfit
    · exact hs.2.2 h ctx sel hctx hsel
  | newMatch selected rnd =>
    simp only [step, startNewMatch]
    exact cardInvariant_startRound _ _ _
  | nextRound selected rnd =>
    simp only [step, startNextRound]
    split_ifs
    · exact hs
    · exact cardInvariant_startRound _ _ _
    · exact hs

theorem cardInvariant_of_reachableDistinct {s : GameState} (h : ReachableDistinct s) :
    CardInvariant s := by
  induction h with
  | start s0 selected rnd => exact cardInvariant_startRound s0 selected rnd
  | step i _ hnew ih => exact cardInvariant_step _ i ih hnew

theorem reachable_of_reachableDistinct {s : GameState} (h : ReachableDistinct s) :
    Reachable s := by
  induction h with
  | start s0 selected rnd => exact Reachable.start s0 selected rnd
  | step i _ _ ih => exact Reachable.step i ih

/-- Claim C3, as stated, fails: in the worked round, once player 0 has
declared the attack with a 2, the card is counted in the discard pile and in
`attackContext.cards`, and the sum of the claim is 26. -/
theorem card_total_counterexample :
    ¬ ∀ s, Reachable s → cardTotal s = 25 := by
  intro h
  have h26 : cardTotal demoStrengthenState = 26 := by decide
  rw [h demoStrengthenState demoStrengthenState_reachable] at h26
  exact absurd h26 (by decide)

/-- Claim C3, amended.  In every state reached by inputs in which no parry
selection repeats a hand index, `|deck| + |discard| + |hand0| + |hand1| = 25`:
the cards committed to an attack are already in the discard pile, so the sum
that also counts `attackContext.cards` is 25 plus their number. -/
theorem card_conservation (s : GameState) (h : ReachableDistinct s) :
    physicalCount s = 25 ∧ cardTotal s = 25 + attackCards s := by
  have hc := (cardInvariant_of_reachableDistinct h).1
  exact ⟨hc, by rw [cardTotal, hc]⟩

theorem reachableDistinct_run {s : GameState} (hs : ReachableDistinct s) (inputs : List Input)
    (h : distinctRun s inputs) : ReachableDistinct (run s inputs) := by
  induction inputs generalizing s with
  | nil => exact hs
  | cons i inputs ih => exact ih (ReachableDistinct.step i hs h.1) h.2

theorem demoStrengthenState_reachableDistinct : ReachableDistinct demoStrengthenState := by
  unfold demoStrengthenState
  refine reachableDistinct_run ?_ _ (by decide!)
  unfold demoStart
  exact ReachableDistinct.start _ _ _

/-- Claim C3 (amended), witness: the attack state of the worked round. -/
theorem card_conservation_witness :
    physicalCount demoStrengthenState = 25 ∧
      cardTotal demoStrengthenState = 25 + attackCards demoStrengthenState :=
  card_conservation demoStrengthenState demoStrengthenState_reachableDistinct


/-! ## Where the engine departs from its specification -/

theorem demoMidState_reachable : Reachable demoMidState := by
  unfold demoMidState
  exact reachable_run demoStart_reachable _

theorem demoDoubleParryState_reachable : Reachable demoDoubleParryState := by
  unfold demoDoubleParryState
  exact reachable_run demoStrengthenState_reachable _

theorem demoRiposteState_reachable : Reachable demoRiposteState := by
  unfold demoRiposteState demoParryState
  exact reachable_run (reachable_run demoStrengthenState_reachable _) _

/-- For a move toward the opponent on an ordered board `isMoveLegal` is the
rule of the specification. -/
theorem isMoveLegal_forward_eq_spec (s : GameState) (player : PId) (cardValue : Nat)
    (hboard : PositionsOrdered s) :
    isMoveLegal s player cardValue (forwardDirection player) =
      moveLegalSpec s player cardValue (forwardDirection player) := by
  obtain ⟨h0, hlt, h1⟩ := hboard
  simp only [BOARD_LENGTH] at h1
  rw [Bool.eq_iff_iff]
  cases player <;>
    simp only [isMoveLegal, moveLegalSpec, forwardDirection, opponentOf, GameState.player,
      PId.other, BOARD_LENGTH, decide_eq_true_eq] <;>
    split_ifs <;> simp <;> omega

/-- Claim C2, at a failing input.  In the worked round, with the players at 5
and 17, player 0 holds a 5 at hand index 0; retreating with it has target 0,
which is on the board and does not land on or cross the opponent, yet
`isMoveLegal` answers false. -/
theorem isMoveLegal_rejects_retreat :
    Reachable demoMidState ∧
    (demoMidState.player .p0).position = 5 ∧ (demoMidState.player .p1).position = 17 ∧
    (demoMidState.player .p0).hand[0]? = some 5 ∧
    moveLegalSpec demoMidState .p0 5 (-1) = true ∧
    isMoveLegal demoMidState .p0 5 (-1) = false :=
  ⟨demoMidState_reachable, by decide!, by decide!, by decide!, by decide!, by decide!⟩

/-- Claim C5, at a failing input.  In the worked round the attack holds the
cards `[2, 2]` (total 4) and the defender's hand is `[2, 1, 1, 3, 2]`.  The
engine accepts hand index 4 twice: the parry succeeds, only one card leaves the
hand, two values 2 are added to the discard pile, and 26 cards are in play. -/
theorem parry_accepts_repeated_index :
    Reachable demoDoubleParryState ∧
    demoDoubleParryState.phase = .awaitParry ∧
    (demoDoubleParryState.attackContext.map fun ctx => (ctx.cards, ctx.total)) =
      some ([2, 2], 4) ∧
    (demoDoubleParryState.player .p1).hand = [2, 1, 1, 3, 2] ∧
    (run demoDoubleParryState [.card .p1 4, .card .p1 4]).phase = .defenderTurn ∧
    ((run demoDoubleParryState [.card .p1 4, .card .p1 4]).player .p1).hand = [2, 1, 1, 3] ∧
    (run demoDoubleParryState [.card .p1 4, .card .p1 4]).discard =
      demoDoubleParryState.discard ++ [2, 2] ∧
    physicalCount (run demoDoubleParryState [.card .p1 4, .card .p1 4]) = 26 :=
  ⟨demoDoubleParryState_reachable, by decide!, by decide!, by decide!, by decide!, by decide!,
    by decide!, by decide!⟩

/-- Claim C7, at a failing input.  In the worked round player 1 has parried
and ripostes (phase `defender-turn`, `mustPlayBeforeDraw` set, four cards in
hand, ten in the deck).  Player 1 attacks with the 2 at hand index 0 and
finishes the attack: `finalizeAttack` draws two cards for player 1, and
`mustPlayBeforeDraw` is still set afterwards. -/
theorem riposte_attack_draws :
    Reachable demoRiposteState ∧
    demoRiposteState.phase = .defenderTurn ∧
    demoRiposteState.activePlayer = some .p1 ∧
    (demoRiposteState.player .p1).mustPlayBeforeDraw = true ∧
    (demoRiposteState.player .p1).hand = [2, 1, 1, 3] ∧
    demoRiposteState.deck.length = 10 ∧
    (run demoRiposteState [.card .p1 0, .click 0, .click 0]).phase = .awaitParry ∧
    ((run demoRiposteState [.card .p1 0, .click 0, .click 0]).player .p1).hand =
      [1, 1, 3, 2, 1] ∧
    (run demoRiposteState [.card .p1 0, .click 0, .click 0]).deck.length = 8 ∧
    ((run demoRiposteState [.card .p1 0, .click 0, .click 0]).player .p1).mustPlayBeforeDraw =
      true :=
  ⟨demoRiposteState_reachable, by decide!, by decide!, by decide!, by decide!, by decide!,
    by decide!, by decide!, by decide!, by decide!⟩


/-! ## Drawing a card -/

/-- Claim C19 (`drawCard` contract).  On an empty deck `drawCard` returns
`null` and changes nothing.  On a deck `rest ++ [card]` it returns `card`,
leaves `rest` as the deck, appends `card` to the end of the drawing player's
hand, leaves the other hand and the discard pile unchanged, sets
`deckExhausted` exactly when `rest` is empty and otherwise keeps it; in no
case does it reset `deckExhausted` to false. -/
theorem drawCard_contract (s : GameState) (id : PId) :
    (s.deck = [] → drawCardValue s = none ∧ drawCard s id = s) ∧
    (∀ rest card, s.deck = rest ++ [card] →
      drawCardValue s = some card ∧
      (drawCard s id).deck = rest ∧
      ((drawCard s id).player id).hand = (s.player id).hand ++ [card] ∧
      ((drawCard s id).player id.other).hand = (s.player id.other).hand ∧
      (drawCard s id).discard = s.discard ∧
      (rest = [] → (drawCard s id).deckExhausted = true) ∧
      (rest ≠ [] → (drawCard s id).deckExhausted = s.deckExhausted)) ∧
    (s.deckExhausted = true → (drawCard s id).deckExhausted = true) := by
  refine ⟨fun h => ?_, fun rest card h => ?_, fun h => ?_⟩
  · simp [drawCardValue, drawCard, h]
  · have hlast : s.deck.getLast? = some card := by rw [h]; simp
    have hdrop : s.deck.dropLast = rest := by rw [h]; simp
    have hlen : rest.length = 0 ↔ rest = [] := List.length_eq_zero
    unfold drawCardValue drawCard
    simp only [hlast, hdrop]
    by_cases hr : rest = []
    · cases id <;>
        simp [GameState.setPlayer, GameState.player, PId.other, hr]
    · cases id <;>
        simp [GameState.setPlayer, GameState.player, PId.other, hr]
  · unfold drawCard
    cases hlast : s.deck.getLast? with
    | none => exact h
    | some card =>
      cases id <;> simp only [GameState.setPlayer, GameState.player] <;> split_ifs <;>
        first | rfl | exact h

/-- Claim C19, witness: the first card dealt in the worked round. -/
theorem drawCard_contract_witness :
    (drawCard { initialState with deck := [4, 2, 5] } .p0).deck = [4, 2] ∧
    ((drawCard { initialState with deck := [4, 2, 5] } .p0).player .p0).hand = [5] :=
  have h := (drawCard_contract { initialState with deck := [4, 2, 5] } .p0).2.1 [4, 2] 5 rfl
  ⟨h.2.1, h.2.2.1⟩

/-! ## The shuffle -/

theorem swapAt_perm (l : List Nat) (i j : Nat) (hi : i < l.length) (hj : j < l.length) :
    (swapAt l i j).Perm l := by
  rw [List.perm_iff_count]
  intro a
  have hj' : j < (l.set i (l.getD j 0)).length := by simpa using hj
  have ej : l.getD j 0 = l[j] := List.getD_eq_getElem l 0 hj
  have ei : l.getD i 0 = l[i] := List.getD_eq_getElem l 0 hi
  unfold swapAt
  rw [List.count_set _ _ _ _ hj', List.count_set _ _ _ _ hi, List.getElem_set]
  simp only [ej, ei, ite_self]
  have hci : (if l[i] == a then 1 else 0) ≤ l.count a := by
    split_ifs with h
    · have : l[i] = a := by simpa using h
      exact List.count_pos_iff.2 (this ▸ List.getElem_mem _)
    · exact Nat.zero_le _
  omega

theorem shuffleLoop_perm (rnd : Nat → Nat) (i : Nat) (l : List Nat)
    (h : i < l.length ∨ i = 0) : (shuffleLoop rnd i l).Perm l := by
  induction i generalizing l with
  | zero => exact List.Perm.refl l
  | succ i ih =>
    have hi : i + 1 < l.length := by
      rcases h with h | h
      · exact h
      · exact absurd h (Nat.succ_ne_zero i)
    have hj : rnd (i + 1) % (i + 2) < l.length :=
      Nat.lt_of_le_of_lt (Nat.lt_succ_iff.1 (Nat.mod_lt _ (Nat.succ_pos _))) hi
    rw [shuffleLoop]
    refine (ih _ (Or.inl ?_)).trans (swapAt_perm l _ _ hi hj)
    rw [swapAt_length]
    omega

/-- Claim C20 (`buildDeck` composition).  Whatever the random choices,
`shuffle` returns a permutation of its input (the input list itself is never
modified), and `buildDeck` returns 25 cards holding each of the values 1 to 5
exactly five times. -/
theorem buildDeck_composition (rnd : Nat → Nat) :
    (∀ array, (shuffle rnd array).Perm array) ∧
    (buildDeck rnd).length = 25 ∧
    (buildDeck rnd).count 1 = 5 ∧ (buildDeck rnd).count 2 = 5 ∧
    (buildDeck rnd).count 3 = 5 ∧ (buildDeck rnd).count 4 = 5 ∧
    (buildDeck rnd).count 5 = 5 := by
  have hperm : ∀ array, (shuffle rnd array).Perm array := by
    intro array
    unfold shuffle
    refine shuffleLoop_perm rnd _ array ?_
    cases array with
    | nil => exact Or.inr rfl
    | cons a l => exact Or.inl (by simp)
  have hdeck : (buildDeck rnd).Perm orderedDeck := hperm orderedDeck
  refine ⟨hperm, buildDeck_length rnd, ?_, ?_, ?_, ?_, ?_⟩ <;>
    rw [hdeck.count_eq] <;> rfl


/-! ## Round results -/

theorem wins_concludeRound (s : GameState) (w : PId) : wins s (concludeRound s (some w)) w :=
  ⟨(concludeRound_some s w).2.2.2.2.1, (concludeRound_some s w).2.2.2.2.2⟩

theorem sameScores_concludeRound_none (s : GameState) : sameScores s (concludeRound s none) :=
  fun q => by cases q <;> rfl

theorem sameScores_refl (s : GameState) : sameScores s s := fun _ => rfl

theorem sameScores_trans {s t u : GameState} (h1 : sameScores s t) (h2 : sameScores t u) :
    sameScores s u := fun q => (h2 q).trans (h1 q)

theorem wins_of_sameScores {s t u : GameState} {w : PId} (h1 : sameScores s t)
    (h2 : wins t u w) : wins s u w :=
  ⟨h2.1.trans (by rw [h1 w]), h2.2.trans (h1 w.other)⟩

/-- Claim C13 (deck-exhaustion resolution).  `resolveDeckDepletion` always ends
the round.  Outside basic mode, a player holding strictly more hand cards equal
to the current distance wins whatever the positions.  Otherwise (equal counts,
or basic mode) the player with the larger displacement from home wins, and
equal displacement is a draw that changes no score.  A winner gains exactly
one point and the other score is unchanged. -/
theorem deck_exhaustion_resolution (s : GameState) :
    (resolveDeckDepletion s).phase = .roundEnd ∧
    (s.mode ≠ .basic → potentialAttacks s .p1 < potentialAttacks s .p0 →
      wins s (resolveDeckDepletion s) .p0) ∧
    (s.mode ≠ .basic → potentialAttacks s .p0 < potentialAttacks s .p1 →
      wins s (resolveDeckDepletion s) .p1) ∧
    (s.mode = .basic ∨ potentialAttacks s .p0 = potentialAttacks s .p1 →
      (displacement s .p1 < displacement s .p0 → wins s (resolveDeckDepletion s) .p0) ∧
      (displacement s .p0 < displacement s .p1 → wins s (resolveDeckDepletion s) .p1) ∧
      (displacement s .p0 = displacement s .p1 → sameScores s (resolveDeckDepletion s))) := by
  have hs : sameScores s { s with finalAttackPending := false } := fun q => by cases q <;> rfl
  have hw : ∀ w, wins s (concludeRound { s with finalAttackPending := false } (some w)) w :=
    fun w => wins_of_sameScores hs (wins_concludeRound _ w)
  have hd : sameScores s (concludeRound { s with finalAttackPending := false } none) :=
    sameScores_trans hs (sameScores_concludeRound_none _)
  refine ⟨?_, ?_, ?_, ?_⟩
  · unfold resolveDeckDepletion
    dsimp only
    split_ifs <;> exact (concludeRound_fields _ _).2
  · intro hmode hlt
    unfold resolveDeckDepletion
    dsimp only
    simp only [potentialAttacks, distance, opponentOf, GameState.player, PId.other] at hlt
    rw [if_pos ⟨hmode, by omega⟩, if_pos (by omega)]
    exact hw .p0
  · intro hmode hlt
    unfold resolveDeckDepletion
    dsimp only
    simp only [potentialAttacks, distance, opponentOf, GameState.player, PId.other] at hlt
    rw [if_pos ⟨hmode, by omega⟩, if_neg (by omega)]
    exact hw .p1
  · intro hcase
    have hnot : ¬ (s.mode ≠ .basic ∧
        (s.player0.hand.filter fun card =>
          card = (s.player0.position - s.player1.position).natAbs).length ≠
        (s.player1.hand.filter fun card =>
          card = (s.player0.position - s.player1.position).natAbs).length) := by
      rintro ⟨h1, h2⟩
      rcases hcase with h | h
      · exact h1 h
      · simp only [potentialAttacks, distance, opponentOf, GameState.player, PId.other] at h
        exact h2 h
    unfold resolveDeckDepletion
    dsimp only
    rw [if_neg hnot]
    simp only [displacement]
    refine ⟨fun h => ?_, fun h => ?_, fun h => ?_⟩
    · rw [if_neg (by omega), if_pos (by omega)]
      exact hw .p0
    · rw [if_neg (by omega), if_neg (by omega)]
      exact hw .p1
    · rw [if_pos h]
      exact hd

/-- Claim C13, witness: in the worked round at positions 5 and 17 (no card
equals the distance 12, equal displacement 5) the resolution is a draw. -/
theorem deck_exhaustion_resolution_witness :
    sameScores demoMidState (resolveDeckDepletion demoMidState) :=
  ((deck_exhaustion_resolution demoMidState).2.2.2 (Or.inr (by decide!))).2.2 (by decide!)


/-! ## What drawing leaves alone -/

theorem drawCard_players (s : GameState) (id : PId) (q : PId) :
    ((drawCard s id).player q).score = (s.player q).score ∧
    ((drawCard s id).player q).position = (s.player q).position ∧
    ((drawCard s id).player q).mustPlayBeforeDraw = (s.player q).mustPlayBeforeDraw ∧
    (drawCard s id).finalAttackPending = s.finalAttackPending := by
  unfold drawCard
  cases s.deck.getLast? with
  | none => exact ⟨rfl, rfl, rfl, rfl⟩
  | some card =>
    cases id <;> cases q <;> simp only [GameState.setPlayer, GameState.player] <;>
      split_ifs <;> exact ⟨rfl, rfl, rfl, rfl⟩

/-- What the draw loop leaves alone: everything but the deck, the drawing
hand, `lastDrawer` and `deckExhausted`. -/
theorem drawLoop_frame (fuel : Nat) (s : GameState) (id : PId) :
    (drawLoop fuel s id).options = s.options ∧ (drawLoop fuel s id).phase = s.phase ∧
    (drawLoop fuel s id).attackContext = s.attackContext ∧
    (drawLoop fuel s id).discard = s.discard ∧ (drawLoop fuel s id).mode = s.mode ∧
    (drawLoop fuel s id).pendingAdvance = s.pendingAdvance ∧
    (drawLoop fuel s id).activePlayer = s.activePlayer ∧
    (drawLoop fuel s id).finalAttackPending = s.finalAttackPending ∧
    (∀ q, ((drawLoop fuel s id).player q).score = (s.player q).score) ∧
    (∀ q, ((drawLoop fuel s id).player q).position = (s.player q).position) ∧
    (∀ q, ((drawLoop fuel s id).player q).mustPlayBeforeDraw =
      (s.player q).mustPlayBeforeDraw) := by
  induction fuel generalizing s with
  | zero => exact ⟨rfl, rfl, rfl, rfl, rfl, rfl, rfl, rfl, fun _ => rfl, fun _ => rfl, fun _ => rfl⟩
  | succ fuel ih =>
    unfold drawLoop
    split_ifs
    · obtain ⟨h1, h2, h3, h4, h5, h6, h7, h8, h9, h10, h11⟩ := ih (drawCard s id)
      obtain ⟨c1, c2, c3, c4, c5, c6, c7⟩ := drawCard_frame s id
      have cp := drawCard_players s id
      exact ⟨h1.trans c1, h2.trans c2, h3.trans c3, h4.trans c4, h5.trans c5, h6.trans c6,
        h7.trans c7, h8.trans (cp id).2.2.2, fun q => (h9 q).trans (cp q).1,
        fun q => (h10 q).trans (cp q).2.1, fun q => (h11 q).trans (cp q).2.2.1⟩
    · exact ⟨rfl, rfl, rfl, rfl, rfl, rfl, rfl, rfl, fun _ => rfl, fun _ => rfl, fun _ => rfl⟩

theorem sameScores_drawLoop (fuel : Nat) (s : GameState) (id : PId) :
    sameScores s (drawLoop fuel s id) :=
  (drawLoop_frame fuel s id).2.2.2.2.2.2.2.2.1

theorem sameScores_play (s : GameState) (player : PId) (cardIndex cardValue : Nat) :
    sameScores s (addToDiscard (removeCardFromHand s player cardIndex) cardValue) :=
  fun q => by cases player <;> cases q <;> rfl

/-! ## The automatic hit of basic mode -/

/-- In basic mode a standard attack is concluded at once in the attacker's
favour, after the attacker's draw. -/
theorem initiateAttack_basic (s : GameState) (player : PId) (cardIndex cardValue : Nat)
    (hmode : s.mode = .basic) :
    (initiateAttack s player cardIndex cardValue .standard).phase = .roundEnd ∧
    (initiateAttack s player cardIndex cardValue .standard).attackContext = none ∧
    wins s (initiateAttack s player cardIndex cardValue .standard) player := by
  have hm3 : (removeCardFromHand s player cardIndex).mode = .basic := by
    rw [removeCardFromHand_mode, hmode]
  unfold initiateAttack
  dsimp only
  rw [if_neg (by simp [addToDiscard, hm3])]
  unfold finalizeAttack
  dsimp only [addToDiscard]
  have hmd := (drawLoop_frame
    ({ removeCardFromHand s player cardIndex with
        attackContext := some
          { type := .standard, attackerId := player, defenderId := player.other,
            cards := [cardValue], total := cardValue, baseCard := cardValue,
            parrySelection := none }
        discard := (removeCardFromHand s player cardIndex).discard ++ [cardValue] } :
      GameState).deck.length
    { removeCardFromHand s player cardIndex with
        attackContext := some
          { type := .standard, attackerId := player, defenderId := player.other,
            cards := [cardValue], total := cardValue, baseCard := cardValue,
            parrySelection := none }
        discard := (removeCardFromHand s player cardIndex).discard ++ [cardValue] }
    player)
  unfold drawToHand
  rw [if_pos ⟨hmd.2.2.2.2.1.trans hm3, rfl⟩]
  refine ⟨(concludeRound_fields _ _).2, (concludeRound_some _ _).2.1, ?_⟩
  refine wins_of_sameScores ?_ (wins_concludeRound _ player)
  refine sameScores_trans ?_ hmd.2.2.2.2.2.2.2.2.1
  intro q
  cases player <;> cases q <;> rfl


theorem handleCardSelection_inTurn (s : GameState) (player : PId) (cardIndex cardValue : Nat)
    (hphase : inTurn s) (hactive : s.activePlayer = some player)
    (hcard : (s.player player).hand[cardIndex]? = some cardValue) :
    handleCardSelection s player cardIndex = showTurnOptions s player cardIndex cardValue := by
  rcases hphase with h | h <;> simp [handleCardSelection, hcard, h, hactive]

theorem handleCardSelection_finalAttack (s : GameState) (player : PId)
    (cardIndex cardValue : Nat)
    (hphase : s.phase = .finalAttack) (hactive : s.activePlayer = some player)
    (hcard : (s.player player).hand[cardIndex]? = some cardValue) :
    handleCardSelection s player cardIndex = attemptFinalAttack s cardIndex cardValue := by
  simp [handleCardSelection, hcard, hphase, hactive]

/-- Claim C12 (basic-mode automatic hit).  In basic mode, when the active
player plays a card equal to the distance as an attack (through the offered
`Attack with v` button in a turn, or directly in the final-attack window), the
round ends at once: phase `round-end`, no attack context (no strengthen or
parry phase), the attacker's score plus one, the defender's score unchanged. -/
theorem basic_mode_automatic_hit (s : GameState) (player : PId) (cardIndex cardValue : Nat)
    (hmode : s.mode = .basic) (hactive : s.activePlayer = some player)
    (hcard : (s.player player).hand[cardIndex]? = some cardValue)
    (hdist : distance s player = cardValue) :
    (inTurn s →
      .attack player cardIndex cardValue ∈ (handleCardSelection s player cardIndex).options ∧
      ∀ k, (handleCardSelection s player cardIndex).options[k]? =
          some (.attack player cardIndex cardValue) →
        (clickOption (handleCardSelection s player cardIndex) k).phase = .roundEnd ∧
        (clickOption (handleCardSelection s player cardIndex) k).attackContext = none ∧
        wins s (clickOption (handleCardSelection s player cardIndex) k) player) ∧
    (s.phase = .finalAttack →
      (handleCardSelection s player cardIndex).phase = .roundEnd ∧
      (handleCardSelection s player cardIndex).attackContext = none ∧
      wins s (handleCardSelection s player cardIndex) player) := by
  refine ⟨fun hturn => ?_, fun hphase => ?_⟩
  · rw [handleCardSelection_inTurn s player cardIndex cardValue hturn hactive hcard]
    refine ⟨?_, fun k hk => ?_⟩
    · simp [showTurnOptions, hdist]
    · unfold clickOption
      rw [hk]
      have h := initiateAttack_basic
        { showTurnOptions s player cardIndex cardValue with options := [] }
        player cardIndex cardValue hmode
      refine ⟨h.1, h.2.1, wins_of_sameScores ?_ h.2.2⟩
      intro q
      cases q <;> rfl
  · rw [handleCardSelection_finalAttack s player cardIndex cardValue hphase hactive hcard]
    unfold attemptFinalAttack
    split
    · rename_i h
      rw [hactive] at h
      exact absurd h (by simp)
    · rename_i p hp
      have hpe : player = p := by
        rw [hactive] at hp
        exact Option.some.inj hp
      subst hpe
      rw [if_neg (by simp [hdist])]
      have h := initiateAttack_basic { s with finalAttackPending := false }
        player cardIndex cardValue hmode
      refine ⟨h.1, h.2.1, wins_of_sameScores ?_ h.2.2⟩
      intro q
      cases q <;> rfl

/-- Claim C12, witness: in the worked round played in basic mode, player 0
attacks at distance 2 with the 2 at hand index 0 and the round ends. -/
theorem basic_mode_automatic_hit_witness :
    (clickOption (handleCardSelection demoBasicState .p0 0) 0).phase = .roundEnd ∧
    wins demoBasicState (clickOption (handleCardSelection demoBasicState .p0 0) 0) .p0 :=
  have h := ((basic_mode_automatic_hit demoBasicState .p0 0 2 (by decide!) (by decide!)
    (by decide!) (by decide!)).1 (Or.inl (by decide!))).2 0 (by decide!)
  ⟨h.1, h.2.2⟩

/-! ## Stalemate -/

/-- Claim C11 (stalemate).  At the end of a move with the deck not exhausted,
the round ends if and only if no card of the opponent's hand gives a legal
forward move, a legal retreat or an attack at exactly the current distance;
it then ends in the mover's favour with no card drawn.  With the deck
exhausted the end of a move never ends the round. -/
theorem stalemate_rule (s : GameState) (player : PId) :
    (s.deckExhausted = false →
      ((endPlayerTurn s player).phase = .roundEnd ↔
        ∀ cardValue ∈ (s.player player.other).hand,
          isMoveLegal s player.other cardValue (forwardDirection player.other) = false ∧
          isMoveLegal s player.other cardValue (-forwardDirection player.other) = false ∧
          distance s player.other ≠ cardValue)) ∧
    (s.deckExhausted = false → (endPlayerTurn s player).phase = .roundEnd →
      wins s (endPlayerTurn s player) player ∧
      (endPlayerTurn s player).deck = s.deck ∧
      (∀ q, ((endPlayerTurn s player).player q).hand = (s.player q).hand)) ∧
    (s.deckExhausted = true → (endPlayerTurn s player).phase ≠ .roundEnd) := by
  have hcheck : s.deckExhausted = false →
      (checkNoLegalMoves s player.other = true ↔
        ∀ cardValue ∈ (s.player player.other).hand,
          isMoveLegal s player.other cardValue (forwardDirection player.other) = false ∧
          isMoveLegal s player.other cardValue (-forwardDirection player.other) = false ∧
          distance s player.other ≠ cardValue) := by
    intro hde
    simp [checkNoLegalMoves, hde, and_assoc]
  have hphase : (endPlayerTurn s player).phase = .roundEnd ↔
      checkNoLegalMoves s player.other = true := by
    unfold endPlayerTurn
    dsimp only
    split_ifs with h1 h2
    · simp [(concludeRound_fields s (some player)).2, h1]
    · simp [triggerFinalAttackPhase, h1]
    · simp [h1]
  refine ⟨fun hde => hphase.trans (hcheck hde), fun _ hend => ?_, fun hde => ?_⟩
  · have hc := hphase.1 hend
    unfold endPlayerTurn
    rw [if_pos hc]
    refine ⟨wins_concludeRound s player, ?_, fun q => ?_⟩
    · unfold concludeRound
      cases player <;> rfl
    · unfold concludeRound
      cases player <;> cases q <;> rfl
  · intro hend
    have hc := hphase.1 hend
    simp [checkNoLegalMoves, hde] at hc

/-- Claim C11, witness: in the worked round, after player 0's first move the
deck is not exhausted and player 1 holds a playable card, so the round goes on. -/
theorem stalemate_rule_witness :
    (endPlayerTurn demoStart .p0).phase ≠ .roundEnd := by
  intro h
  have := ((stalemate_rule demoStart .p0).1 (by decide!)).1 h 5 (by decide!)
  exact absurd this.1 (by decide!)

/-! ## Mode changes -/

theorem dealInitialHands_mode (s : GameState) : (dealInitialHands s).mode = s.mode := by
  unfold dealInitialHands
  generalize List.range HAND_SIZE = l
  induction l generalizing s with
  | nil => rfl
  | cons a l ih =>
    simp only [List.foldl_cons]
    rw [ih, (drawCard_frame _ _).2.2.2.2.1, (drawCard_frame _ _).2.2.2.2.1]

/-- The two outcomes of `finalizeAttack` on a state with an attack context. -/
theorem finalizeAttack_some (s : GameState) (ctx : AttackContext)
    (hctx : s.attackContext = some ctx) :
    finalizeAttack s =
      if (drawToHand s ctx.attackerId).mode = .basic ∧ ctx.type = .standard then
        concludeRound (drawToHand s ctx.attackerId) (some ctx.attackerId)
      else
        { drawToHand s ctx.attackerId with
          phase := .awaitParry
          attackContext := some { ctx with parrySelection := some [] }
          options := .parryPrompt ::
            (if (drawToHand s ctx.attackerId).mode = .advanced ∧ ctx.type = .advanced
              then [.retreat ctx.defenderId] else []) } := by
  unfold finalizeAttack
  split
  · rename_i h
    rw [hctx] at h
    exact absurd h (by simp)
  · rename_i c hc
    rw [hctx] at hc
    cases hc
    rfl

/-- Claim C16, as stated, fails: in the worked round, during player 0's attack
in advanced mode, selecting basic mode changes `gameState.mode` at once, and
`Finish attack` then ends the round as an automatic hit instead of opening the
parry phase. -/
theorem mode_change_counterexample :
    (¬ ∀ s mode, Reachable s → (step s (.setMode mode)).mode = s.mode) ∧
    demoStrengthenState.mode = .advanced ∧
    (step demoStrengthenState (.setMode .basic)).mode = .basic ∧
    (run demoStrengthenState [.click 0]).phase = .awaitParry ∧
    (run demoStrengthenState [.setMode .basic, .click 0]).phase = .roundEnd := by
  refine ⟨fun h => ?_, by decide!, by decide!, by decide!, by decide!⟩
  have h1 := h demoStrengthenState .basic demoStrengthenState_reachable
  have h2 : demoStrengthenState.mode = .advanced := by decide!
  rw [h2] at h1
  exact absurd h1 (by decide)

/-- Claim C16, amended.  Selecting a mode sets `gameState.mode` at once and
changes nothing else, so the new mode gates the rest of the current round: in
particular `Finish attack` on a standard attack right after selecting basic
mode ends the round as an automatic hit.  `startRound` sets the mode to the
selected one again. -/
theorem mode_change_immediate (s : GameState) (mode : Mode) :
    step s (.setMode mode) = { s with mode := mode } ∧
    (∀ selected rnd, (startRound s selected rnd).mode = selected) ∧
    (∀ ctx, s.attackContext = some ctx → ctx.type = .standard →
      (finalizeAttack (step s (.setMode .basic))).phase = .roundEnd ∧
      wins s (finalizeAttack (step s (.setMode .basic))) ctx.attackerId) := by
  refine ⟨rfl, fun selected rnd => ?_, fun ctx hctx htype => ?_⟩
  · unfold startRound
    rw [dealInitialHands_mode]
  · have hf := drawLoop_frame ({ s with mode := Mode.basic } : GameState).deck.length
      { s with mode := Mode.basic } ctx.attackerId
    have hfin : finalizeAttack (step s (.setMode .basic)) =
        concludeRound (drawToHand { s with mode := Mode.basic } ctx.attackerId)
          (some ctx.attackerId) := by
      show finalizeAttack { s with mode := Mode.basic } = _
      rw [finalizeAttack_some { s with mode := Mode.basic } ctx hctx]
      exact if_pos ⟨hf.2.2.2.2.1, htype⟩
    rw [hfin]
    refine ⟨(concludeRound_fields _ _).2, wins_of_sameScores ?_ (wins_concludeRound _ _)⟩
    refine sameScores_trans ?_ hf.2.2.2.2.2.2.2.2.1
    intro q
    cases q <;> rfl

/-- Claim C16 (amended), witness: the attack of the worked round. -/
theorem mode_change_immediate_witness :
    (finalizeAttack (step demoStrengthenState (.setMode .basic))).phase = .roundEnd :=
  ((mode_change_immediate demoStrengthenState .basic).2.2
    { type := .standard, attackerId := .p0, defenderId := .p1, cards := [2], total := 2,
      baseCard := 2, parrySelection := none } (by decide!) rfl).1


/-! ## Scoring -/

theorem scoreStep_of_same {s t : GameState} (h : sameScores s t) : ScoreStep s t := Or.inl h

theorem scoreStep_conclude {s t : GameState} (h : sameScores s t) (w : Option PId) :
    ScoreStep s (concludeRound t w) := by
  cases w with
  | none => exact Or.inl (sameScores_trans h (sameScores_concludeRound_none t))
  | some w =>
    exact Or.inr ⟨(concludeRound_fields t _).2, w, wins_of_sameScores h (wins_concludeRound t w)⟩

theorem scoreStep_after {s t u : GameState} (h1 : sameScores s t) (h2 : ScoreStep t u) :
    ScoreStep s u := by
  rcases h2 with h | ⟨hp, w, hw⟩
  · exact Or.inl (sameScores_trans h1 h)
  · exact Or.inr ⟨hp, w, wins_of_sameScores h1 hw⟩

theorem sameScores_of_players {s t : GameState} (h0 : t.player0.score = s.player0.score)
    (h1 : t.player1.score = s.player1.score) : sameScores s t :=
  fun q => by cases q <;> assumption

theorem sameScores_drawIfAllowed (s : GameState) (id : PId) :
    sameScores s (drawIfAllowed s id) := by
  unfold drawIfAllowed
  split_ifs
  · intro q
    cases id <;> cases q <;> rfl
  · exact sameScores_drawLoop _ s id

theorem sameScores_discardParrySelection (s : GameState) (d : PId) (sel : List ParryItem) :
    sameScores s (discardParrySelection s d sel) :=
  (discardParrySelection_frame s d sel).2.2.2.2.2.2.2.2.2.2.2.1

theorem scoreStep_endPlayerTurn (s : GameState) (player : PId) :
    ScoreStep s (endPlayerTurn s player) := by
  unfold endPlayerTurn
  have h := sameScores_drawIfAllowed s player
  dsimp only
  split_ifs
  · exact scoreStep_conclude (sameScores_refl s) _
  · exact Or.inl (sameScores_trans h (sameScores_of_players rfl rfl))
  · exact Or.inl (sameScores_trans h (sameScores_of_players rfl rfl))

theorem scoreStep_movePlayer (s : GameState) (player : PId) (cardIndex cardValue : Nat)
    (direction : Int) : ScoreStep s (movePlayer s player cardIndex cardValue direction) := by
  unfold movePlayer
  dsimp only
  refine scoreStep_after ?_ (scoreStep_endPlayerTurn _ _)
  intro q
  cases player <;> cases q <;> rfl

theorem scoreStep_finalizeAttack (s : GameState) : ScoreStep s (finalizeAttack s) := by
  unfold finalizeAttack
  split
  · exact Or.inl (sameScores_refl s)
  · rename_i ctx _
    have h : sameScores s (drawToHand s ctx.attackerId) := sameScores_drawLoop _ s _
    dsimp only
    split_ifs
    · exact scoreStep_conclude h _
    · exact Or.inl (sameScores_trans h (sameScores_of_players rfl rfl))
    · exact Or.inl (sameScores_trans h (sameScores_of_players rfl rfl))

theorem scoreStep_initiateAttack (s : GameState) (player : PId) (cardIndex cardValue : Nat)
    (type : AttackType) : ScoreStep s (initiateAttack s player cardIndex cardValue type) := by
  unfold initiateAttack
  have h : sameScores s (removeCardFromHand s player cardIndex) :=
    fun q => by cases player <;> cases q <;> rfl
  dsimp only
  split_ifs
  · exact Or.inl (sameScores_trans h (sameScores_of_players rfl rfl))
  · exact scoreStep_after (sameScores_trans h (sameScores_of_players rfl rfl))
      (scoreStep_finalizeAttack _)

theorem sameScores_handleAttackStrengthen (s : GameState) (cardIndex cardValue : Nat) :
    sameScores s (handleAttackStrengthen s cardIndex cardValue) := by
  unfold handleAttackStrengthen
  split
  · exact sameScores_refl s
  · rename_i ctx _
    dsimp only
    split_ifs
    · exact sameScores_refl s
    · have h : sameScores s (removeCardFromHand s ctx.attackerId cardIndex) := by
        generalize ctx.attackerId = a
        intro q
        cases a <;> cases q <;> rfl
      exact sameScores_trans h (sameScores_of_players rfl rfl)

theorem sameScores_performRetreat (s : GameState) (cardIndex cardValue : Nat) :
    sameScores s (performRetreat s cardIndex cardValue) := by
  unfold performRetreat
  split
  · exact sameScores_refl s
  · rename_i ctx _
    dsimp only
    split_ifs
    · refine sameScores_trans ?_ (sameScores_trans (sameScores_drawLoop _ _ ctx.defenderId)
        (sameScores_of_players rfl rfl))
      generalize ctx.defenderId = d
      intro q
      cases d <;> cases q <;> rfl
    · exact sameScores_refl s

theorem sameScores_resolveParry (s : GameState) : sameScores s (resolveParry s) := by
  unfold resolveParry
  split
  · exact sameScores_refl s
  · rename_i ctx _
    split
    · exact sameScores_refl s
    · rename_i selection _
      have h := sameScores_discardParrySelection s ctx.defenderId selection
      dsimp only
      refine sameScores_trans h ?_
      generalize discardParrySelection s ctx.defenderId selection = t
      generalize ctx.defenderId = d
      intro q
      cases d <;> cases q <;> rfl

theorem scoreStep_handleParrySelection (s : GameState) (cardIndex cardValue : Nat) :
    ScoreStep s (handleParrySelection s cardIndex cardValue) := by
  unfold handleParrySelection
  split_ifs
  · exact Or.inl (sameScores_performRetreat s cardIndex cardValue)
  · split
    · exact Or.inl (sameScores_refl s)
    · rename_i ctx _
      split
      · exact Or.inl (sameScores_refl s)
      · rename_i selection _
        dsimp only
        have h1 : sameScores s { s with attackContext := some { ctx with parrySelection := some (selection ++ [⟨cardValue, cardIndex⟩]) } } :=
          sameScores_of_players rfl rfl
        split_ifs
        · exact Or.inl (sameScores_trans h1 (sameScores_resolveParry _))
        · exact scoreStep_conclude (sameScores_trans h1 (sameScores_discardParrySelection _ _ _)) _
        · exact Or.inl h1

theorem sameScores_initiateAdvance (s : GameState) (player : PId) (cardIndex cardValue : Nat) :
    sameScores s (initiateAdvance s player cardIndex cardValue) :=
  fun q => by cases player <;> cases q <;> rfl

theorem sameScores_cancelAdvance (s : GameState) (player : PId) (cardValue : Nat) :
    sameScores s (cancelAdvance s player cardValue) :=
  fun q => by cases player <;> cases q <;> rfl

theorem scoreStep_finalizeAdvanceAttack (s : GameState) (player : PId)
    (cardIndex cardValue : Nat) :
    ScoreStep s (finalizeAdvanceAttack s player cardIndex cardValue) := by
  unfold finalizeAdvanceAttack
  split_ifs
  · exact Or.inl (sameScores_refl s)
  · exact scoreStep_after (sameScores_of_players rfl rfl) (scoreStep_initiateAttack _ _ _ _ _)

theorem scoreStep_attemptFinalAttack (s : GameState) (cardIndex cardValue : Nat) :
    ScoreStep s (attemptFinalAttack s cardIndex cardValue) := by
  unfold attemptFinalAttack
  split
  · exact Or.inl (sameScores_refl s)
  · split_ifs
    · exact Or.inl (sameScores_refl s)
    · exact scoreStep_after (sameScores_of_players rfl rfl) (scoreStep_initiateAttack _ _ _ _ _)

theorem scoreStep_resolveDeckDepletion (s : GameState) :
    ScoreStep s (resolveDeckDepletion s) := by
  unfold resolveDeckDepletion
  dsimp only
  have h : sameScores s { s with finalAttackPending := false } := sameScores_of_players rfl rfl
  split_ifs <;> exact scoreStep_conclude h _

theorem scoreStep_handleCardSelection (s : GameState) (playerId : PId) (cardIndex : Nat) :
    ScoreStep s (handleCardSelection s playerId cardIndex) := by
  have hshow : ∀ v, ScoreStep s (showTurnOptions s playerId cardIndex v) :=
    fun v => Or.inl (sameScores_of_players rfl rfl)
  unfold handleCardSelection
  split
  · exact Or.inl (sameScores_refl s)
  · rename_i cardValue _
    split
    · split_ifs
      · exact scoreStep_finalizeAdvanceAttack _ _ _ _
      · exact Or.inl (sameScores_refl s)
    · split
      · split_ifs
        · exact Or.inl (sameScores_refl s)
        · exact hshow _
      · split_ifs
        · exact Or.inl (sameScores_refl s)
        · exact Or.inl (sameScores_handleAttackStrengthen _ _ _)
      · split_ifs
        · exact Or.inl (sameScores_refl s)
        · exact scoreStep_handleParrySelection _ _ _
      · split_ifs
        · exact Or.inl (sameScores_refl s)
        · exact scoreStep_handleParrySelection _ _ _
      · split_ifs
        · exact Or.inl (sameScores_refl s)
        · exact scoreStep_attemptFinalAttack _ _ _
      · split_ifs
        · exact Or.inl (sameScores_refl s)
        · exact hshow _
      · exact Or.inl (sameScores_refl s)

theorem scoreStep_runOption (s : GameState) (o : ActionOption) : ScoreStep s (runOption s o) := by
  have hclear : sameScores s { s with options := [] } := sameScores_of_players rfl rfl
  cases o with
  | move player cardIndex cardValue direction =>
    exact scoreStep_after hclear (scoreStep_movePlayer _ _ _ _ _)
  | attack player cardIndex cardValue =>
    exact scoreStep_after hclear (scoreStep_initiateAttack _ _ _ _ _)
  | advance player cardIndex cardValue =>
    exact Or.inl (sameScores_trans hclear (sameScores_initiateAdvance _ _ _ _))
  | finishAttack => exact scoreStep_finalizeAttack s
  | parryPrompt => exact Or.inl (sameScores_refl s)
  | retreat defender => exact Or.inl (sameScores_of_players rfl rfl)
  | cancelRetreat defender => exact Or.inl (sameScores_of_players rfl rfl)
  | cancelAdvance player cardValue => exact Or.inl (sameScores_cancelAdvance s player cardValue)
  | pass => exact scoreStep_resolveDeckDepletion s

theorem dealInitialHands_players (s : GameState) (q : PId) :
    ((dealInitialHands s).player q).score = (s.player q).score ∧
    ((dealInitialHands s).player q).position = (s.player q).position ∧
    ((dealInitialHands s).player q).mustPlayBeforeDraw = (s.player q).mustPlayBeforeDraw := by
  unfold dealInitialHands
  generalize List.range HAND_SIZE = l
  induction l generalizing s with
  | nil => exact ⟨rfl, rfl, rfl⟩
  | cons a l ih =>
    simp only [List.foldl_cons]
    have h0 := drawCard_players s .p0 q
    have h1 := drawCard_players (drawCard s .p0) .p1 q
    have h := ih (drawCard (drawCard s .p0) .p1)
    exact ⟨h.1.trans (h1.1.trans h0.1), h.2.1.trans (h1.2.1.trans h0.2.1),
      h.2.2.trans (h1.2.2.1.trans h0.2.2.1)⟩

theorem sameScores_startRound (s : GameState) (selected : Mode) (rnd : Nat → Nat) :
    sameScores s (startRound s selected rnd) := by
  intro q
  unfold startRound
  rw [(dealInitialHands_players _ q).1]
  cases q <;> rfl

theorem scoreStep_step (s : GameState) (i : Input)
    (hi : ∀ selected rnd, i ≠ .newMatch selected rnd) : ScoreStep s (step s i) := by
  cases i with
  | card playerId cardIndex => exact scoreStep_handleCardSelection s playerId cardIndex
  | click k =>
    simp only [step, clickOption]
    split
    · exact Or.inl (sameScores_refl s)
    · exact scoreStep_runOption s _
  | setMode mode => exact Or.inl (sameScores_of_players rfl rfl)
  | newMatch selected rnd => exact absurd rfl (hi selected rnd)
  | nextRound selected rnd =>
    simp only [step, startNextRound]
    split_ifs
    · exact Or.inl (sameScores_refl s)
    · exact Or.inl (@sameScores_trans s
        { s with round := s.round + 1, startingPlayer := s.startingPlayer.other } _
        (sameScores_of_players rfl rfl) (sameScores_startRound _ selected rnd))
    · exact Or.inl (sameScores_refl s)

theorem drawCard_round (s : GameState) (id : PId) :
    (drawCard s id).round = s.round ∧ (drawCard s id).startingPlayer = s.startingPlayer := by
  unfold drawCard
  cases s.deck.getLast? with
  | none => exact ⟨rfl, rfl⟩
  | some card =>
    cases id <;> simp only [GameState.setPlayer, GameState.player] <;> split_ifs <;>
      exact ⟨rfl, rfl⟩

theorem dealInitialHands_round (s : GameState) :
    (dealInitialHands s).round = s.round ∧
    (dealInitialHands s).startingPlayer = s.startingPlayer := by
  unfold dealInitialHands
  generalize List.range HAND_SIZE = l
  induction l generalizing s with
  | nil => exact ⟨rfl, rfl⟩
  | cons a l ih =>
    simp only [List.foldl_cons]
    have h0 := drawCard_round s .p0
    have h1 := drawCard_round (drawCard s .p0) .p1
    have h := ih (drawCard (drawCard s .p0) .p1)
    exact ⟨h.1.trans (h1.1.trans h0.1), h.2.trans (h1.2.trans h0.2)⟩

theorem sameScores_fields {s t : GameState} (h : sameScores s t) :
    t.player0.score = s.player0.score ∧ t.player1.score = s.player1.score :=
  ⟨h .p0, h .p1⟩

/-- Claim C17 (scoring).  `concludeRound` with a winner ends the round, adds
exactly one point to the winner and leaves the other score unchanged; a drawn
round changes neither score.  Every engine input other than the new-match
button either leaves both scores unchanged or ends the round with exactly one
player gaining exactly one point, so no score ever decreases.  `startNewMatch`
sets both scores to 0, the round number to 1 and the starting player to
player 0. -/
theorem scoring :
    (∀ s w, (concludeRound s (some w)).phase = .roundEnd ∧
      wins s (concludeRound s (some w)) w) ∧
    (∀ s, (concludeRound s none).phase = .roundEnd ∧ sameScores s (concludeRound s none)) ∧
    (∀ s i, (∀ selected rnd, i ≠ .newMatch selected rnd) →
      (sameScores s (step s i) ∨ ((step s i).phase = .roundEnd ∧ ∃ w, wins s (step s i) w)) ∧
      ∀ q, (s.player q).score ≤ ((step s i).player q).score) ∧
    (∀ s selected rnd,
      (startNewMatch s selected rnd).player0.score = 0 ∧
      (startNewMatch s selected rnd).player1.score = 0 ∧
      (startNewMatch s selected rnd).round = 1 ∧
      (startNewMatch s selected rnd).startingPlayer = .p0) := by
  refine ⟨fun s w => ⟨(concludeRound_fields s _).2, wins_concludeRound s w⟩,
    fun s => ⟨(concludeRound_fields s _).2, sameScores_concludeRound_none s⟩,
    fun s i hi => ?_, fun s selected rnd => ?_⟩
  · have h := scoreStep_step s i hi
    refine ⟨h, fun q => ?_⟩
    rcases h with h | ⟨-, w, hw⟩
    · exact Nat.le_of_eq (h q).symm
    · cases w <;> cases q <;>
        simp only [wins, PId.other] at hw <;> omega
  · have hs := sameScores_startRound
      { resetScores s with round := 1, startingPlayer := PId.p0 } selected rnd
    unfold startNewMatch
    refine ⟨?_, ?_, ?_, ?_⟩
    · exact (sameScores_fields hs).1.trans rfl
    · exact (sameScores_fields hs).2.trans rfl
    · unfold startRound
      rw [(dealInitialHands_round _).1]
    · unfold startRound
      rw [(dealInitialHands_round _).2]

/-- Claim C17, witness: the basic-mode attack of the worked round ends the
round with one point for player 0. -/
theorem scoring_witness :
    ∀ q, ((handleCardSelection demoBasicState .p0 0).player q).score ≤
      ((step (handleCardSelection demoBasicState .p0 0) (.click 0)).player q).score :=
  (scoring.2.2.1 (handleCardSelection demoBasicState .p0 0) (.click 0)
    (fun _ _ h => Input.noConfusion h)).2


/-! ## The final attack -/

theorem endgameParryState_reachable : Reachable endgameParryState := by
  unfold endgameParryState endgameFinalAttackState
  refine reachable_run (reachable_run ?_ _) _
  unfold endgameStart
  exact Reachable.start _ _ _

theorem deck_exhaustion_resolution_phase (s : GameState) :
    (resolveDeckDepletion s).phase = .roundEnd := by
  unfold resolveDeckDepletion
  dsimp only
  split_ifs <;> exact (concludeRound_fields _ _).2

/-- What the engine does at the two ways out of an attack that was declared
from the final-attack window.  The `Pass` choice applies the deck-exhaustion
resolution and ends the round.  A successful parry never does: whatever the
state of the deck, the phase becomes `defender-turn` with the defender active,
and the scores and the `deckExhausted` flag are unchanged. -/
theorem final_attack_resolution (s : GameState) :
    (∀ k, s.options[k]? = some .pass →
      clickOption s k = resolveDeckDepletion s ∧ (clickOption s k).phase = .roundEnd) ∧
    (∀ (ctx : AttackContext) (sel : List ParryItem) (cardIndex cardValue : Nat),
      s.phase = .awaitParry → s.attackContext = some ctx → ctx.parrySelection = some sel →
      (s.player ctx.defenderId).hand[cardIndex]? = some cardValue →
      sel.length + 1 = ctx.cards.length →
      selectionTotal (sel ++ [⟨cardValue, cardIndex⟩]) = ctx.total →
      (handleCardSelection s ctx.defenderId cardIndex).phase = .defenderTurn ∧
      (handleCardSelection s ctx.defenderId cardIndex).activePlayer = some ctx.defenderId ∧
      (handleCardSelection s ctx.defenderId cardIndex).deckExhausted = s.deckExhausted ∧
      sameScores s (handleCardSelection s ctx.defenderId cardIndex)) := by
  refine ⟨fun k hk => ?_, fun ctx sel cardIndex cardValue hphase hctx hsel hcard hcount htotal => ?_⟩
  · have h : clickOption s k = resolveDeckDepletion s := by
      unfold clickOption
      rw [hk]
      rfl
    rw [h]
    exact ⟨rfl, (deck_exhaustion_resolution_phase s)⟩
  · rw [handleCardSelection_awaitParry s ctx cardIndex cardValue hphase hctx hcard,
      handleParrySelection_eq s ctx sel cardIndex cardValue hphase hctx hsel,
      if_pos hcount, if_pos htotal, resolveParry_eq _ _ _ rfl rfl]
    have hf := discardParrySelection_frame
      { s with attackContext := some { ctx with parrySelection := some (sel ++ [⟨cardValue, cardIndex⟩]) } }
      ctx.defenderId (sel ++ [⟨cardValue, cardIndex⟩])
    obtain ⟨-, -, -, -, -, -, -, hde, -, -, -, hscore, -⟩ := hf
    have hp0 : ∀ q, (GameState.player
        { s with attackContext := some { ctx with parrySelection := some (sel ++ [⟨cardValue, cardIndex⟩]) } } q)
        = s.player q := fun q => by cases q <;> rfl
    simp only [hp0] at hscore
    generalize discardParrySelection
      { s with attackContext := some { ctx with parrySelection := some (sel ++ [⟨cardValue, cardIndex⟩]) } }
      ctx.defenderId (sel ++ [⟨cardValue, cardIndex⟩]) = t at hde hscore ⊢
    generalize ctx.defenderId = d
    refine ⟨rfl, rfl, ?_, fun q => ?_⟩
    · cases d <;> exact hde
    · rw [← hscore q]
      cases d <;> cases q <;> rfl

/-- The parried final attack of the endgame round, as an instance. -/
theorem final_attack_resolution_example :
    (handleCardSelection endgameParryState .p0 0).phase = .defenderTurn ∧
    (handleCardSelection endgameParryState .p0 0).deckExhausted =
      endgameParryState.deckExhausted :=
  have h := (final_attack_resolution endgameParryState).2
    { type := .standard, attackerId := .p1, defenderId := .p0, cards := [1], total := 1,
      baseCard := 1, parrySelection := some [] } [] 0 1
    (by decide!) (by decide!) rfl (by decide!) (by decide!) (by decide!)
  ⟨h.1, h.2.2.1⟩


/-! ## Attack context well-formedness -/

theorem distance_congr {s t : GameState}
    (h0 : t.player0.position = s.player0.position)
    (h1 : t.player1.position = s.player1.position) (p : PId) :
    distance t p = distance s p := by
  cases p <;> simp [distance, opponentOf, GameState.player, PId.other, h0, h1]

theorem distance_p0 (s : GameState) (p : PId) : distance s p = distance s .p0 := by
  cases p
  · rfl
  · simp only [distance, opponentOf, GameState.player, PId.other]
    omega

theorem concludeRound_attackContext (s : GameState) (w : Option PId) :
    (concludeRound s w).attackContext = none := by
  unfold concludeRound
  cases w with
  | none => rfl
  | some w => cases w <;> rfl

/-- A state without an attack context whose offered actions include no attack
satisfies the attack invariant. -/
theorem attackInvariant_of_none {t : GameState} (hctx : t.attackContext = none)
    (hopt : ∀ o ∈ t.options, ∀ p i v, o ≠ .attack p i v) : AttackInvariant t := by
  refine ⟨fun ctx h => ?_, fun o ho => ?_, fun _ => hctx⟩
  · rw [hctx] at h
    exact absurd h (by simp)
  · cases o with
    | attack p i v => exact absurd rfl (hopt _ ho p i v)
    | move p i v d => exact hctx
    | advance p i v => exact hctx
    | cancelAdvance p v => exact hctx
    | finishAttack => trivial
    | parryPrompt => trivial
    | retreat d => trivial
    | cancelRetreat d => trivial
    | pass => trivial

theorem attackInvariant_concludeRound (s : GameState) (w : Option PId) :
    AttackInvariant (concludeRound s w) := by
  refine attackInvariant_of_none (concludeRound_attackContext s w) fun o ho => ?_
  rw [(concludeRound_fields s w).1] at ho
  exact absurd ho (List.not_mem_nil o)

theorem drawIfAllowed_attackContext (s : GameState) (id : PId) :
    (drawIfAllowed s id).attackContext = s.attackContext := by
  unfold drawIfAllowed
  split_ifs
  · exact setPlayer_attackContext _ _ _
  · exact (drawLoop_frame _ s id).2.2.1

theorem attackInvariant_endPlayerTurn (s : GameState) (player : PId)
    (hctx : s.attackContext = none) : AttackInvariant (endPlayerTurn s player) := by
  unfold endPlayerTurn
  have h := (drawIfAllowed_attackContext s player).trans hctx
  dsimp only
  split_ifs
  · exact attackInvariant_concludeRound _ _
  · refine attackInvariant_of_none h fun o ho => ?_
    simp only [triggerFinalAttackPhase, List.mem_singleton] at ho
    subst ho
    intro p i v hne
    exact ActionOption.noConfusion hne
  · exact attackInvariant_of_none h fun o ho => by simp at ho

theorem attackInvariant_movePlayer (s : GameState) (player : PId) (cardIndex cardValue : Nat)
    (direction : Int) (hctx : s.attackContext = none) :
    AttackInvariant (movePlayer s player cardIndex cardValue direction) := by
  unfold movePlayer
  dsimp only
  apply attackInvariant_endPlayerTurn
  simp only [addToDiscard, setPlayer_attackContext, removeCardFromHand_attackContext]
  exact hctx

theorem attackInvariant_finalizeAttack_some (s : GameState) (ctx : AttackContext)
    (hw : attackWellFormed s) (hctx : s.attackContext = some ctx) :
    AttackInvariant (finalizeAttack s) := by
  rw [finalizeAttack_some s ctx hctx]
  have hq := quiet_drawToHand s ctx.attackerId
  obtain ⟨h1, h2, h3, h4, h5⟩ := hw ctx hctx
  split_ifs
  · exact attackInvariant_concludeRound _ _
  · refine ⟨fun c hc => ?_, fun o ho => ?_, fun ht => ?_⟩
    · simp only [Option.some.injEq] at hc
      subst hc
      exact ⟨h1, h2, h3, h4, h5.trans (distance_congr hq.1 hq.2.1 _).symm⟩
    · simp only [List.mem_cons, List.mem_singleton, List.not_mem_nil, or_false] at ho
      rcases ho with ho | ho <;> subst ho <;> trivial
    · rcases ht with ht | ht <;> exact absurd ht (by simp)
  · refine ⟨fun c hc => ?_, fun o ho => ?_, fun ht => ?_⟩
    · simp only [Option.some.injEq] at hc
      subst hc
      exact ⟨h1, h2, h3, h4, h5.trans (distance_congr hq.1 hq.2.1 _).symm⟩
    · simp only [List.mem_cons, List.mem_singleton, List.not_mem_nil, or_false] at ho
      subst ho
      trivial
    · rcases ht with ht | ht <;> exact absurd ht (by simp)

theorem attackInvariant_finalizeAttack (s : GameState) (hs : AttackInvariant s) :
    AttackInvariant (finalizeAttack s) := by
  cases hctx : s.attackContext with
  | none =>
    have : finalizeAttack s = s := by
      unfold finalizeAttack
      split
      · rfl
      · rename_i c hc
        rw [hctx] at hc
        exact absurd hc (by simp)
    rw [this]
    exact hs
  | some ctx => exact attackInvariant_finalizeAttack_some s ctx hs.1 hctx

theorem attackInvariant_initiateAttack (s : GameState) (player : PId)
    (cardIndex cardValue : Nat) (type : AttackType) (hdist : distance s player = cardValue) :
    AttackInvariant (initiateAttack s player cardIndex cardValue type) := by
  have hq := quiet_removeCardFromHand s player cardIndex
  have hw : attackWellFormed
      (addToDiscard { removeCardFromHand s player cardIndex with
        attackContext := some
          { type := type, attackerId := player, defenderId := player.other,
            cards := [cardValue], total := cardValue, baseCard := cardValue,
            parrySelection := none } } cardValue) := by
    intro c hc
    simp only [addToDiscard, Option.some.injEq] at hc
    subst hc
    refine ⟨by simp, by simp, by simp, by simp, ?_⟩
    rw [← hdist, distance_p0 s player]
    exact (@distance_congr s _ hq.1 hq.2.1 .p0).symm
  unfold initiateAttack
  dsimp only
  split_ifs
  · refine ⟨hw, fun o ho => ?_, fun ht => ?_⟩
    · simp only [addToDiscard, List.mem_singleton] at ho
      subst ho
      trivial
    · rcases ht with ht | ht <;> exact absurd ht (by simp [addToDiscard])
  · exact attackInvariant_finalizeAttack_some _ _ hw rfl

theorem optionSound_of_same {s t : GameState} (hq : Quiet s t)
    (hctx : s.attackContext = none → t.attackContext = none)
    (o : ActionOption) (h : optionSound s o) : optionSound t o := by
  cases o with
  | attack p i v => exact (distance_congr hq.1 hq.2.1 p).trans h
  | move p i v d => exact hctx h
  | advance p i v => exact hctx h
  | cancelAdvance p v => exact hctx h
  | finishAttack => trivial
  | parryPrompt => trivial
  | retreat d => trivial
  | cancelRetreat d => trivial
  | pass => trivial

/-- A transition that keeps the phase, the positions and the offered actions
and replaces a present attack context by a well-formed one keeps the attack
invariant. -/
theorem attackInvariant_update {s t : GameState} (hs : AttackInvariant s)
    (ctx : AttackContext) (hctx : s.attackContext = some ctx)
    (hphase : t.phase = s.phase) (hopt : t.options = s.options)
    (h0 : t.player0.position = s.player0.position)
    (h1 : t.player1.position = s.player1.position)
    (hw : attackWellFormed t) : AttackInvariant t := by
  refine ⟨hw, fun o ho => ?_, fun ht => ?_⟩
  · rw [hopt] at ho
    refine optionSound_of_same ⟨h0, h1, fun _ h => Or.inl (hopt ▸ h)⟩ (fun hn => ?_) o (hs.2.1 o ho)
    rw [hctx] at hn
    exact absurd hn (by simp)
  · have hn := hs.2.2 (by unfold inTurn at ht ⊢; rw [hphase] at ht; exact ht)
    rw [hctx] at hn
    exact absurd hn (by simp)

theorem attackInvariant_handleAttackStrengthen (s : GameState) (cardIndex cardValue : Nat)
    (hs : AttackInvariant s) :
    AttackInvariant (handleAttackStrengthen s cardIndex cardValue) := by
  unfold handleAttackStrengthen
  split
  · exact hs
  · rename_i ctx hctx
    dsimp only
    split_ifs with hv
    · exact hs
    · have hq := quiet_removeCardFromHand s ctx.attackerId cardIndex
      obtain ⟨h1, h2, h3, h4, h5⟩ := hs.1 ctx hctx
      have hv' : cardValue = ctx.baseCard := not_not.1 hv
      refine attackInvariant_update hs ctx hctx ?_ ?_ hq.1 hq.2.1 ?_
      · simp only [addToDiscard, removeCardFromHand_phase]
      · simp only [addToDiscard, removeCardFromHand_options]
      · intro c hc
        simp only [addToDiscard, Option.some.injEq] at hc
        subst hc
        refine ⟨fun x hx => ?_, ?_, ?_, by simp, ?_⟩
        · rcases List.mem_append.1 hx with hx | hx
          · exact h1 x hx
          · rw [List.mem_singleton] at hx
            rw [hx, hv']
        · simp [h2]
        · simp only [List.length_append, List.length_singleton, h3, hv']
          ring
        · exact h5.trans (@distance_congr s _ hq.1 hq.2.1 .p0).symm

theorem attackInvariant_performRetreat (s : GameState) (cardIndex cardValue : Nat)
    (hs : AttackInvariant s) : AttackInvariant (performRetreat s cardIndex cardValue) := by
  unfold performRetreat
  split
  · exact hs
  · dsimp only
    split_ifs
    · exact attackInvariant_of_none rfl fun o ho => by simp at ho
    · exact hs

theorem attackInvariant_resolveParry (s : GameState) (hs : AttackInvariant s) :
    AttackInvariant (resolveParry s) := by
  unfold resolveParry
  split
  · exact hs
  · split
    · exact hs
    · dsimp only
      exact attackInvariant_of_none rfl fun o ho => by simp at ho

theorem attackInvariant_handleParrySelection (s : GameState) (cardIndex cardValue : Nat)
    (hs : AttackInvariant s) :
    AttackInvariant (handleParrySelection s cardIndex cardValue) := by
  unfold handleParrySelection
  split_ifs
  · exact attackInvariant_performRetreat s cardIndex cardValue hs
  · split
    · exact hs
    · rename_i ctx hctx
      split
      · exact hs
      · rename_i selection _
        dsimp only
        have h1 : AttackInvariant
            { s with attackContext := some { ctx with parrySelection := some (selection ++ [⟨cardValue, cardIndex⟩]) } } := by
          refine attackInvariant_update hs ctx hctx rfl rfl rfl rfl ?_
          intro c hc
          simp only [Option.some.injEq] at hc
          subst hc
          exact hs.1 ctx hctx
        split_ifs
        · exact attackInvariant_resolveParry _ h1
        · exact attackInvariant_concludeRound _ _
        · exact h1

theorem attackInvariant_initiateAdvance (s : GameState) (player : PId)
    (cardIndex cardValue : Nat) (hctx : s.attackContext = none) :
    AttackInvariant (initiateAdvance s player cardIndex cardValue) := by
  unfold initiateAdvance
  dsimp only
  refine attackInvariant_of_none ?_ fun o ho => ?_
  · simp only [addToDiscard, setPlayer_attackContext, removeCardFromHand_attackContext]
    exact hctx
  · simp only [List.mem_singleton] at ho
    subst ho
    intro p i v hne
    exact ActionOption.noConfusion hne

theorem attackInvariant_cancelAdvance (s : GameState) (player : PId) (cardValue : Nat)
    (hctx : s.attackContext = none) : AttackInvariant (cancelAdvance s player cardValue) := by
  unfold cancelAdvance
  dsimp only
  refine attackInvariant_of_none ?_ fun o ho => by simp at ho
  simp only [removeLastDiscard, setPlayer_attackContext]
  exact hctx

theorem attackInvariant_finalizeAdvanceAttack (s : GameState) (player : PId)
    (cardIndex cardValue : Nat) (hs : AttackInvariant s) :
    AttackInvariant (finalizeAdvanceAttack s player cardIndex cardValue) := by
  unfold finalizeAdvanceAttack
  split_ifs with hv
  · exact hs
  · refine attackInvariant_initiateAttack _ _ _ _ _ ?_
    rw [not_not.1 hv]
    exact distance_congr rfl rfl player

theorem attackInvariant_attemptFinalAttack (s : GameState) (cardIndex cardValue : Nat)
    (hs : AttackInvariant s) : AttackInvariant (attemptFinalAttack s cardIndex cardValue) := by
  unfold attemptFinalAttack
  split
  · exact hs
  · rename_i player _
    split_ifs with hv
    · exact hs
    · refine attackInvariant_initiateAttack _ _ _ _ _ ?_
      rw [not_not.1 hv]
      exact distance_congr rfl rfl player

theorem attackInvariant_resolveDeckDepletion (s : GameState) :
    AttackInvariant (resolveDeckDepletion s) := by
  unfold resolveDeckDepletion
  dsimp only
  split_ifs <;> exact attackInvariant_concludeRound _ _

theorem attackInvariant_showTurnOptions (s : GameState) (player : PId)
    (cardIndex cardValue : Nat) (hs : AttackInvariant s) (hturn : inTurn s) :
    AttackInvariant (showTurnOptions s player cardIndex cardValue) := by
  have hctx := hs.2.2 hturn
  refine ⟨fun c hc => ?_, fun o ho => ?_, fun _ => hctx⟩
  · have hc' : s.attackContext = some c := hc
    rw [hctx] at hc'
    exact absurd hc' (by simp)
  · simp only [showTurnOptions, List.mem_append, List.mem_ite_nil_right,
      List.mem_singleton] at ho
    rcases ho with (⟨-, ⟨-, rfl⟩ | ⟨-, rfl⟩⟩ | ⟨hd, rfl⟩) | ⟨-, rfl⟩
    · exact hctx
    · exact hctx
    · exact (distance_congr rfl rfl player).trans hd
    · exact hctx

theorem attackInvariant_handleCardSelection (s : GameState) (playerId : PId) (cardIndex : Nat)
    (hs : AttackInvariant s) : AttackInvariant (handleCardSelection s playerId cardIndex) := by
  unfold handleCardSelection
  split
  · exact hs
  · rename_i cardValue _
    split
    · split_ifs
      · exact attackInvariant_finalizeAdvanceAttack _ _ _ _ hs
      · exact hs
    · split
      · rename_i hphase
        split_ifs
        · exact hs
        · exact attackInvariant_showTurnOptions _ _ _ _ hs (Or.inl hphase)
      · split_ifs
        · exact hs
        · exact attackInvariant_handleAttackStrengthen _ _ _ hs
      · split_ifs
        · exact hs
        · exact attackInvariant_handleParrySelection _ _ _ hs
      · split_ifs
        · exact hs
        · exact attackInvariant_handleParrySelection _ _ _ hs
      · split_ifs
        · exact hs
        · exact attackInvariant_attemptFinalAttack _ _ _ hs
      · rename_i hphase
        split_ifs
        · exact hs
        · exact attackInvariant_showTurnOptions _ _ _ _ hs (Or.inr hphase)
      · exact hs

theorem attackInvariant_runOption (s : GameState) (o : ActionOption)
    (hs : AttackInvariant s) (ho : o ∈ s.options) : AttackInvariant (runOption s o) := by
  have hsound := hs.2.1 o ho
  cases o with
  | move player cardIndex cardValue direction =>
    exact attackInvariant_movePlayer _ _ _ _ _ hsound
  | attack player cardIndex cardValue =>
    exact attackInvariant_initiateAttack _ _ _ _ _
      ((distance_congr rfl rfl player).trans hsound)
  | advance player cardIndex cardValue => exact attackInvariant_initiateAdvance _ _ _ _ hsound
  | finishAttack => exact attackInvariant_finalizeAttack s hs
  | parryPrompt => exact hs
  | retreat defender =>
    refine ⟨fun c hc => hs.1 c hc, fun o ho => ?_, fun ht => ?_⟩
    · simp only [runOption, initiateRetreat, List.mem_singleton] at ho
      subst ho
      trivial
    · rcases ht with ht | ht <;> exact absurd ht (by simp [runOption, initiateRetreat])
  | cancelRetreat defender =>
    refine ⟨fun c hc => hs.1 c hc, fun o ho => ?_, fun ht => ?_⟩
    · simp only [runOption, cancelRetreat, List.mem_singleton] at ho
      subst ho
      trivial
    · rcases ht with ht | ht <;> exact absurd ht (by simp [runOption, cancelRetreat])
  | cancelAdvance player cardValue => exact attackInvariant_cancelAdvance s player cardValue hsound
  | pass => exact attackInvariant_resolveDeckDepletion s

theorem dealInitialHands_attackContext (s : GameState) :
    (dealInitialHands s).attackContext = s.attackContext := by
  unfold dealInitialHands
  generalize List.range HAND_SIZE = l
  induction l generalizing s with
  | nil => rfl
  | cons a l ih =>
    simp only [List.foldl_cons]
    rw [ih, (drawCard_frame _ _).2.2.1, (drawCard_frame _ _).2.2.1]

theorem attackInvariant_startRound (s : GameState) (selected : Mode) (rnd : Nat → Nat) :
    AttackInvariant (startRound s selected rnd) := by
  refine attackInvariant_of_none ?_ fun o ho => ?_
  · unfold startRound
    rw [dealInitialHands_attackContext]
  · unfold startRound at ho
    rw [(dealInitialHands_frame _).1] at ho
    exact absurd ho (List.not_mem_nil o)

theorem attackInvariant_step (s : GameState) (i : Input) (hs : AttackInvariant s) :
    AttackInvariant (step s i) := by
  cases i with
  | card playerId cardIndex => exact attackInvariant_handleCardSelection s playerId cardIndex hs
  | click k =>
    simp only [step, clickOption]
    split
    · exact hs
    · rename_i o ho
      exact attackInvariant_runOption s o hs (List.getElem?_mem ho)
  | setMode mode =>
    refine ⟨fun c hc => hs.1 c hc, fun o ho => ?_, fun ht => hs.2.2 ht⟩
    have h := hs.2.1 o ho
    cases o <;> exact h
  | newMatch selected rnd =>
    simp only [step, startNewMatch]
    exact attackInvariant_startRound _ _ _
  | nextRound selected rnd =>
    simp only [step, startNextRound]
    split_ifs
    · exact hs
    · exact attackInvariant_startRound _ _ _
    · exact hs

theorem attackInvariant_of_reachable {s : GameState} (h : Reachable s) : AttackInvariant s := by
  induction h with
  | start s0 selected rnd => exact attackInvariant_startRound s0 selected rnd
  | step i _ ih => exact attackInvariant_step _ i ih

/-- Claim C18 (attack context well-formedness).  In every reachable state
with an active attack context, all cards of the attack equal the base card,
the total is the sum of the cards, which is the base card times their number,
there is at least one card, and the base card is the current distance
`|pos0 - pos1|`. -/
theorem attack_context_well_formed (s : GameState) (ctx : AttackContext)
    (h : Reachable s) (hctx : s.attackContext = some ctx) :
    (∀ c ∈ ctx.cards, c = ctx.baseCard) ∧ ctx.total = ctx.cards.sum ∧
    ctx.total = ctx.baseCard * ctx.cards.length ∧ ctx.cards ≠ [] ∧
    (ctx.baseCard : Int) = |s.player0.position - s.player1.position| := by
  obtain ⟨h1, h2, h3, h4, h5⟩ := (attackInvariant_of_reachable h).1 ctx hctx
  refine ⟨h1, h2, h3, h4, ?_⟩
  rw [h5]
  simp only [distance, opponentOf, GameState.player, PId.other]
  exact Int.natCast_natAbs _

/-- Claim C18, witness: the strengthened attack `[2, 2]` of the worked round. -/
theorem attack_context_well_formed_witness :
    (2 : Int) = |demoDoubleParryState.player0.position - demoDoubleParryState.player1.position| :=
  (attack_context_well_formed demoDoubleParryState
    { type := .standard, attackerId := .p0, defenderId := .p1, cards := [2, 2], total := 4,
      baseCard := 2, parrySelection := some [] }
    demoDoubleParryState_reachable (by decide!)).2.2.2.2


/-! ## The final-attack window -/

theorem movesOk_of_nil {s : GameState}
    (h : ∀ p i v d, ActionOption.move p i v d ∉ s.options) : MovesOk s :=
  fun p i v d hm => absurd hm (h p i v d)

theorem movesOk_of_eq {s t : GameState} (hs : MovesOk s) (ho : t.options = s.options)
    (hd : t.deckExhausted = s.deckExhausted) (ha : t.activePlayer = s.activePlayer) :
    MovesOk t := by
  intro p i v d hm
  rw [ho] at hm
  rw [hd, ha]
  exact hs p i v d hm

theorem calm_refl (s : GameState) : Calm s s := ⟨id, id⟩

theorem calm_trans {s t u : GameState} (h1 : Calm s t) (h2 : Calm t u) : Calm s u :=
  ⟨fun h => h2.1 (h1.1 h), fun h => h1.2 (h2.2 h)⟩

theorem calm_of_eq {s t : GameState} (hd : t.deckExhausted = s.deckExhausted)
    (hp : t.phase = s.phase) : Calm s t :=
  ⟨fun h => hd.trans h, fun h => hp.symm.trans h⟩

theorem calm_of_phase {s t : GameState} (hd : t.deckExhausted = s.deckExhausted)
    (hp : t.phase ≠ .finalAttack) : Calm s t :=
  ⟨fun h => hd.trans h, fun h => absurd h hp⟩

theorem steady_refl {s : GameState} (hs : MovesOk s) : Steady s s := ⟨calm_refl s, hs⟩

theorem steady_after {s t u : GameState} (h1 : Calm s t) (h2 : Steady t u) : Steady s u :=
  ⟨calm_trans h1 h2.1, h2.2⟩

theorem calm_drawCard (s : GameState) (id : PId) : Calm s (drawCard s id) := by
  refine ⟨?_, fun h => ?_⟩
  · unfold drawCard
    cases s.deck.getLast? with
    | none => exact fun h => h
    | some card =>
      cases id <;> simp only [GameState.setPlayer, GameState.player] <;> split_ifs <;>
        intro h <;> first | rfl | exact h
  · rw [(drawCard_frame s id).2.1] at h
    exact h

theorem calm_drawLoop (fuel : Nat) (s : GameState) (id : PId) :
    Calm s (drawLoop fuel s id) := by
  induction fuel generalizing s with
  | zero => exact calm_refl s
  | succ fuel ih =>
    unfold drawLoop
    split_ifs
    · exact calm_trans (calm_drawCard s id) (ih _)
    · exact calm_refl s

theorem calm_drawIfAllowed (s : GameState) (id : PId) : Calm s (drawIfAllowed s id) := by
  unfold drawIfAllowed
  split_ifs
  · exact calm_of_eq (setPlayer_deckExhausted _ _ _) (setPlayer_phase _ _ _)
  · exact calm_drawLoop _ s id

theorem steady_concludeRound (s : GameState) (w : Option PId) :
    Steady s (concludeRound s w) := by
  have hf := concludeRound_fields s w
  refine ⟨calm_of_phase ?_ (by rw [hf.2]; decide), movesOk_of_nil fun p i v d hm => ?_⟩
  · unfold concludeRound
    cases w with
    | none => rfl
    | some w => cases w <;> rfl
  · rw [hf.1] at hm
    exact absurd hm (List.not_mem_nil _)

/-- The end of a turn either leaves the final-attack window closed, or opens
it with the deck exhausted and the opponent of the mover active. -/
theorem endPlayerTurn_window (s : GameState) (player : PId) :
    (s.deckExhausted = true → (endPlayerTurn s player).deckExhausted = true) ∧
    MovesOk (endPlayerTurn s player) ∧
    ((endPlayerTurn s player).phase = .finalAttack →
      (endPlayerTurn s player).deckExhausted = true ∧
      (endPlayerTurn s player).activePlayer = some player.other) := by
  unfold endPlayerTurn
  dsimp only
  split_ifs with h1 h2
  · have hc := steady_concludeRound s (some player)
    refine ⟨hc.1.1, hc.2, fun h => ?_⟩
    rw [(concludeRound_fields s (some player)).2] at h
    exact absurd h (by decide)
  · exact ⟨fun _ => h2.1, movesOk_of_nil fun p i v d hm => by simp [triggerFinalAttackPhase] at hm,
      fun _ => ⟨h2.1, rfl⟩⟩
  · exact ⟨fun h => (calm_drawIfAllowed s player).1 h,
      movesOk_of_nil fun p i v d hm => by simp at hm, fun h => absurd h (by simp)⟩

theorem movePlayer_window (s : GameState) (player : PId) (cardIndex cardValue : Nat)
    (direction : Int) :
    (s.deckExhausted = true →
      (movePlayer s player cardIndex cardValue direction).deckExhausted = true) ∧
    MovesOk (movePlayer s player cardIndex cardValue direction) ∧
    ((movePlayer s player cardIndex cardValue direction).phase = .finalAttack →
      (movePlayer s player cardIndex cardValue direction).deckExhausted = true ∧
      (movePlayer s player cardIndex cardValue direction).activePlayer = some player.other) := by
  unfold movePlayer
  dsimp only
  obtain ⟨h1, h2, h3⟩ := endPlayerTurn_window
    (addToDiscard ((removeCardFromHand s player cardIndex).setPlayer player
      { (removeCardFromHand s player cardIndex).player player with
        position := ((removeCardFromHand s player cardIndex).player player).position +
          (cardValue : Int) * direction }) cardValue) player
  refine ⟨fun h => h1 ?_, h2, h3⟩
  simp only [addToDiscard, setPlayer_deckExhausted, removeCardFromHand_deckExhausted]
  exact h

theorem steady_finalizeAttack (s : GameState) (hs : MovesOk s) :
    Steady s (finalizeAttack s) := by
  unfold finalizeAttack
  split
  · exact steady_refl hs
  · rename_i ctx _
    dsimp only
    have hd : Calm s (drawToHand s ctx.attackerId) := calm_drawLoop _ s _
    by_cases hb : (drawToHand s ctx.attackerId).mode = .basic ∧ ctx.type = .standard
    · rw [if_pos hb]
      exact ⟨calm_trans hd (steady_concludeRound _ _).1, (steady_concludeRound _ _).2⟩
    · rw [if_neg hb]
      refine ⟨⟨fun h => hd.1 h, fun h => absurd h (by simp)⟩,
        movesOk_of_nil fun p i v d hm => ?_⟩
      revert hm
      simp

theorem steady_initiateAttack (s : GameState) (player : PId) (cardIndex cardValue : Nat)
    (type : AttackType) (hs : MovesOk s) :
    Steady s (initiateAttack s player cardIndex cardValue type) := by
  unfold initiateAttack
  dsimp only
  split_ifs
  · exact ⟨calm_of_phase (by simp only [addToDiscard, removeCardFromHand_deckExhausted])
      (by simp), movesOk_of_nil fun p i v d hm => by simp at hm⟩
  · refine steady_after ?_ (steady_finalizeAttack _ ?_)
    · exact calm_of_eq (by simp only [addToDiscard, removeCardFromHand_deckExhausted])
        (by simp only [addToDiscard, removeCardFromHand_phase])
    · exact movesOk_of_eq hs (by simp only [addToDiscard, removeCardFromHand_options])
        (by simp only [addToDiscard, removeCardFromHand_deckExhausted])
        (by simp only [addToDiscard, removeCardFromHand_activePlayer])


theorem calm_drawToHand (s : GameState) (id : PId) : Calm s (drawToHand s id) :=
  calm_drawLoop _ s id

theorem steady_handleAttackStrengthen (s : GameState) (cardIndex cardValue : Nat)
    (hs : MovesOk s) : Steady s (handleAttackStrengthen s cardIndex cardValue) := by
  unfold handleAttackStrengthen
  split
  · exact steady_refl hs
  · dsimp only
    split_ifs
    · exact steady_refl hs
    · exact ⟨calm_of_eq (by simp only [addToDiscard, removeCardFromHand_deckExhausted])
          (by simp only [addToDiscard, removeCardFromHand_phase]),
        movesOk_of_eq hs (by simp only [addToDiscard, removeCardFromHand_options])
          (by simp only [addToDiscard, removeCardFromHand_deckExhausted])
          (by simp only [addToDiscard, removeCardFromHand_activePlayer])⟩

theorem steady_performRetreat (s : GameState) (cardIndex cardValue : Nat) (hs : MovesOk s) :
    Steady s (performRetreat s cardIndex cardValue) := by
  unfold performRetreat
  split
  · exact steady_refl hs
  · dsimp only
    split_ifs
    · refine ⟨⟨fun h => ?_, fun h => absurd h (by simp)⟩,
        movesOk_of_nil fun p i v d hm => by simp at hm⟩
      refine (calm_drawToHand _ _).1 ?_
      simp only [addToDiscard, setPlayer_deckExhausted, removeCardFromHand_deckExhausted]
      exact h
    · exact steady_refl hs

theorem steady_resolveParry (s : GameState) (hs : MovesOk s) : Steady s (resolveParry s) := by
  unfold resolveParry
  split
  · exact steady_refl hs
  · split
    · exact steady_refl hs
    · dsimp only
      refine ⟨calm_of_phase ?_ (by simp), movesOk_of_nil fun p i v d hm => by simp at hm⟩
      simp only [setPlayer_deckExhausted]
      exact (discardParrySelection_frame _ _ _).2.2.2.2.2.2.2.1

theorem steady_handleParrySelection (s : GameState) (cardIndex cardValue : Nat)
    (hs : MovesOk s) : Steady s (handleParrySelection s cardIndex cardValue) := by
  unfold handleParrySelection
  split_ifs
  · exact steady_performRetreat s cardIndex cardValue hs
  · split
    · exact steady_refl hs
    · rename_i ctx hctx
      split
      · exact steady_refl hs
      · rename_i selection _
        dsimp only
        have h1 : Steady s
            { s with attackContext := some { ctx with parrySelection := some (selection ++ [⟨cardValue, cardIndex⟩]) } } :=
          ⟨calm_of_eq rfl rfl, movesOk_of_eq hs rfl rfl rfl⟩
        split_ifs
        · refine steady_after ?_ (steady_resolveParry _ ?_)
          · exact h1.1
          · exact h1.2
        · refine steady_after ?_ (steady_concludeRound _ _)
          exact calm_trans h1.1 (calm_of_eq (discardParrySelection_frame _ _ _).2.2.2.2.2.2.2.1
            (discardParrySelection_frame _ _ _).2.1)
        · exact h1

theorem steady_initiateAdvance (s : GameState) (player : PId) (cardIndex cardValue : Nat) :
    Steady s (initiateAdvance s player cardIndex cardValue) := by
  unfold initiateAdvance
  dsimp only
  exact ⟨calm_of_phase (by simp only [addToDiscard, setPlayer_deckExhausted,
      removeCardFromHand_deckExhausted]) (by simp),
    movesOk_of_nil fun p i v d hm => by simp at hm⟩

theorem steady_cancelAdvance (s : GameState) (player : PId) (cardValue : Nat) :
    Steady s (cancelAdvance s player cardValue) := by
  unfold cancelAdvance
  dsimp only
  exact ⟨calm_of_phase (by simp only [removeLastDiscard, setPlayer_deckExhausted]) (by simp),
    movesOk_of_nil fun p i v d hm => by simp at hm⟩

theorem steady_finalizeAdvanceAttack (s : GameState) (player : PId)
    (cardIndex cardValue : Nat) (hs : MovesOk s) :
    Steady s (finalizeAdvanceAttack s player cardIndex cardValue) := by
  unfold finalizeAdvanceAttack
  split_ifs
  · exact steady_refl hs
  · refine steady_after ?_ (steady_initiateAttack _ _ _ _ _ ?_)
    · exact calm_of_phase rfl (by simp)
    · exact movesOk_of_eq hs rfl rfl rfl

theorem steady_attemptFinalAttack (s : GameState) (cardIndex cardValue : Nat)
    (hs : MovesOk s) : Steady s (attemptFinalAttack s cardIndex cardValue) := by
  unfold attemptFinalAttack
  split
  · exact steady_refl hs
  · split_ifs
    · exact steady_refl hs
    · refine steady_after ?_ (steady_initiateAttack _ _ _ _ _ ?_)
      · exact calm_of_eq rfl rfl
      · exact movesOk_of_eq hs rfl rfl rfl

theorem steady_resolveDeckDepletion (s : GameState) : Steady s (resolveDeckDepletion s) := by
  unfold resolveDeckDepletion
  dsimp only
  split_ifs <;> refine steady_after ?_ (steady_concludeRound _ _) <;> exact calm_of_eq rfl rfl

theorem steady_showTurnOptions (s : GameState) (player : PId) (cardIndex cardValue : Nat)
    (hactive : s.activePlayer = some player) :
    Steady s (showTurnOptions s player cardIndex cardValue) := by
  refine ⟨calm_of_eq rfl rfl, fun p i v d hm => ?_⟩
  simp only [showTurnOptions, List.mem_append, List.mem_ite_nil_right,
    List.mem_singleton] at hm
  show s.deckExhausted = false ∧ s.activePlayer = some p
  rcases hm with (⟨hd, ⟨-, h⟩ | ⟨-, h⟩⟩ | ⟨-, h⟩) | ⟨-, h⟩
  · cases h
    exact ⟨by simpa using hd, hactive⟩
  · cases h
    exact ⟨by simpa using hd, hactive⟩
  · cases h
  · cases h

theorem steady_handleCardSelection (s : GameState) (playerId : PId) (cardIndex : Nat)
    (hs : MovesOk s) : Steady s (handleCardSelection s playerId cardIndex) := by
  unfold handleCardSelection
  split
  · exact steady_refl hs
  · rename_i cardValue _
    split
    · split_ifs
      · exact steady_finalizeAdvanceAttack _ _ _ _ hs
      · exact steady_refl hs
    · split
      · split_ifs with ha
        · exact steady_refl hs
        · exact steady_showTurnOptions _ _ _ _ (not_not.1 ha)
      · split_ifs
        · exact steady_refl hs
        · exact steady_handleAttackStrengthen _ _ _ hs
      · split_ifs
        · exact steady_refl hs
        · exact steady_handleParrySelection _ _ _ hs
      · split_ifs
        · exact steady_refl hs
        · exact steady_handleParrySelection _ _ _ hs
      · split_ifs
        · exact steady_refl hs
        · exact steady_attemptFinalAttack _ _ _ hs
      · split_ifs with ha
        · exact steady_refl hs
        · exact steady_showTurnOptions _ _ _ _ (not_not.1 ha)
      · exact steady_refl hs


/-- A click on an offered action either is steady, or is a move by the active
player whose end-of-turn draw exhausts the deck and opens the final-attack
window for the opponent. -/
theorem runOption_window (s : GameState) (o : ActionOption) (hs : MovesOk s)
    (ho : o ∈ s.options) :
    (s.deckExhausted = true → (runOption s o).deckExhausted = true) ∧
    MovesOk (runOption s o) ∧
    ((runOption s o).phase = .finalAttack → s.phase = .finalAttack ∨
      (s.deckExhausted = false ∧ (runOption s o).deckExhausted = true ∧
        ∃ p ci v d, o = .move p ci v d ∧ s.activePlayer = some p ∧
          (runOption s o).activePlayer = some p.other)) := by
  have key : ∀ {t : GameState}, Steady s t →
      (s.deckExhausted = true → t.deckExhausted = true) ∧ MovesOk t ∧
      (t.phase = .finalAttack → s.phase = .finalAttack ∨
        (s.deckExhausted = false ∧ t.deckExhausted = true ∧
          ∃ p ci v d, o = .move p ci v d ∧ s.activePlayer = some p ∧
            t.activePlayer = some p.other)) :=
    fun h => ⟨h.1.1, h.2, fun hp => Or.inl (h.1.2 hp)⟩
  have hnil : MovesOk { s with options := [] } :=
    movesOk_of_nil fun p i v d hm => List.not_mem_nil _ hm
  cases o with
  | move player cardIndex cardValue direction =>
    obtain ⟨h1, h2, h3⟩ :=
      movePlayer_window { s with options := [] } player cardIndex cardValue direction
    obtain ⟨hd, ha⟩ := hs player cardIndex cardValue direction ho
    exact ⟨h1, h2, fun hp => Or.inr ⟨hd, (h3 hp).1, player, cardIndex, cardValue, direction,
      rfl, ha, (h3 hp).2⟩⟩
  | attack player cardIndex cardValue =>
    refine key (steady_after ?_ (steady_initiateAttack _ _ _ _ _ hnil))
    exact calm_of_eq rfl rfl
  | advance player cardIndex cardValue =>
    refine key (steady_after ?_ (steady_initiateAdvance _ _ _ _))
    exact calm_of_eq rfl rfl
  | finishAttack => exact key (steady_finalizeAttack s hs)
  | parryPrompt => exact key (steady_refl hs)
  | retreat defender =>
    exact key ⟨calm_of_phase rfl (by simp [runOption, initiateRetreat]),
      movesOk_of_nil fun p i v d hm => by simp [runOption, initiateRetreat] at hm⟩
  | cancelRetreat defender =>
    exact key ⟨calm_of_phase rfl (by simp [runOption, cancelRetreat]),
      movesOk_of_nil fun p i v d hm => by simp [runOption, cancelRetreat] at hm⟩
  | cancelAdvance player cardValue => exact key (steady_cancelAdvance s player cardValue)
  | pass => exact key (steady_resolveDeckDepletion s)

theorem step_nextRound_eq (s : GameState) (selected : Mode) (rnd : Nat → Nat)
    (hi : ¬ startsRound s (.nextRound selected rnd)) :
    step s (.nextRound selected rnd) = s := by
  unfold startsRound at hi
  simp only [step, startNextRound]
  split_ifs with h1 h2
  · rfl
  · exact absurd ⟨h1, h2⟩ hi
  · rfl

/-- One input handled without starting a round: an exhausted deck stays
exhausted, the offered moves stay in order, and the final-attack window is
entered only by a move of the active player that exhausts the deck. -/
theorem window_step (s : GameState) (i : Input) (hs : MovesOk s) (hi : ¬ startsRound s i) :
    (s.deckExhausted = true → (step s i).deckExhausted = true) ∧
    MovesOk (step s i) ∧
    ((step s i).phase = .finalAttack → s.phase = .finalAttack ∨
      (s.deckExhausted = false ∧ (step s i).deckExhausted = true ∧
        ∃ k p ci v d, i = .click k ∧ s.options[k]? = some (.move p ci v d) ∧
          s.activePlayer = some p ∧ (step s i).activePlayer = some p.other)) := by
  have key : ∀ {t : GameState}, Steady s t →
      (s.deckExhausted = true → t.deckExhausted = true) ∧ MovesOk t ∧
      (t.phase = .finalAttack → s.phase = .finalAttack ∨
        (s.deckExhausted = false ∧ t.deckExhausted = true ∧
          ∃ k p ci v d, i = .click k ∧ s.options[k]? = some (.move p ci v d) ∧
            s.activePlayer = some p ∧ t.activePlayer = some p.other)) :=
    fun h => ⟨h.1.1, h.2, fun hp => Or.inl (h.1.2 hp)⟩
  cases i with
  | card playerId cardIndex => exact key (steady_handleCardSelection s playerId cardIndex hs)
  | click k =>
    cases hk : s.options[k]? with
    | none =>
      have e : step s (.click k) = s := by simp only [step, clickOption, hk]
      rw [e]
      exact key (steady_refl hs)
    | some o =>
      have e : step s (.click k) = runOption s o := by simp only [step, clickOption, hk]
      rw [e]
      obtain ⟨h1, h2, h3⟩ := runOption_window s o hs (List.getElem?_mem hk)
      refine ⟨h1, h2, fun hp => ?_⟩
      rcases h3 hp with h | ⟨hd, ht, p, ci, v, d, ho, ha, hb⟩
      · exact Or.inl h
      · exact Or.inr ⟨hd, ht, k, p, ci, v, d, rfl, hk.trans (congrArg some ho), ha, hb⟩
  | setMode mode => exact key ⟨calm_of_eq rfl rfl, movesOk_of_eq hs rfl rfl rfl⟩
  | newMatch selected rnd => exact absurd trivial hi
  | nextRound selected rnd =>
    rw [step_nextRound_eq s selected rnd hi]
    exact key (steady_refl hs)

theorem windowInvariant_step (s : GameState) (i : Input) (hs : WindowInvariant s)
    (hi : ¬ startsRound s i) : WindowInvariant (step s i) := by
  obtain ⟨h1, h2, h3⟩ := window_step s i hs.1 hi
  refine ⟨h2, fun hp => ?_⟩
  rcases h3 hp with h | ⟨-, h, -⟩
  · exact h1 (hs.2 h)
  · exact h

theorem windowInvariant_startRound (s0 : GameState) (selected : Mode) (rnd : Nat → Nat) :
    WindowInvariant (startRound s0 selected rnd) := by
  refine ⟨movesOk_of_nil fun p i v d hm => ?_, fun hp => ?_⟩
  · unfold startRound at hm
    rw [(dealInitialHands_frame _).1] at hm
    exact List.not_mem_nil _ hm
  · unfold startRound at hp
    rw [(dealInitialHands_frame _).2] at hp
    exact absurd hp (by simp)

theorem withinRound_append (s : GameState) (pre post : List Input) :
    withinRound s (pre ++ post) ↔ withinRound s pre ∧ withinRound (run s pre) post := by
  induction pre generalizing s with
  | nil => simp [withinRound, run]
  | cons i pre ih =>
    show (¬ startsRound s i ∧ withinRound (step s i) (pre ++ post)) ↔
      (¬ startsRound s i ∧ withinRound (step s i) pre) ∧ withinRound (run (step s i) pre) post
    rw [ih, and_assoc]

theorem windowInvariant_run (s : GameState) (inputs : List Input) (hs : WindowInvariant s)
    (hin : withinRound s inputs) : WindowInvariant (run s inputs) := by
  induction inputs generalizing s with
  | nil => exact hs
  | cons i rest ih => exact ih (step s i) (windowInvariant_step s i hs hin.1) hin.2

/-- Once the deck is exhausted the final-attack window is not entered again
in the same round. -/
theorem finalAttackEntries_exhausted (s : GameState) (inputs : List Input)
    (hs : WindowInvariant s) (hd : s.deckExhausted = true) (hin : withinRound s inputs) :
    finalAttackEntries s inputs = 0 := by
  induction inputs generalizing s with
  | nil => rfl
  | cons i rest ih =>
    obtain ⟨h1, -, h3⟩ := window_step s i hs.1 hin.1
    have hno : ¬ entersFinalAttack s i := by
      rintro ⟨hne, hp⟩
      rcases h3 hp with h | ⟨h, -⟩
      · exact hne h
      · rw [hd] at h
        exact absurd h (by decide)
    simp only [finalAttackEntries, if_neg hno, Nat.zero_add]
    exact ih (step s i) (windowInvariant_step s i hs hin.1) (h1 hd) hin.2

theorem finalAttackEntries_le_one (s : GameState) (inputs : List Input)
    (hs : WindowInvariant s) (hin : withinRound s inputs) :
    finalAttackEntries s inputs ≤ 1 := by
  induction inputs generalizing s with
  | nil => exact Nat.zero_le 1
  | cons i rest ih =>
    have hs1 := windowInvariant_step s i hs hin.1
    by_cases he : entersFinalAttack s i
    · obtain ⟨-, -, h3⟩ := window_step s i hs.1 hin.1
      have hd : (step s i).deckExhausted = true := hs1.2 he.2
      simp only [finalAttackEntries, if_pos he,
        finalAttackEntries_exhausted (step s i) rest hs1 hd hin.2]
      exact Nat.le_refl 1
    · simp only [finalAttackEntries, if_neg he, Nat.zero_add]
      exact ih (step s i) hs1 hin.2

/-- Claim C14 (the final-attack window is offered at most once per round).
Along every sequence of inputs handled after a `startRound` without another
`startRound`, the phase `final-attack` is entered at most once; every entry
is a click on a move offered to the active player `p`, after which the
active player is the opponent of `p`; and while the phase is `final-attack`
no move is offered, so that the window cannot be opened from within. -/
theorem final_attack_window_once (s0 : GameState) (selected : Mode) (rnd : Nat → Nat)
    (inputs : List Input) (hin : withinRound (startRound s0 selected rnd) inputs) :
    finalAttackEntries (startRound s0 selected rnd) inputs ≤ 1 ∧
    (∀ pre i post, inputs = pre ++ i :: post →
      entersFinalAttack (run (startRound s0 selected rnd) pre) i →
      ∃ k p ci v d, i = .click k ∧
        (run (startRound s0 selected rnd) pre).options[k]? = some (.move p ci v d) ∧
        (run (startRound s0 selected rnd) pre).activePlayer = some p ∧
        (step (run (startRound s0 selected rnd) pre) i).activePlayer = some p.other) ∧
    (∀ pre post, inputs = pre ++ post →
      (run (startRound s0 selected rnd) pre).phase = .finalAttack →
      ∀ p ci v d, ActionOption.move p ci v d ∉ (run (startRound s0 selected rnd) pre).options) := by
  have h0 := windowInvariant_startRound s0 selected rnd
  refine ⟨finalAttackEntries_le_one _ inputs h0 hin, ?_, ?_⟩
  · intro pre i post he hent
    rw [he, withinRound_append] at hin
    have hpre := windowInvariant_run _ pre h0 hin.1
    obtain ⟨-, -, h3⟩ := window_step _ i hpre.1 hin.2.1
    rcases h3 hent.2 with h | ⟨-, -, k, p, ci, v, d, e1, e2, e3, e4⟩
    · exact absurd h hent.1
    · exact ⟨k, p, ci, v, d, e1, e2, e3, e4⟩
  · intro pre post he hp p ci v d hm
    rw [he, withinRound_append] at hin
    have hpre := windowInvariant_run _ pre h0 hin.1
    have hf := (hpre.1 p ci v d hm).1
    rw [hpre.2 hp] at hf
    exact absurd hf (by decide)

/-- Claim C14, witness: the round played until the deck runs out stays within
the round, and the final-attack window is entered exactly once in it. -/
theorem final_attack_window_once_witness :
    withinRound endgameStart endgameInputs ∧
    finalAttackEntries endgameStart endgameInputs = 1 ∧
    finalAttackEntries endgameStart endgameInputs ≤ 1 :=
  ⟨by decide!, by decide!,
    (final_attack_window_once initialState .advanced endgameRnd endgameInputs (by decide!)).1⟩


/-! ## Retreats -/

/-- With player 0 left of player 1, `isMoveLegal` rejects every move away from
the opponent, whatever the card. -/
theorem isMoveLegal_backward (s : GameState) (player : PId) (cardValue : Nat)
    (h : s.player0.position < s.player1.position) :
    isMoveLegal s player cardValue (-forwardDirection player) = false := by
  cases player <;>
    simp only [isMoveLegal, forwardDirection, opponentOf, GameState.player, PId.other,
      BOARD_LENGTH] <;>
    split_ifs <;> first | rfl | (exfalso; omega)

/-- Claim C21 (retreat is never legal).  In every state with `pos0 < pos1`,
for every player and every card value `v ≥ 1`, `isMoveLegal` with the backward
direction (`-1` for player 0, `+1` for player 1) is false.  Consequently
`showTurnOptions` offers no backward move, no reachable state offers one, and
`performRetreat` rejects every card and leaves the state unchanged. -/
theorem retreat_never_legal (s : GameState) (h : s.player0.position < s.player1.position) :
    (∀ v, 1 ≤ v → isMoveLegal s .p0 v (-1) = false ∧ isMoveLegal s .p1 v 1 = false) ∧
    (∀ player cardIndex v i w, 1 ≤ v →
      .move player i w (-forwardDirection player) ∉
        (showTurnOptions s player cardIndex v).options) ∧
    (Reachable s → ∀ player i w, .move player i w (-forwardDirection player) ∉ s.options) ∧
    (∀ cardIndex v, 1 ≤ v → performRetreat s cardIndex v = s) := by
  refine ⟨fun v _ => ⟨isMoveLegal_backward s .p0 v h, isMoveLegal_backward s .p1 v h⟩,
    fun player cardIndex v i w _ hm => ?_, fun hr player i w hm => ?_, fun cardIndex v _ => ?_⟩
  · have hb := isMoveLegal_backward s player v h
    simp only [showTurnOptions, List.mem_append, List.mem_ite_nil_right,
      List.mem_singleton] at hm
    rcases hm with (⟨-, ⟨-, e⟩ | ⟨hl, -⟩⟩ | ⟨-, e⟩) | ⟨-, e⟩
    · have hd : -forwardDirection player = forwardDirection player := by
        injection e
      cases player <;> simp [forwardDirection] at hd
    · rw [hb] at hl
      exact absurd hl (by decide)
    · exact ActionOption.noConfusion e
    · exact ActionOption.noConfusion e
  · have hsafe : isMoveLegal s player w (-forwardDirection player) = true :=
      (boardInvariant_of_reachable hr).2 _ hm
    rw [isMoveLegal_backward s player w h] at hsafe
    exact absurd hsafe (by decide)
  · unfold performRetreat
    split
    · rfl
    · rename_i ctx _
      dsimp only
      have hb := isMoveLegal_backward s ctx.defenderId v h
      have hdir : (match ctx.defenderId with | .p0 => (-1 : Int) | .p1 => 1) =
          -forwardDirection ctx.defenderId := by
        cases ctx.defenderId <;> rfl
      rw [hdir, hb]
      rfl

/-- Claim C21, witness: in the worked round, with the attack `[2]` of player 0
waiting for the parry of player 1, no card lets a player move back and the
retreat of the defender with the 3 at hand index 3 is rejected. -/
theorem retreat_never_legal_witness :
    (isMoveLegal demoParryState .p0 3 (-1) = false ∧
      isMoveLegal demoParryState .p1 3 1 = false) ∧
    performRetreat demoParryState 3 3 = demoParryState :=
  have h := retreat_never_legal demoParryState (by decide!)
  ⟨h.1 3 (by decide), h.2.2.2 3 3 (by decide)⟩


/-! ## Highest-index-first removal -/

theorem keepFrom_of_lt (idxs : List Nat) (k : Nat) (l : List Nat) (h : ∀ i ∈ idxs, i < k) :
    keepFrom idxs k l = l := by
  induction l generalizing k with
  | nil => rfl
  | cons c rest ih =>
    have hk : k ∉ idxs := fun hm => Nat.lt_irrefl _ (h k hm)
    simp only [keepFrom, if_neg hk]
    rw [ih (k + 1) fun i hi => Nat.lt_succ_of_lt (h i hi)]

theorem keepFrom_congr (R R' : List Nat) (k : Nat) (l : List Nat)
    (h : ∀ x, x ∈ R ↔ x ∈ R') : keepFrom R k l = keepFrom R' k l := by
  induction l generalizing k with
  | nil => rfl
  | cons c rest ih => simp only [keepFrom, h k, ih (k + 1)]

/-- Erasing the card at an index `i` above all indices of `R` and then keeping
the cards outside `R` keeps the cards outside `i :: R`. -/
theorem keepFrom_cons_eraseIdx (R : List Nat) (i k : Nat) (l : List Nat) (hk : k ≤ i)
    (hR : ∀ r ∈ R, r < i) :
    keepFrom (i :: R) k l = keepFrom R k (l.eraseIdx (i - k)) := by
  induction l generalizing k with
  | nil => rfl
  | cons c rest ih =>
    rcases Nat.eq_or_lt_of_le hk with rfl | hlt
    · have h1 : ∀ r ∈ k :: R, r < k + 1 := by
        intro r hr
        rcases List.mem_cons.1 hr with rfl | hr
        · exact Nat.lt_succ_self _
        · exact Nat.lt_succ_of_lt (hR r hr)
      have hmem : k ∈ k :: R := List.mem_cons_self _ _
      simp only [Nat.sub_self, List.eraseIdx_cons_zero, keepFrom, if_pos hmem]
      rw [keepFrom_of_lt (k :: R) (k + 1) rest h1, keepFrom_of_lt R k rest hR]
    · have e : i - k = (i - (k + 1)) + 1 := by omega
      have hne : k ≠ i := Nat.ne_of_lt hlt
      rw [e, List.eraseIdx_cons_succ]
      by_cases hm : k ∈ R
      · have hm' : k ∈ i :: R := List.mem_cons_of_mem _ hm
        simp only [keepFrom, if_pos hm, if_pos hm']
        exact ih (k + 1) hlt
      · have hm' : k ∉ i :: R := fun h' => by
          rcases List.mem_cons.1 h' with h' | h'
          · exact hne h'
          · exact hm h'
        simp only [keepFrom, if_neg hm, if_neg hm']
        rw [ih (k + 1) hlt]

/-- Erasing strictly descending indices one after the other keeps exactly the
cards at the other indices, in their order. -/
theorem eraseFold_eq_keepFrom (l : List ParryItem) (hand : List Nat)
    (hsorted : l.Pairwise fun a b => b.cardIndex < a.cardIndex) :
    l.foldl (fun h item => h.eraseIdx item.cardIndex) hand =
      keepFrom (l.map fun item => item.cardIndex) 0 hand := by
  induction l generalizing hand with
  | nil => exact (keepFrom_of_lt [] 0 hand fun i hi => absurd hi (List.not_mem_nil i)).symm
  | cons it l ih =>
    rw [List.pairwise_cons] at hsorted
    simp only [List.foldl_cons, List.map_cons]
    rw [ih _ hsorted.2]
    have hR : ∀ r ∈ l.map (fun item => item.cardIndex), r < it.cardIndex := by
      intro r hr
      obtain ⟨x, hx, rfl⟩ := List.mem_map.1 hr
      exact hsorted.1 x hx
    exact (keepFrom_cons_eraseIdx _ it.cardIndex 0 hand (Nat.zero_le _) hR).symm

/-- The cards erased highest index first are the recorded ones: what is left of
the hand together with the recorded values is the hand. -/
theorem eraseFold_perm (l : List ParryItem) (hand : List Nat)
    (hsorted : l.Pairwise fun a b => b.cardIndex < a.cardIndex)
    (hvalue : ∀ item ∈ l, hand[item.cardIndex]? = some item.cardValue) :
    (l.foldl (fun h item => h.eraseIdx item.cardIndex) hand ++
      l.map fun item => item.cardValue).Perm hand := by
  induction l generalizing hand with
  | nil => simp
  | cons it l ih =>
    rw [List.pairwise_cons] at hsorted
    simp only [List.foldl_cons, List.map_cons]
    have hit := hvalue it (List.mem_cons_self _ _)
    have hrest : ∀ item ∈ l, (hand.eraseIdx it.cardIndex)[item.cardIndex]? =
        some item.cardValue := by
      intro item hi
      rw [List.getElem?_eraseIdx, if_pos (hsorted.1 item hi)]
      exact hvalue item (List.mem_cons_of_mem _ hi)
    have h1 := ih (hand.eraseIdx it.cardIndex) hsorted.2 hrest
    have h2 := eraseIdx_append_perm hand it.cardIndex it.cardValue hit
    refine List.Perm.trans ?_ h2
    refine List.Perm.trans List.perm_middle ?_
    exact (List.Perm.cons _ h1).trans (List.perm_append_singleton _ _).symm

theorem sortSelection_unique (selection selection' : List ParryItem)
    (hnodup : (selection.map fun item => item.cardIndex).Nodup)
    (hperm : selection'.Perm selection) :
    sortSelection selection' = sortSelection selection := by
  have hnodup' : (selection'.map fun item => item.cardIndex).Nodup :=
    (hperm.map _).nodup_iff.2 hnodup
  haveI : IsAntisymm ParryItem (fun a b => b.cardIndex < a.cardIndex) :=
    ⟨fun a b hab hba => absurd hab (Nat.lt_asymm hba)⟩
  exact List.eq_of_perm_of_sorted
    (((sortSelection_perm selection').trans hperm).trans (sortSelection_perm selection).symm)
    (sortSelection_pairwise selection' hnodup') (sortSelection_pairwise selection hnodup)

/-- Claim C24 (highest-index-first removal).  For a parry selection with
pairwise distinct hand indices, each recorded with the card value at that
index, `discardParrySelection` leaves in the defender's hand exactly the cards
at the other indices, in their original order; it appends to the discard pile
the recorded values (in the order of descending index), which together with
the remaining hand make up the old hand; the other hand and the deck are
unchanged; and the result is the same for every order of selection. -/
theorem highest_index_first_removal (s : GameState) (defender : PId)
    (selection : List ParryItem)
    (hnodup : (selection.map fun item => item.cardIndex).Nodup)
    (hvalue : ∀ item ∈ selection,
      (s.player defender).hand[item.cardIndex]? = some item.cardValue) :
    ((discardParrySelection s defender selection).player defender).hand =
      handWithout (s.player defender).hand (selection.map fun item => item.cardIndex) ∧
    (∃ removed, (discardParrySelection s defender selection).discard = s.discard ++ removed ∧
      removed.Perm (selection.map fun item => item.cardValue) ∧
      (((discardParrySelection s defender selection).player defender).hand ++ removed).Perm
        (s.player defender).hand) ∧
    (discardParrySelection s defender selection).player defender.other =
      s.player defender.other ∧
    (discardParrySelection s defender selection).deck = s.deck ∧
    (∀ selection', selection'.Perm selection →
      discardParrySelection s defender selection' =
        discardParrySelection s defender selection) := by
  have hsorted := sortSelection_pairwise selection hnodup
  have hperm := sortSelection_perm selection
  have hhand : ((discardParrySelection s defender selection).player defender).hand =
      (sortSelection selection).foldl (fun h item => h.eraseIdx item.cardIndex)
        (s.player defender).hand := by
    rw [discardParrySelection_eq]
    cases defender <;> rfl
  have hdiscard : (discardParrySelection s defender selection).discard =
      s.discard ++ (sortSelection selection).map fun item => item.cardValue := by
    rw [discardParrySelection_eq]
  have hf := discardParrySelection_frame s defender selection
  refine ⟨?_, ⟨_, hdiscard, hperm.map _, ?_⟩, hf.2.2.2.2.2.2.2.2.2.1, hf.1, ?_⟩
  · rw [hhand, eraseFold_eq_keepFrom _ _ hsorted]
    exact keepFrom_congr _ _ 0 _ fun x => (hperm.map _).mem_iff
  · rw [hhand]
    exact eraseFold_perm _ _ hsorted fun item hi => hvalue item (hperm.mem_iff.1 hi)
  · intro selection' hp
    rw [discardParrySelection_eq, discardParrySelection_eq,
      sortSelection_unique selection selection' hnodup hp]

/-- Claim C24, witness: from the hand `[2, 1, 1, 3, 2]` of the worked round the
selection of index 4 and then index 0 leaves `[1, 1, 3]`. -/
theorem highest_index_first_removal_witness :
    ((discardParrySelection demoDoubleParryState .p1 [⟨2, 4⟩, ⟨2, 0⟩]).player .p1).hand =
      handWithout [2, 1, 1, 3, 2] [4, 0] ∧
    handWithout [2, 1, 1, 3, 2] [4, 0] = [1, 1, 3] :=
  ⟨(highest_index_first_removal demoDoubleParryState .p1 [⟨2, 4⟩, ⟨2, 0⟩] (by decide)
      (by decide!)).1.trans (by decide!), by decide⟩


/-! ## The stuck riposte -/

theorem canAdvance_of_illegal (s : GameState) (player : PId) (cardIndex cardValue : Nat)
    (h : isMoveLegal s player cardValue (forwardDirection player) = false) :
    canAdvance s player cardIndex cardValue = false := by
  unfold canAdvance
  dsimp only
  rw [h]
  rfl

/-- Selecting a card that cannot be played offers no action. -/
theorem showTurnOptions_noPlay (s : GameState) (a : PId) (cardIndex cardValue : Nat)
    (hopt : s.options = [])
    (h : isMoveLegal s a cardValue (forwardDirection a) = false ∧
      isMoveLegal s a cardValue (-forwardDirection a) = false ∧ distance s a ≠ cardValue) :
    showTurnOptions s a cardIndex cardValue = s := by
  have hs : s = { s with options := [] } := by
    cases s
    simp only at hopt
    rw [hopt]
  unfold showTurnOptions
  dsimp only
  rw [h.1, h.2.1, if_neg h.2.2, canAdvance_of_illegal s a cardIndex cardValue h.1]
  simp only [Bool.false_eq_true, if_false, and_false, List.append_nil, ite_self]
  exact hs.symm

/-- In a stuck riposte no card selection by either player changes the state. -/
theorem handleCardSelection_stuck (s : GameState) (a : PId) (h : StuckRiposte s a)
    (playerId : PId) (cardIndex : Nat) : handleCardSelection s playerId cardIndex = s := by
  obtain ⟨hphase, hopt, hactive, hplay⟩ := h
  cases hcard : (s.player playerId).hand[cardIndex]? with
  | none => simp [handleCardSelection, hcard]
  | some cardValue =>
    by_cases hp : playerId = a
    · subst hp
      rw [handleCardSelection_inTurn s playerId cardIndex cardValue (Or.inr hphase) hactive
        hcard]
      exact showTurnOptions_noPlay s playerId cardIndex cardValue hopt
        (hplay cardValue (List.getElem?_mem hcard))
    · simp [handleCardSelection, hcard, hphase, hactive, Ne.symm hp]

/-- A stuck riposte stays stuck under every input but the new-match button. -/
theorem stuckRiposte_step (s : GameState) (a : PId) (h : StuckRiposte s a) (i : Input)
    (hi : ∀ selected rnd, i ≠ .newMatch selected rnd) : StuckRiposte (step s i) a := by
  cases i with
  | card playerId cardIndex =>
    show StuckRiposte (handleCardSelection s playerId cardIndex) a
    rw [handleCardSelection_stuck s a h]
    exact h
  | click k =>
    have e : step s (.click k) = s := by
      simp only [step, clickOption, h.2.1, List.getElem?_nil]
    rw [e]
    exact h
  | setMode mode => exact ⟨h.1, h.2.1, h.2.2.1, fun v hv => h.2.2.2 v hv⟩
  | newMatch selected rnd => exact absurd rfl (hi selected rnd)
  | nextRound selected rnd =>
    have hne : s.phase ≠ .roundEnd := by
      rw [h.1]
      decide
    have e : step s (.nextRound selected rnd) = s := by
      simp only [step, if_neg hne]
    rw [e]
    exact h

theorem stuckRiposte_run (s : GameState) (a : PId) (h : StuckRiposte s a)
    (inputs : List Input) (hin : ∀ i ∈ inputs, ∀ selected rnd, i ≠ .newMatch selected rnd) :
    StuckRiposte (run s inputs) a := by
  induction inputs generalizing s with
  | nil => exact h
  | cons i rest ih =>
    exact ih (step s i) (stuckRiposte_step s a h i (hin i (List.mem_cons_self _ _)))
      fun j hj => hin j (List.mem_cons_of_mem _ hj)

theorem stuckState_stuck : StuckRiposte stuckState .p1 :=
  ⟨by decide!, by decide!, by decide!, by decide!⟩

/-- Claim C23 (stuck riposte).  In a round in advanced mode player 1 parries
the attack of player 0 at distance 2 and is left, in phase `defender-turn`,
with the hand `[3, 3, 4, 4]`: no card gives a legal forward move, a legal
retreat or an attack at the distance, although the deck is not exhausted and
the stalemate check would answer true.  No action is offered, no card
selection by either player changes the state, and after any sequence of inputs
other than the new-match button the phase is still `defender-turn`: the round
never reaches `round-end`. -/
theorem stuck_riposte :
    Reachable stuckState ∧ stuckParryState.phase = .awaitParry ∧
    stuckState.mode = .advanced ∧ stuckState.phase = .defenderTurn ∧
    stuckState.activePlayer = some .p1 ∧ (stuckState.player .p1).hand = [3, 3, 4, 4] ∧
    stuckState.deckExhausted = false ∧ noPlay stuckState .p1 ∧
    checkNoLegalMoves stuckState .p1 = true ∧
    stuckState.options = [] ∧
    (∀ playerId cardIndex, step stuckState (.card playerId cardIndex) = stuckState) ∧
    (∀ inputs : List Input, (∀ i ∈ inputs, ∀ selected rnd, i ≠ .newMatch selected rnd) →
      (run stuckState inputs).phase = .defenderTurn ∧ (run stuckState inputs).options = [] ∧
      (run stuckState inputs).phase ≠ .roundEnd) := by
  have hr : Reachable stuckState := by
    unfold stuckState stuckParryState stuckStart
    exact Reachable.step _ (reachable_run (Reachable.start _ _ _) _)
  refine ⟨hr, by decide!, by decide!, by decide!, by decide!, by decide!, by decide!,
    by decide!, by decide!, by decide!,
    fun playerId cardIndex => handleCardSelection_stuck _ _ stuckState_stuck _ _,
    fun inputs hin => ?_⟩
  have h := stuckRiposte_run _ _ stuckState_stuck inputs hin
  refine ⟨h.1, h.2.1, ?_⟩
  rw [h.1]
  decide

/-- Claim C23, witness: card clicks of both players, a button click, a mode
change and the next-round button leave the riposte stuck. -/
theorem stuck_riposte_witness :
    (run stuckState
      [.card .p1 0, .card .p1 3, .card .p0 4, .click 0, .setMode .basic,
       .nextRound .basic demoRnd, .card .p1 2]).phase = .defenderTurn :=
  (stuck_riposte.2.2.2.2.2.2.2.2.2.2.2 _ (by
    intro i hi selected rnd
    simp only [List.mem_cons, List.mem_singleton, List.not_mem_nil, or_false] at hi
    rcases hi with rfl | rfl | rfl | rfl | rfl | rfl | rfl <;> exact Input.noConfusion)).1


/-! ## The physical cards -/

theorem length_allCards (s : GameState) : (allCards s).length = physicalCount s := by
  simp only [allCards, physicalCount, List.length_append]

/-- Claim C22 fails on the engine.  In the worked round the attack `[2, 2]` of
player 0 waits for the parry of player 1, who holds `[2, 1, 1, 3, 2]`.
Player 1 clicks the card at hand index 4 twice: the parry succeeds, one card
leaves the hand and two values 2 are put on the discard pile.  The reachable
result holds 26 cards, six of them with the value 2. -/
theorem physical_cards_after_repeated_parry :
    (¬ ∀ s, Reachable s →
      physicalCount s = 25 ∧ ∀ v ∈ [1, 2, 3, 4, 5], (allCards s).count v = 5) ∧
    Reachable (run demoDoubleParryState [.card .p1 4, .card .p1 4]) ∧
    physicalCount demoDoubleParryState = 25 ∧
    (∀ v ∈ [1, 2, 3, 4, 5], (allCards demoDoubleParryState).count v = 5) ∧
    (demoDoubleParryState.player .p1).hand = [2, 1, 1, 3, 2] ∧
    ((run demoDoubleParryState [.card .p1 4, .card .p1 4]).player .p1).hand = [2, 1, 1, 3] ∧
    (run demoDoubleParryState [.card .p1 4, .card .p1 4]).discard =
      demoDoubleParryState.discard ++ [2, 2] ∧
    physicalCount (run demoDoubleParryState [.card .p1 4, .card .p1 4]) = 26 ∧
    (allCards (run demoDoubleParryState [.card .p1 4, .card .p1 4])).count 2 = 6 := by
  have hr : Reachable (run demoDoubleParryState [.card .p1 4, .card .p1 4]) :=
    reachable_run demoDoubleParryState_reachable _
  have h26 : physicalCount (run demoDoubleParryState [.card .p1 4, .card .p1 4]) = 26 := by
    decide!
  refine ⟨fun h => ?_, hr, by decide!, by decide!, by decide!, by decide!, by decide!, h26,
    by decide!⟩
  exact absurd ((h _ hr).1.symm.trans h26) (by decide)


/-! ## The composition of the cards in play -/

theorem count_allCards (s : GameState) (v : Nat) : (allCards s).count v = valueCount s v := by
  simp only [allCards, valueCount, List.count_append]

theorem valueCount_drawCard (s : GameState) (id : PId) (v : Nat) :
    valueCount (drawCard s id) v = valueCount s v := by
  unfold drawCard
  cases hlast : s.deck.getLast? with
  | none => rfl
  | some card =>
    have hdeck : s.deck.dropLast ++ [card] = s.deck :=
      List.dropLast_append_getLast? card hlast
    have hcount : s.deck.dropLast.count v + [card].count v = s.deck.count v := by
      rw [← List.count_append, hdeck]
    cases id <;> simp only [GameState.setPlayer, GameState.player] <;> split_ifs <;>
      simp only [valueCount, List.count_append] <;> omega

theorem valueCount_drawLoop (fuel : Nat) (s : GameState) (id : PId) (v : Nat) :
    valueCount (drawLoop fuel s id) v = valueCount s v := by
  induction fuel generalizing s with
  | zero => rfl
  | succ fuel ih =>
    unfold drawLoop
    split_ifs
    · rw [ih, valueCount_drawCard]
    · rfl

theorem valueCount_drawIfAllowed (s : GameState) (id : PId) (v : Nat) :
    valueCount (drawIfAllowed s id) v = valueCount s v := by
  unfold drawIfAllowed
  split_ifs
  · cases id <;> rfl
  · exact valueCount_drawLoop _ s id v

theorem valueCount_dealInitialHands (s : GameState) (v : Nat) :
    valueCount (dealInitialHands s) v = valueCount s v := by
  unfold dealInitialHands
  generalize List.range HAND_SIZE = l
  induction l generalizing s with
  | nil => rfl
  | cons a l ih =>
    simp only [List.foldl_cons]
    rw [ih, valueCount_drawCard, valueCount_drawCard]

theorem buildDeck_perm (rnd : Nat → Nat) : (buildDeck rnd).Perm orderedDeck := by
  unfold buildDeck shuffle
  exact shuffleLoop_perm rnd _ orderedDeck (Or.inl (by decide))

theorem valueCount_startRound (s : GameState) (selected : Mode) (rnd : Nat → Nat) (v : Nat) :
    valueCount (startRound s selected rnd) v = orderedDeck.count v := by
  unfold startRound
  rw [valueCount_dealInitialHands]
  simp only [valueCount, List.count_nil, Nat.add_zero]
  exact (buildDeck_perm rnd).count_eq v

theorem valueCount_concludeRound (s : GameState) (w : Option PId) (v : Nat) :
    valueCount (concludeRound s w) v = valueCount s v := by
  unfold concludeRound
  cases w with
  | none => rfl
  | some w => cases w <;> rfl

/-- Playing the card at a hand index onto the discard pile, under its own
value, keeps the cards in play. -/
theorem valueCount_play (s : GameState) (player : PId) (cardIndex cardValue : Nat)
    (h : (s.player player).hand[cardIndex]? = some cardValue) (v : Nat) :
    valueCount (addToDiscard (removeCardFromHand s player cardIndex) cardValue) v =
      valueCount s v := by
  have hc := (eraseIdx_append_perm _ _ _ h).count_eq v
  rw [List.count_append] at hc
  cases player <;>
    simp only [GameState.player] at hc <;>
    simp only [valueCount, addToDiscard, removeCardFromHand, GameState.setPlayer,
      GameState.player, List.count_append] <;>
    omega


/-- A state with the cards of the deck whose offered actions are all among
`Pass`, `Finish attack` and `Parry`, outside the defence phases, satisfies the
deck invariant. -/
theorem deckInvariant_of_plain {t : GameState} (hc : ∀ v, valueCount t v = orderedDeck.count v)
    (hopt : ∀ o ∈ t.options, o = .pass ∨ o = .finishAttack ∨ o = .parryPrompt)
    (hph : ¬ inDefence t) : DeckInvariant t := by
  refine ⟨hc, fun o ho => ?_, fun h => absurd h hph⟩
  rcases hopt o ho with h | h | h <;> subst h <;> trivial

theorem deckInvariant_concludeRound (s : GameState) (w : Option PId)
    (hc : ∀ v, valueCount s v = orderedDeck.count v) : DeckInvariant (concludeRound s w) := by
  have hf := concludeRound_fields s w
  refine deckInvariant_of_plain (fun v => (valueCount_concludeRound s w v).trans (hc v)) ?_ ?_
  · intro o ho
    rw [hf.1] at ho
    exact absurd ho (List.not_mem_nil o)
  · simp [inDefence, hf.2]

theorem deckInvariant_endPlayerTurn (s : GameState) (player : PId)
    (hc : ∀ v, valueCount s v = orderedDeck.count v) :
    DeckInvariant (endPlayerTurn s player) := by
  unfold endPlayerTurn
  have hd : ∀ v, valueCount (drawIfAllowed s player) v = orderedDeck.count v :=
    fun v => (valueCount_drawIfAllowed s player v).trans (hc v)
  dsimp only
  split_ifs
  · exact deckInvariant_concludeRound _ _ hc
  · refine deckInvariant_of_plain hd ?_ ?_
    · intro o ho
      simp only [triggerFinalAttackPhase, List.mem_singleton] at ho
      exact Or.inl ho
    · simp [inDefence, triggerFinalAttackPhase]
  · refine deckInvariant_of_plain hd ?_ ?_
    · intro o ho
      simp at ho
    · simp [inDefence]

theorem valueCount_moved (s : GameState) (player : PId) (cardIndex cardValue : Nat)
    (position : Int) (h : (s.player player).hand[cardIndex]? = some cardValue) (v : Nat) :
    valueCount (addToDiscard ((removeCardFromHand s player cardIndex).setPlayer player
      { (removeCardFromHand s player cardIndex).player player with position := position })
      cardValue) v = valueCount s v := by
  rw [← valueCount_play s player cardIndex cardValue h v]
  cases player <;> rfl

theorem deckInvariant_movePlayer (s : GameState) (player : PId) (cardIndex cardValue : Nat)
    (direction : Int) (hc : ∀ v, valueCount s v = orderedDeck.count v)
    (hval : (s.player player).hand[cardIndex]? = some cardValue) :
    DeckInvariant (movePlayer s player cardIndex cardValue direction) := by
  unfold movePlayer
  dsimp only
  apply deckInvariant_endPlayerTurn
  intro v
  rw [valueCount_moved s player cardIndex cardValue _ hval v]
  exact hc v

theorem deckInvariant_finalizeAttack_some (s : GameState) (ctx : AttackContext)
    (hc : ∀ v, valueCount s v = orderedDeck.count v) (hctx : s.attackContext = some ctx) :
    DeckInvariant (finalizeAttack s) := by
  rw [finalizeAttack_some s ctx hctx]
  have hd : ∀ v, valueCount (drawToHand s ctx.attackerId) v = orderedDeck.count v :=
    fun v => (valueCount_drawLoop _ s ctx.attackerId v).trans (hc v)
  by_cases hb : (drawToHand s ctx.attackerId).mode = .basic ∧ ctx.type = .standard
  · rw [if_pos hb]
    exact deckInvariant_concludeRound _ _ hd
  · rw [if_neg hb]
    refine ⟨hd, fun o ho => ?_, fun _ c sel hc' hsel => ?_⟩
    · simp only [List.mem_cons, List.mem_ite_nil_right, List.mem_singleton, List.not_mem_nil,
        or_false] at ho
      rcases ho with ho | ⟨-, ho⟩ <;> subst ho
      · trivial
      · exact Or.inl rfl
    · simp only [Option.some.injEq] at hc'
      subst hc'
      simp only [Option.some.injEq] at hsel
      subst hsel
      simp

theorem deckInvariant_finalizeAttack (s : GameState) (hs : DeckInvariant s) :
    DeckInvariant (finalizeAttack s) := by
  cases hctx : s.attackContext with
  | none =>
    have e : finalizeAttack s = s := by
      unfold finalizeAttack
      rw [hctx]
    rw [e]
    exact hs
  | some ctx => exact deckInvariant_finalizeAttack_some s ctx hs.1 hctx

theorem deckInvariant_initiateAttack (s : GameState) (player : PId)
    (cardIndex cardValue : Nat) (type : AttackType)
    (hc : ∀ v, valueCount s v = orderedDeck.count v)
    (hval : (s.player player).hand[cardIndex]? = some cardValue) :
    DeckInvariant (initiateAttack s player cardIndex cardValue type) := by
  unfold initiateAttack
  dsimp only
  have hplay := valueCount_play s player cardIndex cardValue hval
  split_ifs
  · refine deckInvariant_of_plain (fun v => ?_) ?_ ?_
    · rw [← hc v, ← hplay v]
      rfl
    · intro o ho
      simp only [addToDiscard, List.mem_singleton] at ho
      exact Or.inr (Or.inl ho)
    · simp [inDefence, addToDiscard]
  · refine deckInvariant_finalizeAttack_some _ _ (fun v => ?_) rfl
    rw [← hc v, ← hplay v]
    rfl

theorem deckInvariant_handleAttackStrengthen (s : GameState) (cardIndex cardValue : Nat)
    (hs : DeckInvariant s) (hphase : s.phase = .attackStrengthen)
    (hval : ∀ ctx, s.attackContext = some ctx →
      (s.player ctx.attackerId).hand[cardIndex]? = some cardValue) :
    DeckInvariant (handleAttackStrengthen s cardIndex cardValue) := by
  unfold handleAttackStrengthen
  split
  · exact hs
  · rename_i ctx hctx
    dsimp only
    split_ifs
    · exact hs
    · have hplay := valueCount_play s ctx.attackerId cardIndex cardValue (hval ctx hctx)
      refine ⟨fun v => ?_, fun o ho => ?_, fun h => ?_⟩
      · rw [← hs.1 v, ← hplay v]
        rfl
      · simp only [addToDiscard, removeCardFromHand_options] at ho
        have hfit := hs.2.1 o ho
        cases o with
        | move p i v d => exact absurd hfit.1 (by simp [inTurn, hphase])
        | attack p i v => exact absurd hfit.1 (by simp [inTurn, hphase])
        | advance p i v => exact absurd hfit.1 (by simp [inTurn, hphase])
        | retreat d => exact absurd hfit (by simp [optionExact, inDefence, hphase])
        | cancelRetreat d => exact absurd hfit (by simp [optionExact, inDefence, hphase])
        | cancelAdvance p v => exact absurd hfit.1 (by simp [hphase])
        | finishAttack => trivial
        | parryPrompt => trivial
        | pass => trivial
      · exact absurd h (by simp [inDefence, addToDiscard, removeCardFromHand_phase, hphase])


/-- Discarding a selection of pairwise distinct indices of the defender's hand,
each recorded with the value of its card, keeps the cards in play. -/
theorem valueCount_discardParrySelection (s : GameState) (d : PId)
    (selection : List ParryItem)
    (hnodup : (selection.map fun item => item.cardIndex).Nodup)
    (hvalue : ∀ item ∈ selection, (s.player d).hand[item.cardIndex]? = some item.cardValue)
    (v : Nat) :
    valueCount (discardParrySelection s d selection) v = valueCount s v := by
  rw [discardParrySelection_eq]
  have hperm := (eraseFold_perm (sortSelection selection) (s.player d).hand
    (sortSelection_pairwise selection hnodup)
    (fun item hi => hvalue item ((sortSelection_perm selection).mem_iff.1 hi))).count_eq v
  rw [List.count_append] at hperm
  cases d <;>
    simp only [GameState.player] at hperm <;>
    simp only [valueCount, GameState.setPlayer, GameState.player, List.count_append] <;>
    omega

theorem deckInvariant_performRetreat (s : GameState) (cardIndex cardValue : Nat)
    (hs : DeckInvariant s)
    (hval : ∀ ctx, s.attackContext = some ctx →
      (s.player ctx.defenderId).hand[cardIndex]? = some cardValue) :
    DeckInvariant (performRetreat s cardIndex cardValue) := by
  unfold performRetreat
  split
  · exact hs
  · rename_i ctx hctx
    dsimp only
    split_ifs
    · refine deckInvariant_of_plain (fun v => ?_) (fun o ho => by simp at ho)
        (by simp [inDefence])
      have hplay := valueCount_play s ctx.defenderId cardIndex cardValue (hval ctx hctx) v
      rw [← hs.1 v, ← hplay]
      refine (valueCount_drawLoop _ _ ctx.defenderId v).trans ?_
      generalize ctx.defenderId = d
      cases d <;> rfl
    · exact hs

theorem deckInvariant_handleParrySelection (s : GameState) (cardIndex cardValue : Nat)
    (hs : DeckInvariant s) (hdef : inDefence s)
    (hval : ∀ ctx, s.attackContext = some ctx →
      (s.player ctx.defenderId).hand[cardIndex]? = some cardValue)
    (hfresh : s.phase = .awaitParry → ∀ ctx selection, s.attackContext = some ctx →
      ctx.parrySelection = some selection →
      cardIndex ∉ selection.map fun item => item.cardIndex) :
    DeckInvariant (handleParrySelection s cardIndex cardValue) := by
  by_cases hret : s.phase = .awaitRetreatCard
  · unfold handleParrySelection
    rw [if_pos hret]
    exact deckInvariant_performRetreat s cardIndex cardValue hs hval
  have hphase : s.phase = .awaitParry := hdef.resolve_right hret
  cases hctx : s.attackContext with
  | none =>
    have e : handleParrySelection s cardIndex cardValue = s := by
      unfold handleParrySelection
      rw [if_neg hret, hctx]
    rw [e]
    exact hs
  | some ctx =>
    cases hsel : ctx.parrySelection with
    | none =>
      have e : handleParrySelection s cardIndex cardValue = s := by
        unfold handleParrySelection
        rw [if_neg hret, hctx]
        dsimp only
        rw [hsel]
      rw [e]
      exact hs
    | some selection =>
      rw [handleParrySelection_eq s ctx selection cardIndex cardValue hphase hctx hsel]
      obtain ⟨hnodup, hvalue⟩ := hs.2.2 hdef ctx selection hctx hsel
      have hnew := hfresh hphase ctx selection hctx hsel
      have hnodup1 : ((selection ++ [(⟨cardValue, cardIndex⟩ : ParryItem)]).map
          fun item => item.cardIndex).Nodup := by
        rw [List.map_append, List.map_singleton]
        exact List.Nodup.append hnodup (List.nodup_singleton _)
          (List.disjoint_singleton.2 hnew)
      have hvalue1 : ∀ item ∈ selection ++ [(⟨cardValue, cardIndex⟩ : ParryItem)],
          (s.player ctx.defenderId).hand[item.cardIndex]? = some item.cardValue := by
        intro item hi
        rcases List.mem_append.1 hi with h | h
        · exact hvalue item h
        · rw [List.mem_singleton] at h
          subst h
          exact hval ctx hctx
      have hp : ∀ q, GameState.player
          { s with attackContext := some { ctx with parrySelection := some (selection ++ [⟨cardValue, cardIndex⟩]) } } q
          = s.player q := fun q => by cases q <;> rfl
      have hcount : ∀ v, valueCount (discardParrySelection
          { s with attackContext := some { ctx with parrySelection := some (selection ++ [⟨cardValue, cardIndex⟩]) } }
          ctx.defenderId (selection ++ [⟨cardValue, cardIndex⟩])) v = orderedDeck.count v := by
        intro v
        rw [valueCount_discardParrySelection _ _ _ hnodup1 (by rw [hp]; exact hvalue1)]
        exact hs.1 v
      split_ifs
      · rw [resolveParry_eq _ _ _ rfl rfl]
        refine deckInvariant_of_plain (fun v => ?_) (fun o ho => by simp at ho)
          (by simp [inDefence])
        rw [← hcount v]
        generalize discardParrySelection _ _ _ = t
        generalize ctx.defenderId = d
        cases d <;> rfl
      · exact deckInvariant_concludeRound _ _ hcount
      · refine ⟨hs.1, fun o ho => ?_, fun _ c sel hc hsel' => ?_⟩
        · have hfit := hs.2.1 o ho
          cases o <;> exact hfit
        · simp only [Option.some.injEq] at hc
          subst hc
          simp only [Option.some.injEq] at hsel'
          subst hsel'
          exact ⟨hnodup1, by simpa only [hp] using hvalue1⟩

theorem deckInvariant_initiateAdvance (s : GameState) (player : PId)
    (cardIndex cardValue : Nat) (hc : ∀ v, valueCount s v = orderedDeck.count v)
    (hval : (s.player player).hand[cardIndex]? = some cardValue) :
    DeckInvariant (initiateAdvance s player cardIndex cardValue) := by
  unfold initiateAdvance
  dsimp only
  have hplay := valueCount_play s player cardIndex cardValue hval
  refine ⟨fun v => ?_, fun o ho => ?_, fun h => ?_⟩
  · rw [← hc v, ← hplay v]
    cases player <;> rfl
  · simp only [List.mem_singleton] at ho
    subst ho
    simp [optionExact, addToDiscard, setPlayer_discard]
  · exact absurd h (by simp [inDefence])

theorem deckInvariant_cancelAdvance (s : GameState) (player : PId) (cardValue : Nat)
    (hc : ∀ v, valueCount s v = orderedDeck.count v)
    (hdisc : s.discard.getLast? = some cardValue) :
    DeckInvariant (cancelAdvance s player cardValue) := by
  unfold cancelAdvance
  dsimp only
  refine deckInvariant_of_plain (fun v => ?_) (fun o ho => by simp at ho) (by simp [inDefence])
  have hd : s.discard.dropLast ++ [cardValue] = s.discard :=
    List.dropLast_append_getLast? cardValue hdisc
  have hcount : s.discard.dropLast.count v + [cardValue].count v = s.discard.count v := by
    rw [← List.count_append, hd]
  rw [← hc v]
  cases player <;>
    simp only [valueCount, removeLastDiscard, GameState.setPlayer, GameState.player,
      List.count_append] <;>
    omega

theorem deckInvariant_finalizeAdvanceAttack (s : GameState) (player : PId)
    (cardIndex cardValue : Nat) (hs : DeckInvariant s)
    (hval : (s.player player).hand[cardIndex]? = some cardValue) :
    DeckInvariant (finalizeAdvanceAttack s player cardIndex cardValue) := by
  unfold finalizeAdvanceAttack
  split_ifs
  · exact hs
  · refine deckInvariant_initiateAttack _ _ _ _ _ hs.1 ?_
    cases player <;> exact hval

theorem deckInvariant_attemptFinalAttack (s : GameState) (cardIndex cardValue : Nat)
    (hs : DeckInvariant s)
    (hval : ∀ p, s.activePlayer = some p → (s.player p).hand[cardIndex]? = some cardValue) :
    DeckInvariant (attemptFinalAttack s cardIndex cardValue) := by
  unfold attemptFinalAttack
  split
  · exact hs
  · rename_i player hp
    split_ifs
    · exact hs
    · refine deckInvariant_initiateAttack _ _ _ _ _ hs.1 ?_
      have := hval player hp
      cases player <;> exact this

theorem deckInvariant_resolveDeckDepletion (s : GameState)
    (hc : ∀ v, valueCount s v = orderedDeck.count v) :
    DeckInvariant (resolveDeckDepletion s) := by
  unfold resolveDeckDepletion
  dsimp only
  split_ifs <;> exact deckInvariant_concludeRound _ _ hc

theorem deckInvariant_showTurnOptions (s : GameState) (player : PId)
    (cardIndex cardValue : Nat) (hs : DeckInvariant s) (hturn : inTurn s)
    (hval : (s.player player).hand[cardIndex]? = some cardValue) :
    DeckInvariant (showTurnOptions s player cardIndex cardValue) := by
  have hp : ∀ q, (showTurnOptions s player cardIndex cardValue).player q = s.player q :=
    fun q => by cases q <;> rfl
  have hph : (showTurnOptions s player cardIndex cardValue).phase = s.phase := rfl
  refine ⟨hs.1, fun o ho => ?_, fun h => ?_⟩
  · have hfits : inTurn (showTurnOptions s player cardIndex cardValue) ∧
        ((showTurnOptions s player cardIndex cardValue).player player).hand[cardIndex]? =
          some cardValue :=
      ⟨hturn, by rw [hp]; exact hval⟩
    simp only [showTurnOptions, List.mem_append, List.mem_ite_nil_right,
      List.mem_singleton] at ho
    rcases ho with (⟨-, ⟨-, rfl⟩ | ⟨-, rfl⟩⟩ | ⟨-, rfl⟩) | ⟨-, rfl⟩ <;> exact hfits
  · rcases hturn with h1 | h1 <;> rcases h with h2 | h2 <;> rw [hph, h1] at h2 <;>
      exact absurd h2 (by decide)


theorem deckInvariant_handleCardSelection (s : GameState) (playerId : PId) (cardIndex : Nat)
    (hs : DeckInvariant s) (hnew : ¬ repeatsParryIndex s (.card playerId cardIndex)) :
    DeckInvariant (handleCardSelection s playerId cardIndex) := by
  unfold handleCardSelection
  split
  · exact hs
  · rename_i cardValue hcard
    split
    · split_ifs
      · exact deckInvariant_finalizeAdvanceAttack _ _ _ _ hs hcard
      · exact hs
    · split
      · rename_i hphase
        split_ifs
        · exact hs
        · exact deckInvariant_showTurnOptions _ _ _ _ hs (Or.inl hphase) hcard
      · rename_i hphase
        split_ifs with hatt
        · exact hs
        · refine deckInvariant_handleAttackStrengthen _ _ _ hs hphase fun ctx hctx => ?_
          simp only [hctx, Option.map_some', ne_eq, Option.some.injEq, not_not] at hatt
          rw [hatt]
          exact hcard
      · rename_i hphase
        split_ifs with hdef
        · exact hs
        · refine deckInvariant_handleParrySelection _ _ _ hs (Or.inl hphase)
            (fun ctx hctx => ?_) (fun _ ctx selection hctx hsel hmem => ?_)
          · simp only [hctx, Option.map_some', ne_eq, Option.some.injEq, not_not] at hdef
            rw [hdef]
            exact hcard
          · simp only [hctx, Option.map_some', ne_eq, Option.some.injEq, not_not] at hdef
            apply hnew
            simp only [repeatsParryIndex, hctx, hsel, Option.getD_some]
            exact ⟨hphase, hdef, hmem⟩
      · rename_i hphase
        split_ifs with hdef
        · exact hs
        · refine deckInvariant_handleParrySelection _ _ _ hs (Or.inr hphase)
            (fun ctx hctx => ?_) (fun hp => ?_)
          · simp only [hctx, Option.map_some', ne_eq, Option.some.injEq, not_not] at hdef
            rw [hdef]
            exact hcard
          · rw [hphase] at hp
            exact absurd hp (by decide)
      · split_ifs with hact
        · exact hs
        · refine deckInvariant_attemptFinalAttack _ _ _ hs fun p hp => ?_
          simp only [hp, ne_eq, Option.some.injEq, not_not] at hact
          rw [hact]
          exact hcard
      · rename_i hphase
        split_ifs
        · exact hs
        · exact deckInvariant_showTurnOptions _ _ _ _ hs (Or.inr hphase) hcard
      · exact hs

theorem deckInvariant_runOption (s : GameState) (o : ActionOption)
    (hs : DeckInvariant s) (ho : o ∈ s.options) : DeckInvariant (runOption s o) := by
  have hfit := hs.2.1 o ho
  cases o with
  | move player cardIndex cardValue direction =>
    refine deckInvariant_movePlayer _ _ _ _ _ hs.1 ?_
    cases player <;> exact hfit.2
  | attack player cardIndex cardValue =>
    refine deckInvariant_initiateAttack _ _ _ _ _ hs.1 ?_
    cases player <;> exact hfit.2
  | advance player cardIndex cardValue =>
    refine deckInvariant_initiateAdvance _ _ _ _ hs.1 ?_
    cases player <;> exact hfit.2
  | finishAttack => exact deckInvariant_finalizeAttack s hs
  | parryPrompt => exact hs
  | retreat defender =>
    refine ⟨hs.1, fun o ho => ?_, fun _ ctx sel hctx hsel => ?_⟩
    · simp only [runOption, initiateRetreat, List.mem_singleton] at ho
      subst ho
      exact Or.inr rfl
    · have h := hs.2.2 hfit ctx sel hctx hsel
      have hp : ∀ q, (runOption s (.retreat defender)).player q = s.player q :=
        fun q => by cases q <;> rfl
      exact ⟨h.1, fun item hi => by rw [hp]; exact h.2 item hi⟩
  | cancelRetreat defender =>
    refine ⟨hs.1, fun o ho => ?_, fun _ ctx sel hctx hsel => ?_⟩
    · simp only [runOption, cancelRetreat, List.mem_singleton] at ho
      subst ho
      trivial
    · have h := hs.2.2 hfit ctx sel hctx hsel
      have hp : ∀ q, (runOption s (.cancelRetreat defender)).player q = s.player q :=
        fun q => by cases q <;> rfl
      exact ⟨h.1, fun item hi => by rw [hp]; exact h.2 item hi⟩
  | cancelAdvance player cardValue =>
    exact deckInvariant_cancelAdvance s player cardValue hs.1 hfit.2
  | pass => exact deckInvariant_resolveDeckDepletion s hs.1

theorem deckInvariant_startRound (s : GameState) (selected : Mode) (rnd : Nat → Nat) :
    DeckInvariant (startRound s selected rnd) := by
  refine deckInvariant_of_plain (valueCount_startRound s selected rnd) ?_ ?_
  · intro o ho
    unfold startRound at ho
    rw [(dealInitialHands_frame _).1] at ho
    exact absurd ho (List.not_mem_nil o)
  · unfold startRound inDefence
    rw [(dealInitialHands_frame _).2]
    simp

theorem deckInvariant_step (s : GameState) (i : Input) (hs : DeckInvariant s)
    (hnew : ¬ repeatsParryIndex s i) : DeckInvariant (step s i) := by
  cases i with
  | card playerId cardIndex =>
    exact deckInvariant_handleCardSelection s playerId cardIndex hs hnew
  | click k =>
    simp only [step, clickOption]
    split
    · exact hs
    · rename_i o ho
      exact deckInvariant_runOption s o hs (List.getElem?_mem ho)
  | setMode mode =>
    refine ⟨hs.1, fun o ho => ?_, fun h ctx sel hctx hsel => ?_⟩
    · have hfit := hs.2.1 o ho
      cases o <;> exact hfit
    · exact hs.2.2 h ctx sel hctx hsel
  | newMatch selected rnd =>
    simp only [step, startNewMatch]
    exact deckInvariant_startRound _ _ _
  | nextRound selected rnd =>
    simp only [step, startNextRound]
    split_ifs
    · exact hs
    · exact deckInvariant_startRound _ _ _
    · exact hs

theorem deckInvariant_of_reachableDistinct {s : GameState} (h : ReachableDistinct s) :
    DeckInvariant s := by
  induction h with
  | start s0 selected rnd => exact deckInvariant_startRound s0 selected rnd
  | step i _ hnew ih => exact deckInvariant_step _ i ih hnew

/-- The property of claim C22 on the input sequences in which no parry
selection repeats a hand index: deck, discard pile and hands together are a
permutation of the deck that was built, that is 25 cards, five of each of the
values 1 to 5. -/
theorem physical_cards_distinct (s : GameState) (h : ReachableDistinct s) :
    (allCards s).Perm orderedDeck ∧ physicalCount s = 25 ∧
    ∀ v ∈ [1, 2, 3, 4, 5], (allCards s).count v = 5 := by
  have hc := (deckInvariant_of_reachableDistinct h).1
  have hperm : (allCards s).Perm orderedDeck :=
    List.perm_iff_count.2 fun v => (count_allCards s v).trans (hc v)
  refine ⟨hperm, ?_, fun v hv => ?_⟩
  · rw [← length_allCards, hperm.length_eq]
    rfl
  · rw [hperm.count_eq]
    simp only [List.mem_cons, List.mem_singleton, List.not_mem_nil, or_false] at hv
    rcases hv with rfl | rfl | rfl | rfl | rfl <;> rfl

theorem physical_cards_distinct_example :
    (allCards demoStrengthenState).Perm orderedDeck :=
  (physical_cards_distinct demoStrengthenState demoStrengthenState_reachableDistinct).1


/-! ## The parried final attack -/

theorem endgameRiposteState_stuck : StuckRiposte endgameRiposteState .p0 :=
  ⟨by decide!, by decide!, by decide!, by decide!⟩

/-- Claim C15, at a failing input.  In the endgame round the deck is exhausted
and the final-attack window is open for player 1 at distance 1.  Player 1
attacks with a 1 and finishes the attack, and player 0 parries with a 1.  The
claim has the deck-exhaustion resolution applied and the round ended.  The
engine gives player 0 a riposte turn instead: phase `defender-turn`, scores
unchanged, hand `[2, 4, 4]`, and with the deck exhausted no move is offered.
No card selection changes the state and no action is offered, so no input but
the new-match button ever ends the round.  The other ways out of the same
window all end it: `Pass`, a failed parry, and in basic mode the attack
itself. -/
theorem final_attack_parry_dead_end :
    (¬ ∀ s a i j v, Reachable s → s.phase = .finalAttack → s.mode ≠ .basic →
      s.activePlayer = some a → (s.player a).hand[i]? = some v → distance s a = v →
      (s.player a.other).hand[j]? = some v →
      (run s [.card a i, .click 0, .card a.other j]).phase = .roundEnd) ∧
    Reachable endgameRiposteState ∧
    endgameFinalAttackState.phase = .finalAttack ∧
    endgameFinalAttackState.deckExhausted = true ∧
    endgameFinalAttackState.activePlayer = some .p1 ∧
    endgameParryState.phase = .awaitParry ∧
    endgameRiposteState = run endgameFinalAttackState [.card .p1 0, .click 0, .card .p0 0] ∧
    endgameRiposteState.attackContext = none ∧
    endgameRiposteState.phase = .defenderTurn ∧
    endgameRiposteState.activePlayer = some .p0 ∧
    endgameRiposteState.deckExhausted = true ∧
    (endgameRiposteState.player .p0).hand = [2, 4, 4] ∧
    distance endgameRiposteState .p0 = 1 ∧
    endgameRiposteState.options = [] ∧
    endgameRiposteState.player0.score = 0 ∧
    endgameRiposteState.player1.score = 0 ∧
    (∀ playerId cardIndex,
      step endgameRiposteState (.card playerId cardIndex) = endgameRiposteState) ∧
    (∀ inputs : List Input, (∀ i ∈ inputs, ∀ selected rnd, i ≠ .newMatch selected rnd) →
      (run endgameRiposteState inputs).phase = .defenderTurn ∧
      (run endgameRiposteState inputs).phase ≠ .roundEnd) ∧
    (run endgameFinalAttackState [.click 0]).phase = .roundEnd ∧
    (run endgameParryState [.card .p0 1]).phase = .roundEnd ∧
    (run endgameFinalAttackState [.setMode .basic, .card .p1 0]).phase = .roundEnd := by
  have hf : Reachable endgameFinalAttackState := by
    unfold endgameFinalAttackState endgameStart
    exact reachable_run (Reachable.start _ _ _) _
  have hr : Reachable endgameRiposteState := by
    unfold endgameRiposteState
    exact Reachable.step _ endgameParryState_reachable
  have hrun : endgameRiposteState =
      run endgameFinalAttackState [.card .p1 0, .click 0, .card .p0 0] := by decide!
  have hphase : endgameRiposteState.phase = .defenderTurn := by decide!
  refine ⟨fun h => ?_, hr, by decide!, by decide!, by decide!, by decide!, hrun, by decide!,
    hphase, by decide!, by decide!, by decide!, by decide!, by decide!, by decide!, by decide!,
    fun playerId cardIndex => handleCardSelection_stuck _ _ endgameRiposteState_stuck _ _,
    fun inputs hin => ?_, by decide!, by decide!, by decide!⟩
  · have h1 := h endgameFinalAttackState .p1 0 0 1 hf (by decide!) (by decide!) (by decide!)
      (by decide!) (by decide!) (by decide!)
    have h2 : (run endgameFinalAttackState
        [.card .p1 0, .click 0, .card (PId.other .p1) 0]).phase = .defenderTurn := by decide!
    have h3 : Phase.defenderTurn = Phase.roundEnd := h2.symm.trans h1
    exact absurd h3 (by decide)
  · have hs := (stuckRiposte_run _ _ endgameRiposteState_stuck inputs hin).1
    refine ⟨hs, ?_⟩
    rw [hs]
    decide

/-- Claim C15, the failing input continued: card clicks of both players, a
button click, a mode change and the next-round button leave the parried final
attack where it is. -/
theorem final_attack_parry_dead_end_witness :
    (run endgameRiposteState
      [.card .p0 0, .card .p0 2, .card .p1 1, .click 0, .setMode .basic,
       .nextRound .basic demoRnd, .card .p0 1]).phase = .defenderTurn :=
  (final_attack_parry_dead_end.2.2.2.2.2.2.2.2.2.2.2.2.2.2.2.2.2.1 _ (by
    intro i hi selected rnd
    simp only [List.mem_cons, List.mem_singleton, List.not_mem_nil, or_false] at hi
    rcases hi with rfl | rfl | rfl | rfl | rfl | rfl | rfl <;> exact Input.noConfusion)).1

end DuelX
